import Mathlib

set_option maxRecDepth 4000

/- Shallow embedding of the execution layer of the index-selection evaluator:
   `selection/database_connector.py` and `selection/dbms/postgres_dbms.py`.
   Query texts and SQL statements are modelled as lists of characters,
   database rows as a Python-like value type, and the connector session as a
   state/trace-passing interpreter parameterised by an environment that fixes
   the database's response to each statement and the wall clock. -/

abbrev Str := List Char

def str (s : String) : Str := s.toList

/- Python `needle in hay` (substring test), `str.startswith`, `str.split(sep)`,
   `str.lstrip()/.strip()`, `str.replace(old, new)` for a single-character or
   multi-character pattern, and f-string rendering of integers. -/

def isPrefixL : Str → Str → Bool
  | [], _ => true
  | _ :: _, [] => false
  | a :: as, b :: bs => a == b && isPrefixL as bs

def containsSub : Str → Str → Bool
  | [], needle => isPrefixL needle []
  | c :: t, needle => isPrefixL needle (c :: t) || containsSub t needle

def splitChar (sep : Char) : Str → List Str
  | [] => [[]]
  | c :: t =>
    if c = sep then [] :: splitChar sep t
    else
      match splitChar sep t with
      | [] => [[c]]
      | h :: r => (c :: h) :: r

def pySpace (c : Char) : Bool :=
  c == ' ' || c == '\t' || c == '\n' || c == '\r' || c == '\x0b' || c == '\x0c'

def lstripL (s : Str) : Str := s.dropWhile pySpace

def stripL (s : Str) : Str := ((lstripL s).reverse.dropWhile pySpace).reverse

def replaceLF (pat rep : Str) : Nat → Str → Str
  | _, [] => []
  | 0, s => s
  | fuel + 1, c :: t =>
    if pat ≠ [] ∧ isPrefixL pat (c :: t) then
      rep ++ replaceLF pat rep fuel (List.drop (pat.length - 1) t)
    else
      c :: replaceLF pat rep fuel t

def replaceL (pat rep s : Str) : Str := replaceLF pat rep s.length s

def natStr (n : Nat) : Str := Nat.toDigits 10 n

def intStr (n : Int) : Str :=
  if n < 0 then '-' :: natStr n.natAbs else natStr n.natAbs

/- Python values as returned by the database driver and manipulated by the
   connector: None, booleans, integers, strings, lists and dicts. -/

inductive PyVal : Type where
  | none : PyVal
  | bool : Bool → PyVal
  | int : Int → PyVal
  | str : Str → PyVal
  | list : List PyVal → PyVal
  | dict : List (Str × PyVal) → PyVal

/- Python identity tests against the singletons None and True, as written in
   the source (`histogram_bounds is None`, `result is not None`,
   `result[0] is True`). -/

def isNonePy : PyVal → Bool
  | PyVal.none => true
  | _ => false

def isTruePy : PyVal → Bool
  | PyVal.bool true => true
  | _ => false

/- Python exception classes distinguished by the connector code:
   psycopg2.OperationalError is caught by `exec_fetch`; other driver errors
   (malformed statement, constraint violation), TypeError/IndexError/KeyError
   from subscripting, AttributeError, AssertionError and plain Exception all
   propagate. -/

inductive PyErr : Type where
  | operational : PyErr
  | programming : PyErr
  | integrity : PyErr
  | typeErr : PyErr
  | indexErr : PyErr
  | keyErr : PyErr
  | attributeErr : PyErr
  | assertionErr : PyErr
  | exception : PyErr
deriving DecidableEq

def pyTruthy : PyVal → Bool
  | PyVal.none => false
  | PyVal.bool b => b
  | PyVal.int n => decide (n ≠ 0)
  | PyVal.str s => decide (s ≠ [])
  | PyVal.list [] => false
  | PyVal.list (_ :: _) => true
  | PyVal.dict [] => false
  | PyVal.dict (_ :: _) => true

/- Python subscription `a[b]`: list and string indexing (negative indexes wrap
   once, as in Python) and dict key lookup. -/

def pyIndex (xs : List PyVal) (n : Int) : Except PyErr PyVal :=
  let i : Int := if n < 0 then n + xs.length else n
  if 0 ≤ i then
    match xs.get? i.toNat with
    | some v => Except.ok v
    | Option.none => Except.error PyErr.indexErr
  else Except.error PyErr.indexErr

def pySub : PyVal → PyVal → Except PyErr PyVal
  | PyVal.list xs, PyVal.int n => pyIndex xs n
  | PyVal.str s, PyVal.int n =>
    let i : Int := if n < 0 then n + s.length else n
    if 0 ≤ i then
      match s.get? i.toNat with
      | some c => Except.ok (PyVal.str [c])
      | Option.none => Except.error PyErr.indexErr
    else Except.error PyErr.indexErr
  | PyVal.dict kvs, PyVal.str k =>
    match kvs.find? (fun kv => kv.1 == k) with
    | some kv => Except.ok kv.2
    | Option.none => Except.error PyErr.keyErr
  | PyVal.dict _, _ => Except.error PyErr.keyErr
  | _, _ => Except.error PyErr.typeErr

/- Python `str(x)` / `repr(x)` as used by f-string interpolation. -/

def lexLtChar (a b : Char) : Bool := decide (a < b)

def joinCommaSep : List Str → Str
  | [] => []
  | [s] => s
  | s :: r => s ++ str ", " ++ joinCommaSep r

mutual
def reprPy : PyVal → Str
  | PyVal.none => str "None"
  | PyVal.bool true => str "True"
  | PyVal.bool false => str "False"
  | PyVal.int n => intStr n
  | PyVal.str s => '\'' :: (s ++ ['\''])
  | PyVal.list xs => '[' :: (joinCommaSep (reprPyList xs) ++ [']'])
  | PyVal.dict kvs => Char.ofNat 123 :: (joinCommaSep (reprPyKVs kvs) ++ [Char.ofNat 125])

def reprPyList : List PyVal → List Str
  | [] => []
  | v :: vs => reprPy v :: reprPyList vs

def reprPyKVs : List (Str × PyVal) → List Str
  | [] => []
  | kv :: rest => (('\'' :: (kv.1 ++ ['\''])) ++ str ": " ++ reprPy kv.2) :: reprPyKVs rest
end

def strPy : PyVal → Str
  | PyVal.str s => s
  | v => reprPy v

/- Python `sorted(x)` for the shapes the source can feed it: a string is
   sorted into its characters; a homogeneous list of ints or of strings is
   sorted by the Python order; anything else raises TypeError (mixed types or
   an unorderable/unsortable value). -/

def insOrd (le : α → α → Bool) (x : α) : List α → List α
  | [] => [x]
  | y :: ys => if le x y then x :: y :: ys else y :: insOrd le x ys

def insSortBy (le : α → α → Bool) : List α → List α
  | [] => []
  | x :: xs => insOrd le x (insSortBy le xs)

def lexLeStr : Str → Str → Bool
  | [], _ => true
  | _ :: _, [] => false
  | a :: as, b :: bs => if a = b then lexLeStr as bs else lexLtChar a b

def allIntsP : List PyVal → Bool
  | [] => true
  | PyVal.int _ :: r => allIntsP r
  | _ => false

def allStrsP : List PyVal → Bool
  | [] => true
  | PyVal.str _ :: r => allStrsP r
  | _ => false

def pyLeVal : PyVal → PyVal → Bool
  | PyVal.int a, PyVal.int b => decide (a ≤ b)
  | PyVal.str a, PyVal.str b => lexLeStr a b
  | _, _ => true

def pySorted : PyVal → Except PyErr (List PyVal)
  | PyVal.str s => Except.ok ((insSortBy (fun a b => decide (a ≤ b)) s).map (fun c => PyVal.str [c]))
  | PyVal.list xs =>
    if allIntsP xs || allStrsP xs then Except.ok (insSortBy pyLeVal xs)
    else Except.error PyErr.typeErr
  | _ => Except.error PyErr.typeErr

/- Python iteration (`for x in v`) and `v.replace(...)` (strings only),
   and `x * k` for the integer multiplications done on fetched sizes. -/

def pyIterate : PyVal → Except PyErr (List PyVal)
  | PyVal.list xs => Except.ok xs
  | PyVal.str s => Except.ok (s.map (fun c => PyVal.str [c]))
  | PyVal.dict kvs => Except.ok (kvs.map (fun kv => PyVal.str kv.1))
  | _ => Except.error PyErr.typeErr

def asStr : PyVal → Except PyErr Str
  | PyVal.str s => Except.ok s
  | _ => Except.error PyErr.attributeErr

def repeatL (k : Int) (s : List α) : List α :=
  (List.range k.toNat).foldl (fun acc _ => acc ++ s) []

def pyMulConst : PyVal → Int → Except PyErr PyVal
  | PyVal.int n, k => Except.ok (PyVal.int (n * k))
  | PyVal.bool b, k => Except.ok (PyVal.int ((if b then 1 else 0) * k))
  | PyVal.str s, k => Except.ok (PyVal.str (repeatL k s))
  | PyVal.list xs, k => Except.ok (PyVal.list (repeatL k xs))
  | _, _ => Except.error PyErr.typeErr

/- ## Session model

   The environment fixes, for every SQL statement text, the database's
   response to `cursor.execute` (rows available to fetch, or one of the
   driver's error classes) and the wall clock read by `time.time()` (a
   rational timestamp per successive call). -/

inductive ExecOutcome : Type where
  | ok : List PyVal → ExecOutcome
  | opErr : ExecOutcome
  | progErr : ExecOutcome
  | integrityErr : ExecOutcome

structure Env where
  fetch : Str → ExecOutcome
  time : Nat → ℚ

/- Observable session events: statements sent to the cursor, transaction
   commits and rollbacks, and closing the connection. -/

inductive Event : Type where
  | exec : Str → Event
  | commit : Event
  | rollback : Event
  | close : Event
deriving DecidableEq

/- The connector instance's mutable state: the session's statement_timeout
   (0 = unlimited), the clock-call counter, the connection's autocommit flag
   together with the constructor-recorded `self.autocommit`, and the six
   instrumentation fields set up in `DatabaseConnector.__init__`. -/

structure ConnState where
  timeout : Nat
  tick : Nat
  autocommitConn : Bool
  autocommitInit : Bool
  simulated_indexes : Nat
  simulated_partitions : Nat
  cost_estimations : Nat
  cost_estimation_duration : ℚ
  index_simulation_duration : ℚ
  partition_simulation_duration : ℚ
deriving DecidableEq

/- A method run: result (or propagated Python exception), final state, and
   the trace of session events it produced. -/

structure MR (α : Type) where
  res : Except PyErr α
  st : ConnState
  tr : List Event

def M (α : Type) : Type := ConnState → MR α

def mpure (a : α) : M α := fun s => ⟨Except.ok a, s, []⟩

def mbind (x : M α) (f : α → M β) : M β := fun s =>
  match x s with
  | ⟨Except.ok a, s1, t1⟩ =>
    match f a s1 with
    | ⟨r, s2, t2⟩ => ⟨r, s2, t1 ++ t2⟩
  | ⟨Except.error e, s1, t1⟩ => ⟨Except.error e, s1, t1⟩

def mlift (e : Except PyErr α) : M α := fun s => ⟨e, s, []⟩

def mraise (e : PyErr) : M α := fun s => ⟨Except.error e, s, []⟩

/- `try ... except Exception: handler` -/
def mcatch (x : M α) (h : PyErr → M α) : M α := fun s =>
  match x s with
  | ⟨Except.error e, s1, t1⟩ =>
    match h e s1 with
    | ⟨r, s2, t2⟩ => ⟨r, s2, t1 ++ t2⟩
  | ⟨Except.ok a, s1, t1⟩ => ⟨Except.ok a, s1, t1⟩

def modifyS (f : ConnState → ConnState) : M Unit := fun s => ⟨Except.ok (), f s, []⟩

def readClock (env : Env) : M ℚ := fun s =>
  ⟨Except.ok (env.time s.tick), { s with tick := s.tick + 1 }, []⟩

/- `self._connection.commit()` / `.rollback()` / `.close()` -/

def commitM : M Unit := fun s => ⟨Except.ok (), s, [Event.commit]⟩

def rollbackM : M Unit := fun s => ⟨Except.ok (), s, [Event.rollback]⟩

def closeM : M Unit := fun s => ⟨Except.ok (), s, [Event.close]⟩

/- `self._cursor.execute(statement)`: the statement reaches the server (so it
   is recorded in the trace) and either succeeds or raises the error class
   the environment assigns to it. -/

def execVal (env : Env) (stmt : Str) : Except PyErr Unit :=
  match env.fetch stmt with
  | ExecOutcome.ok _ => Except.ok ()
  | ExecOutcome.opErr => Except.error PyErr.operational
  | ExecOutcome.progErr => Except.error PyErr.programming
  | ExecOutcome.integrityErr => Except.error PyErr.integrity

/- `DatabaseConnector.exec_only` -/
def exec_only (env : Env) (stmt : Str) : M Unit := fun s =>
  ⟨execVal env stmt, s, [Event.exec stmt]⟩

/- Value returned by `DatabaseConnector.exec_fetch`: fetchone/fetchall on
   success, and on psycopg2.OperationalError the error is logged and the
   method falls through, returning Python None. -/

def fetchVal (env : Env) (stmt : Str) (one : Bool) : Except PyErr PyVal :=
  match env.fetch stmt with
  | ExecOutcome.ok rows => Except.ok (if one then rows.head?.getD PyVal.none else PyVal.list rows)
  | ExecOutcome.opErr => Except.ok PyVal.none
  | ExecOutcome.progErr => Except.error PyErr.programming
  | ExecOutcome.integrityErr => Except.error PyErr.integrity

/- `DatabaseConnector.exec_fetch` -/
def exec_fetch (env : Env) (stmt : Str) (one : Bool) : M PyVal := fun s =>
  ⟨fetchVal env stmt one, s, [Event.exec stmt]⟩

/- ## Candidate descriptors

   Modelled from the spec: the Index, Column and Partition candidate classes
   live outside the two source files (they belong to the surrounding
   selection framework), so they are modelled as records carrying exactly the
   attributes and accessor results the connector code reads: an index's owning
   table, joined column-name string and physical identifier; a column's table,
   name, lazily-set type, three boundary statistics and its text-or-date
   test; a partition's owning table and column. -/

structure Index where
  table : Str
  joined_column_names : Str
  index_idx : Str
  estimated_size : PyVal

structure Column where
  table : Str
  name : Str
  type : PyVal
  minimum : PyVal
  median : PyVal
  maximum : PyVal
  is_text_or_date : Bool

structure Partition where
  table : Str
  column : Column

/- A workload query: sequential identifier and raw multi-statement text. -/

structure Query where
  nr : Nat
  text : Str

/- ## DatabaseConnector / PostgresDatabaseConnector methods -/

/- `DatabaseConnector._prepare_query`: split on ";", execute `create view`
   sub-statements (tolerating and logging each failure), return the first
   remaining sub-statement containing "select" or "SELECT". -/

def _prepare_query_go (env : Env) : List Str → M (Option Str)
  | [] => mpure Option.none
  | seg :: rest =>
    if containsSub seg (str "create view") then
      mbind (mcatch (exec_only env seg) (fun _ => mpure ())) fun _ =>
      _prepare_query_go env rest
    else if containsSub seg (str "select") || containsSub seg (str "SELECT") then
      mpure (some seg)
    else
      _prepare_query_go env rest

def _prepare_query (env : Env) (q : Query) : M (Option Str) :=
  _prepare_query_go env (splitChar ';' q.text)

/- `PostgresDatabaseConnector._cleanup_query`: execute every `drop view`
   sub-statement and commit after each. -/

def _cleanup_query_go (env : Env) : List Str → M Unit
  | [] => mpure ()
  | seg :: rest =>
    if containsSub seg (str "drop view") then
      mbind (exec_only env seg) fun _ =>
      mbind commitM fun _ =>
      _cleanup_query_go env rest
    else
      _cleanup_query_go env rest

def _cleanup_query (env : Env) (q : Query) : M Unit :=
  _cleanup_query_go env (splitChar ';' q.text)

/- f-string interpolation of the optional prepared text (None renders as
   "None"). -/

def optStr : Option Str → Str
  | some s => s
  | Option.none => str "None"

def analyzeStmt (qt : Option Str) : Str :=
  str "explain (analyze, buffers, format json) " ++ optStr qt

def planStmt (qt : Option Str) : Str :=
  str "explain (format json) " ++ optStr qt

/- `result[0][0]["Plan"]` -/
def extractPlan (v : PyVal) : Except PyErr PyVal :=
  match pySub v (PyVal.int 0) with
  | Except.error e => Except.error e
  | Except.ok a =>
    match pySub a (PyVal.int 0) with
    | Except.error e => Except.error e
    | Except.ok b => pySub b (PyVal.str (str "Plan"))

/- `PostgresDatabaseConnector._get_plan` -/
def _get_plan (env : Env) (q : Query) : M PyVal :=
  mbind (_prepare_query env q) fun qt =>
  mbind (exec_fetch env (planStmt qt) true) fun qp =>
  mbind (if pyTruthy qp then mlift (extractPlan qp) else mraise PyErr.exception) fun plan =>
  mbind (_cleanup_query env q) fun _ =>
  mpure plan

/- `PostgresDatabaseConnector._get_cost` -/
def _get_cost (env : Env) (q : Query) : M PyVal :=
  mbind (_get_plan env q) fun plan =>
  mlift (pySub plan (PyVal.str (str "Total Cost")))

/- The timing wrapper duplicated across the instrumented entry points:
   `start_time = time.time(); r = inner; end_time = time.time();
   accumulator += end_time - start_time`.  If `inner` raises, the elapsed
   time is never recorded. -/

def timed (env : Env) (record : ℚ → ConnState → ConnState) (inner : M α) : M α :=
  mbind (readClock env) fun t1 =>
  mbind inner fun r =>
  mbind (readClock env) fun t2 =>
  mbind (modifyS (record (t2 - t1))) fun _ =>
  mpure r

def addIndexDur (d : ℚ) (s : ConnState) : ConnState :=
  { s with index_simulation_duration := s.index_simulation_duration + d }

def addPartDur (d : ℚ) (s : ConnState) : ConnState :=
  { s with partition_simulation_duration := s.partition_simulation_duration + d }

def addCostDur (d : ℚ) (s : ConnState) : ConnState :=
  { s with cost_estimation_duration := s.cost_estimation_duration + d }

def simIdxStmt (idx : Index) : Str :=
  str "select * from hypopg_create_index( 'create index on " ++ idx.table ++
    str " (" ++ idx.joined_column_names ++ str ")')"

/- `PostgresDatabaseConnector._simulate_index` -/
def _simulate_index (env : Env) (idx : Index) : M PyVal :=
  exec_fetch env (simIdxStmt idx) true

/- `DatabaseConnector.simulate_index` -/
def simulate_index (env : Env) (idx : Index) : M PyVal :=
  mbind (modifyS fun s => { s with simulated_indexes := s.simulated_indexes + 1 }) fun _ =>
  timed env addIndexDur (_simulate_index env idx)

def dropIdxStmt (oid : Nat) : Str :=
  str "select * from hypopg_drop_index(" ++ natStr oid ++ str ")"

/- `PostgresDatabaseConnector._drop_simulated_index`:
   `assert result[0] is True` -/
def _drop_simulated_index (env : Env) (oid : Nat) : M Unit :=
  mbind (exec_fetch env (dropIdxStmt oid) true) fun result =>
  mbind (mlift (pySub result (PyVal.int 0))) fun r0 =>
  if isTruePy r0 then mpure () else mraise PyErr.assertionErr

/- `DatabaseConnector.drop_simulated_index`: duration bookkeeping only, no
   counter. -/
def drop_simulated_index (env : Env) (oid : Nat) : M Unit :=
  timed env addIndexDur (_drop_simulated_index env oid)

/- The three partitioning statements assembled by
   `PostgresDatabaseConnector._simulate_partition`.  For a text- or
   date-typed column each boundary first has every double quote removed and
   surrounding whitespace stripped, then is wrapped in the dollar-quote
   delimiter `$$...$$`; a non-string boundary on that path raises
   AttributeError (no `.replace` on it).  Otherwise the boundary is
   interpolated as-is. -/

def boundStr (textual : Bool) (v : PyVal) : Except PyErr Str :=
  if textual then
    match v with
    | PyVal.str s => Except.ok (str "$$" ++ stripL (replaceL (str "\"") [] s) ++ str "$$")
    | _ => Except.error PyErr.attributeErr
  else Except.ok (strPy v)

def simulatePartitionStatements (p : Partition) : Except PyErr (Str × Str × Str) :=
  match boundStr p.column.is_text_or_date p.column.minimum with
  | Except.error e => Except.error e
  | Except.ok mn =>
    match boundStr p.column.is_text_or_date p.column.maximum with
    | Except.error e => Except.error e
    | Except.ok mx =>
      match boundStr p.column.is_text_or_date p.column.median with
      | Except.error e => Except.error e
      | Except.ok md =>
        Except.ok
          (str "select hypopg_partition_table( '" ++ p.table ++
             str "', 'PARTITION BY RANGE (" ++ p.column.name ++ str ")');",
           str "select hypopg_add_partition('hypo_part_range_" ++ p.table ++
             str "_1', 'PARTITION OF " ++ p.table ++ str " FOR VALUES FROM (" ++ mn ++
             str ") TO (" ++ md ++ str ")');",
           str "select hypopg_add_partition('hypo_part_range_" ++ p.table ++
             str "_2', 'PARTITION OF " ++ p.table ++ str " FOR VALUES FROM (" ++ md ++
             str ") TO (" ++ mx ++ str ")');")

/- `PostgresDatabaseConnector._simulate_partition` -/
def _simulate_partition (env : Env) (p : Partition) : M PyVal :=
  mbind (mlift (simulatePartitionStatements p)) fun sts =>
  mbind (exec_fetch env sts.1 true) fun result =>
  mbind (exec_fetch env sts.2.1 true) fun _ =>
  mbind (exec_fetch env sts.2.2 true) fun _ =>
  mpure result

/- `DatabaseConnector.simulate_partition` -/
def simulate_partition (env : Env) (p : Partition) : M PyVal :=
  mbind (modifyS fun s => { s with simulated_partitions := s.simulated_partitions + 1 }) fun _ =>
  timed env addPartDur (_simulate_partition env p)

def dropPartitionStmt (tablename : Str) : Str :=
  str "SELECT hypopg_drop_table(relid) FROM hypopg_table() WHERE tablename = '" ++
    tablename ++ str "';"

/- `PostgresDatabaseConnector._drop_simulated_partition`:
   `assert result is not None` -/
def _drop_simulated_partition (env : Env) (tablename : Str) (_p : Partition) : M Unit :=
  mbind (exec_fetch env (dropPartitionStmt tablename) true) fun result =>
  if isNonePy result then mraise PyErr.assertionErr else mpure ()

/- `DatabaseConnector.drop_simulated_partition`: duration bookkeeping only,
   no counter. -/
def drop_simulated_partition (env : Env) (tablename : Str) (p : Partition) : M Unit :=
  timed env addPartDur (_drop_simulated_partition env tablename p)

/- `DatabaseConnector.get_cost` / `get_plan`: cost-estimation counter plus
   duration around the underlying call. -/

def get_cost (env : Env) (q : Query) : M PyVal :=
  mbind (modifyS fun s => { s with cost_estimations := s.cost_estimations + 1 }) fun _ =>
  timed env addCostDur (_get_cost env q)

def get_plan (env : Env) (q : Query) : M PyVal :=
  mbind (modifyS fun s => { s with cost_estimations := s.cost_estimations + 1 }) fun _ =>
  timed env addCostDur (_get_plan env q)

/- `PostgresDatabaseConnector._type` -/
def _type (env : Env) (c : Column) : M (Column × PyVal) :=
  mbind (exec_fetch env
      (str "select data_type from information_schema.columns where table_name = '" ++
        c.table ++ str "' and column_name = '" ++ c.name ++ str "';") true) fun result =>
  mbind (mlift (pySub result (PyVal.int 0))) fun t =>
  mpure ({ c with type := t }, t)

def pgStatsStmt (colname : Str) : Str :=
  str "SELECT most_common_vals, histogram_bounds FROM pg_stats WHERE attname = '" ++
    colname ++ str "';"

/- `DatabaseConnector.get_column_statistics`: resolve the column type, fetch
   most_common_vals and histogram_bounds, then set minimum/maximum/median
   from the histogram-bounds string if present, else from the sorted
   most-common-values. Returns the updated column (the Python code mutates
   `partition.column`). -/

def get_column_statistics (env : Env) (p : Partition) : M Column :=
  mbind (_type env p.column) fun ct =>
  mbind (exec_fetch env (pgStatsStmt p.column.name) true) fun result =>
  mbind (mlift (pySub result (PyVal.int 0))) fun mcv =>
  mbind (mlift (pySub result (PyVal.int 1))) fun hb =>
  if isNonePy hb then
    mbind (mlift (pySorted mcv)) fun sortedVals =>
    mbind (mlift (pyIndex sortedVals 0)) fun mn =>
    mbind (mlift (pyIndex sortedVals (-1))) fun mx =>
    mbind (mlift (pyIndex sortedVals (sortedVals.length / 2))) fun md =>
    mpure { ct.1 with minimum := mn, maximum := mx, median := md }
  else
    mbind (mlift (asStr hb)) fun hs =>
    let parts := (splitChar ',' (replaceL (str "\x7d") [] (replaceL (str "\x7b") [] hs))).map PyVal.str
    mbind (mlift (pyIndex parts 0)) fun mn =>
    mbind (mlift (pyIndex parts (-1))) fun mx =>
    mbind (mlift (pyIndex parts (parts.length / 2))) fun md =>
    mpure { ct.1 with minimum := mn, maximum := mx, median := md }

/- The statement-timeout step of `exec_query`: `if timeout:` (None and 0 are
   falsy) execute `set statement_timeout={timeout}`; the session's timeout
   setting changes when the SET statement succeeds. -/

def setTimeoutStep (env : Env) (timeout : Option Nat) : M Unit :=
  match timeout with
  | Option.none => mpure ()
  | some t =>
    if t = 0 then mpure ()
    else
      mbind (exec_only env (str "set statement_timeout=" ++ natStr t)) fun _ =>
      modifyS (fun s => { s with timeout := t })

/- The try-block of `exec_query`:
   `plan = self.exec_fetch(statement, one=True)[0][0]["Plan"];
    result = plan["Actual Total Time"], plan`. -/

def execQueryTry (env : Env) (qt : Option Str) : M (PyVal × PyVal) :=
  mbind (exec_fetch env (analyzeStmt qt) true) fun r =>
  mbind (mlift (extractPlan r)) fun plan =>
  mbind (mlift (pySub plan (PyVal.str (str "Actual Total Time")))) fun t =>
  mpure (t, plan)

/- `PostgresDatabaseConnector.exec_query` -/
def exec_query (env : Env) (q : Query) (timeout : Option Nat) (cost_evaluation : Bool) :
    M (PyVal × PyVal) :=
  mbind (if cost_evaluation then mpure () else commitM) fun _ =>
  mbind (_prepare_query env q) fun qt =>
  mbind (setTimeoutStep env timeout) fun _ =>
  mbind (mcatch (execQueryTry env qt)
      (fun _ =>
        mbind rollbackM fun _ =>
        mbind (_get_plan env q) fun p =>
        mpure (PyVal.none, p))) fun result =>
  mbind (exec_only env (str "set statement_timeout = 0")) fun _ =>
  mbind (modifyS (fun s => { s with timeout := 0 })) fun _ =>
  mbind (_cleanup_query env q) fun _ =>
  mpure result

/- Remaining public methods of the two classes (used for the session-wide
   instrumentation invariant). -/

def commitPub : M Unit := commitM

def rollbackPub : M Unit := rollbackM

def closePub : M Unit := closeM

def drop_index (env : Env) (idx : Index) : M Unit :=
  exec_only env (str "drop index " ++ idx.index_idx)

def enable_simulation (env : Env) : M Unit :=
  mbind (exec_only env (str "create extension hypopg")) fun _ => commitM

def mapSubZero : List PyVal → Except PyErr (List PyVal)
  | [] => Except.ok []
  | x :: xs =>
    match pySub x (PyVal.int 0) with
    | Except.error e => Except.error e
    | Except.ok v =>
      match mapSubZero xs with
      | Except.error e => Except.error e
      | Except.ok vs => Except.ok (v :: vs)

def database_names (env : Env) : M (List PyVal) :=
  mbind (exec_fetch env (str "select datname from pg_database") false) fun result =>
  mbind (mlift (pyIterate result)) fun rows =>
  mlift (mapSubZero rows)

def create_database (env : Env) (database_name : Str) : M Unit :=
  exec_only env (str "create database " ++ database_name)

def drop_database (env : Env) (database_name : Str) : M Unit :=
  exec_only env (str "DROP DATABASE " ++ database_name ++ str ";")

def indexes_size (env : Env) : M PyVal :=
  mbind (exec_fetch env
      (str "select sum(pg_indexes_size(table_name::text)) from (select table_name from information_schema.tables where table_schema='public') as all_tables") true) fun result =>
  mlift (pySub result (PyVal.int 0))

def create_statistics (env : Env) : M Unit :=
  mbind commitM fun _ =>
  mbind (modifyS fun s => { s with autocommitConn := true }) fun _ =>
  mbind (exec_only env (str "analyze")) fun _ =>
  modifyS fun s => { s with autocommitConn := s.autocommitInit }

def set_random_seed (env : Env) (value : Str) : M Unit :=
  exec_only env (str "SELECT setseed(" ++ value ++ str ")")

def supports_index_simulation : M Bool := mpure true

def create_index (env : Env) (idx : Index) : M Index :=
  mbind (exec_only env
      (str "create index " ++ idx.index_idx ++ str " on " ++ idx.table ++
        str " (" ++ idx.joined_column_names ++ str ")")) fun _ =>
  mbind (exec_fetch env
      (str "select relpages from pg_class c where c.relname = '" ++ idx.index_idx ++ str "'") true) fun size =>
  mbind (mlift (pySub size (PyVal.int 0))) fun size0 =>
  mbind (mlift (match pyMulConst size0 8 with
    | Except.error e => Except.error e
    | Except.ok v => pyMulConst v 1024)) fun est =>
  mpure { idx with estimated_size := est }

def drop_indexes_go (env : Env) : List PyVal → M Unit
  | [] => mpure ()
  | row :: rest =>
    mbind (mlift (pySub row (PyVal.int 0))) fun nm =>
    mbind (exec_only env (str "drop index " ++ strPy nm)) fun _ =>
    drop_indexes_go env rest

def drop_indexes (env : Env) : M Unit :=
  mbind (exec_fetch env (str "select indexname from pg_indexes where schemaname='public'") false) fun result =>
  mbind (mlift (pyIterate result)) fun rows =>
  drop_indexes_go env rows

def drop_partitions (env : Env) : M Unit :=
  mbind (exec_fetch env (str "select hypopg_reset_table()") false) fun _ =>
  mpure ()

def get_raw_plan (env : Env) (q : Query) : M PyVal :=
  mbind (_prepare_query env q) fun qt =>
  mbind (exec_fetch env (planStmt qt) true) fun qp =>
  mbind (mlift (pySub qp (PyVal.int 0))) fun plan =>
  mbind (_cleanup_query env q) fun _ =>
  mpure plan

def number_of_indexes (env : Env) : M PyVal :=
  mbind (exec_fetch env (str "select count(*) from pg_indexes
                       where schemaname = 'public'") true) fun result =>
  mlift (pySub result (PyVal.int 0))

def get_column_percentiles (env : Env) (c : Column) : M PyVal :=
  let cname := if c.name == str "order" then str "\"order\"" else c.name
  exec_fetch env
    (str "select max(" ++ cname ++ str ") from (select " ++ cname ++
      str ", ntile(10) over (order by " ++ cname ++
      str ") as percentile from " ++ c.table ++
      str ")as p group by percentile order by percentile;") false

def table_exists (env : Env) (table_name : Str) : M PyVal :=
  mbind (exec_fetch env (str "SELECT EXISTS (
            SELECT 1
            FROM pg_tables
            WHERE tablename = '" ++ table_name ++ str "');") true) fun result =>
  mlift (pySub result (PyVal.int 0))

def database_exists (env : Env) (database_name : Str) : M PyVal :=
  mbind (exec_fetch env (str "SELECT EXISTS (
            SELECT 1
            FROM pg_database
            WHERE datname = '" ++ database_name ++ str "');") true) fun result =>
  mlift (pySub result (PyVal.int 0))

/- ## Dialect rewriting (`update_query_text` / `_add_alias_subquery`)

   The regex scan `re.finditer(r"((from)|,)[  \n]*\(", text)` is embedded as
   a character-level matcher: at a given suffix, match "from" or "," followed
   by any run of spaces/newlines and an opening parenthesis, yielding the
   number of characters consumed (the match end is the position right after
   the parenthesis).  Errors of the Python code (IndexError from `text[pos]`
   past the end or from `next_word[0]` on an empty token) are modelled as
   `Option.none` results. -/

def afterWs : Str → Nat → Option Nat
  | [], _ => Option.none
  | c :: t, k =>
    if c = ' ' || c = '\n' then afterWs t (k + 1)
    else if c = '(' then some (k + 1)
    else Option.none

def matchLen (l : Str) : Option Nat :=
  if isPrefixL (str "from") l then afterWs (l.drop 4) 4
  else if isPrefixL (str ",") l then afterWs (l.drop 1) 1
  else Option.none

theorem afterWs_gt {l : Str} : ∀ {k r : Nat}, afterWs l k = some r → k < r := by
  induction l with
  | nil => intro k r h; simp [afterWs] at h
  | cons c t ih =>
    intro k r h
    simp only [afterWs] at h
    split at h
    · have := ih h; omega
    · split at h
      · cases h; omega
      · cases h

theorem matchLen_pos {l : Str} {k : Nat} (h : matchLen l = some k) : 0 < k := by
  unfold matchLen at h
  split at h
  · have := afterWs_gt h; omega
  · split at h
    · have := afterWs_gt h; omega
    · cases h

/- All match ends of the non-overlapping left-to-right regex scan, as
   absolute positions (scanning resumes at each match end). -/

def finditerGo : Nat → Str → Nat → List Nat
  | _, [], _ => []
  | 0, _, _ => []
  | fuel + 1, c :: t, ofs =>
    match matchLen (c :: t) with
    | some k => (ofs + k) :: finditerGo fuel (List.drop k (c :: t)) (ofs + k)
    | Option.none => finditerGo fuel t (ofs + 1)

def finditer (l : Str) : List Nat := finditerGo (l.length + 1) l 0

/- The balanced-parenthesis while-loop: starting with `counter` and the given
   suffix, consume characters until the counter reaches zero, returning the
   number of characters consumed; running off the end of the text is the
   Python IndexError. -/

def scanBal : Str → Nat → Option Nat
  | _, 0 => some 0
  | [], _ + 1 => Option.none
  | c :: t, k + 1 =>
    (scanBal t (if c = '(' then k + 2 else if c = ')' then k else k + 1)).map (· + 1)

/- `next_word = query_text[pos:].lstrip().split(" ")[0].split("\n")[0]` -/

def nextWord (qtext : Str) (pos : Nat) : Str :=
  (((qtext.drop pos).dropWhile pySpace).takeWhile (fun c => c != ' ')).takeWhile
    (fun c => c != '\n')

def isKeyword (w : Str) : Bool :=
  w == str "limit" || w == str "group" || w == str "order" || w == str "where"

/- `next_word[0] in [")", ","] or next_word in ["limit","group","order","where"]`;
   an empty token makes `next_word[0]` raise IndexError. -/

def wordFlag (w : Str) : Option Bool :=
  match w with
  | [] => Option.none
  | c :: _ => some (c == ')' || c == ',' || isKeyword w)

/- The per-match body of the for-loop: balanced scan on the lowered text from
   the match end, then the next-word test on the original text; collects the
   positions appended by the loop, in match order. -/

def aliasPositionsGo (text qtext : Str) : List Nat → Option (List Nat)
  | [] => some []
  | e :: rest =>
    match scanBal (text.drop e) 1 with
    | Option.none => Option.none
    | some len =>
      match wordFlag (nextWord qtext (e + len)) with
      | Option.none => Option.none
      | some b =>
        match aliasPositionsGo text qtext rest with
        | Option.none => Option.none
        | some ps => some (if b then (e + len) :: ps else ps)

def aliasPositions (qtext : Str) : Option (List Nat) :=
  aliasPositionsGo (qtext.map Char.toLower) qtext (finditer (qtext.map Char.toLower))

/- `query_text = query_text[:pos] + " as alias123 " + query_text[pos:]` -/

def insertAlias (qtext : Str) (pos : Nat) : Str :=
  qtext.take pos ++ str " as alias123 " ++ qtext.drop pos

/- `sorted(positions, reverse=True)` -/

def insDescNat (x : Nat) : List Nat → List Nat
  | [] => [x]
  | y :: ys => if x > y then x :: y :: ys else y :: insDescNat x ys

def sortDescNat : List Nat → List Nat
  | [] => []
  | x :: xs => insDescNat x (sortDescNat xs)

/- `PostgresDatabaseConnector._add_alias_subquery`; `Option.none` is the
   propagated IndexError. -/

def _add_alias_subquery (qtext : Str) : Option Str :=
  match aliasPositions qtext with
  | Option.none => Option.none
  | some ps => some ((sortDescNat ps).foldl insertAlias qtext)

/- `re.sub(r" ([0-9]+) days\)", r" interval '\1 days')", text)`: at each
   position try to match a space, a maximal nonempty digit run, and " days)";
   on a match substitute and continue after it. -/

def daysMatch (l : Str) : Option (Str × Nat) :=
  match l with
  | ' ' :: t =>
    if (t.takeWhile Char.isDigit).isEmpty then Option.none
    else if isPrefixL (str " days)") (t.drop (t.takeWhile Char.isDigit).length) then
      some (t.takeWhile Char.isDigit, 1 + (t.takeWhile Char.isDigit).length + 6)
    else Option.none
  | _ => Option.none

theorem daysMatch_pos {l : Str} {ds : Str} {k : Nat} (h : daysMatch l = some (ds, k)) :
    0 < k := by
  unfold daysMatch at h
  split at h
  · split at h
    · cases h
    · split at h
      · cases h; omega
      · cases h
  · cases h

theorem daysMatch_pos' {l : Str} {p : Str × Nat} (h : daysMatch l = some p) : 0 < p.2 := by
  cases p with
  | mk a b => exact daysMatch_pos h

def daysSubF : Nat → Str → Str
  | _, [] => []
  | 0, s => s
  | fuel + 1, c :: t =>
    match daysMatch (c :: t) with
    | some (ds, k) =>
      str " interval '" ++ ds ++ str " days')" ++ daysSubF fuel (List.drop k (c :: t))
    | Option.none => c :: daysSubF fuel t

def daysSub (l : Str) : Str := daysSubF l.length l

/- `PostgresDatabaseConnector.update_query_text` -/

def update_query_text (t : Str) : Option Str :=
  _add_alias_subquery
    (daysSub (replaceL (str "limit -1") [] (replaceL (str ";\nlimit ") (str " limit ") t)))

/- ## Run characterizations

   Every connector method below is deterministic given the environment, so
   each has a pure mirror for its result value and trace.  `mrAppendTr`
   prepends already-produced events to a continuation's run. -/

def mrAppendTr (t : List Event) (r : MR α) : MR α := ⟨r.res, r.st, t ++ r.tr⟩

theorem mrAppendTr_mk (t : List Event) (r : Except PyErr α) (st : ConnState)
    (tr : List Event) : mrAppendTr t ⟨r, st, tr⟩ = ⟨r, st, t ++ tr⟩ := rfl

theorem mbind_ok {x : M α} {s s1 : ConnState} {a : α} {t1 : List Event}
    (h : x s = ⟨Except.ok a, s1, t1⟩) (f : α → M β) :
    mbind x f s = mrAppendTr t1 (f a s1) := by
  simp only [mbind, h, mrAppendTr]

theorem mbind_err {x : M α} {s s1 : ConnState} {e : PyErr} {t1 : List Event}
    (h : x s = ⟨Except.error e, s1, t1⟩) (f : α → M β) :
    mbind x f s = ⟨Except.error e, s1, t1⟩ := by
  simp only [mbind, h]

theorem mcatch_ok {x : M α} {s s1 : ConnState} {a : α} {t1 : List Event}
    (h : x s = ⟨Except.ok a, s1, t1⟩) (hd : PyErr → M α) :
    mcatch x hd s = ⟨Except.ok a, s1, t1⟩ := by
  simp only [mcatch, h]

theorem mcatch_err {x : M α} {s s1 : ConnState} {e : PyErr} {t1 : List Event}
    (h : x s = ⟨Except.error e, s1, t1⟩) (hd : PyErr → M α) :
    mcatch x hd s = mrAppendTr t1 (hd e s1) := by
  simp only [mcatch, h, mrAppendTr]

/- Pure mirror of `_prepare_query`: its returned value and trace (the value
   does not depend on the environment because failures of the `create view`
   sub-statements are swallowed). -/

def preparedTextGo : List Str → Option Str
  | [] => Option.none
  | seg :: rest =>
    if containsSub seg (str "create view") then preparedTextGo rest
    else if containsSub seg (str "select") || containsSub seg (str "SELECT") then some seg
    else preparedTextGo rest

def preparedText (q : Query) : Option Str := preparedTextGo (splitChar ';' q.text)

def prepTraceGo : List Str → List Event
  | [] => []
  | seg :: rest =>
    if containsSub seg (str "create view") then Event.exec seg :: prepTraceGo rest
    else if containsSub seg (str "select") || containsSub seg (str "SELECT") then []
    else prepTraceGo rest

def prepTrace (q : Query) : List Event := prepTraceGo (splitChar ';' q.text)

theorem prepare_go_run (env : Env) (segs : List Str) (s : ConnState) :
    _prepare_query_go env segs s = ⟨Except.ok (preparedTextGo segs), s, prepTraceGo segs⟩ := by
  induction segs generalizing s with
  | nil => rfl
  | cons seg rest ih =>
    simp only [_prepare_query_go, preparedTextGo, prepTraceGo]
    split
    · have hc : mcatch (exec_only env seg) (fun _ => mpure ()) s =
          ⟨Except.ok (), s, [Event.exec seg]⟩ := by
        simp only [mcatch, exec_only, mpure]
        cases execVal env seg with
        | ok u => rfl
        | error e => rfl
      rw [mbind_ok hc, ih, mrAppendTr_mk]
      rfl
    · split
      · rfl
      · exact ih s

theorem prepare_run (env : Env) (q : Query) (s : ConnState) :
    _prepare_query env q s = ⟨Except.ok (preparedText q), s, prepTrace q⟩ :=
  prepare_go_run env (splitChar ';' q.text) s

/- Pure mirrors of `_cleanup_query`: result (the first failing `drop view`
   sub-statement aborts it) and trace. -/

def cleanupResGo (env : Env) : List Str → Except PyErr Unit
  | [] => Except.ok ()
  | seg :: rest =>
    if containsSub seg (str "drop view") then
      match execVal env seg with
      | Except.error e => Except.error e
      | Except.ok _ => cleanupResGo env rest
    else cleanupResGo env rest

def cleanupRes (env : Env) (q : Query) : Except PyErr Unit :=
  cleanupResGo env (splitChar ';' q.text)

def cleanupTraceGo (env : Env) : List Str → List Event
  | [] => []
  | seg :: rest =>
    if containsSub seg (str "drop view") then
      match execVal env seg with
      | Except.error _ => [Event.exec seg]
      | Except.ok _ => Event.exec seg :: Event.commit :: cleanupTraceGo env rest
    else cleanupTraceGo env rest

def cleanupTrace (env : Env) (q : Query) : List Event :=
  cleanupTraceGo env (splitChar ';' q.text)

theorem cleanup_go_run (env : Env) (segs : List Str) (s : ConnState) :
    _cleanup_query_go env segs s = ⟨cleanupResGo env segs, s, cleanupTraceGo env segs⟩ := by
  induction segs generalizing s with
  | nil => rfl
  | cons seg rest ih =>
    simp only [_cleanup_query_go, cleanupResGo, cleanupTraceGo]
    split
    · cases hx : execVal env seg with
      | ok u =>
        have h1 : exec_only env seg s = ⟨Except.ok (), s, [Event.exec seg]⟩ := by
          simp only [exec_only, hx]
        rw [mbind_ok h1]
        have h2 : commitM s = ⟨Except.ok (), s, [Event.commit]⟩ := rfl
        rw [mbind_ok h2, ih, mrAppendTr_mk, mrAppendTr_mk]
        rfl
      | error e =>
        have h1 : exec_only env seg s = ⟨Except.error e, s, [Event.exec seg]⟩ := by
          simp only [exec_only, hx]
        rw [mbind_err h1]
    · exact ih s

theorem cleanup_run (env : Env) (q : Query) (s : ConnState) :
    _cleanup_query env q s = ⟨cleanupRes env q, s, cleanupTrace env q⟩ :=
  cleanup_go_run env (splitChar ';' q.text) s

/- Pure mirror of the try-block of `exec_query`. -/

def analyzeResultQt (env : Env) (qt : Option Str) : Except PyErr (PyVal × PyVal) :=
  match fetchVal env (analyzeStmt qt) true with
  | Except.error e => Except.error e
  | Except.ok r =>
    match extractPlan r with
    | Except.error e => Except.error e
    | Except.ok plan =>
      match pySub plan (PyVal.str (str "Actual Total Time")) with
      | Except.error e => Except.error e
      | Except.ok t => Except.ok (t, plan)

theorem execQueryTry_run (env : Env) (qt : Option Str) (s : ConnState) :
    execQueryTry env qt s = ⟨analyzeResultQt env qt, s, [Event.exec (analyzeStmt qt)]⟩ := by
  cases hf : fetchVal env (analyzeStmt qt) true with
  | error e => simp [execQueryTry, analyzeResultQt, exec_fetch, mbind, mlift, mpure, hf]
  | ok r =>
    cases hp : extractPlan r with
    | error e => simp [execQueryTry, analyzeResultQt, exec_fetch, mbind, mlift, mpure, hf, hp]
    | ok plan =>
      cases ht : pySub plan (PyVal.str (str "Actual Total Time")) with
      | error e =>
        simp [execQueryTry, analyzeResultQt, exec_fetch, mbind, mlift, mpure, hf, hp, ht]
      | ok t =>
        simp [execQueryTry, analyzeResultQt, exec_fetch, mbind, mlift, mpure, hf, hp, ht]

/- Pure mirrors of `_get_plan`: the plan value produced by the plan-only
   estimation path, and the full result/trace including its own cleanup. -/

def planOnlyResult (env : Env) (q : Query) : Except PyErr PyVal :=
  match fetchVal env (planStmt (preparedText q)) true with
  | Except.error e => Except.error e
  | Except.ok qp => if pyTruthy qp then extractPlan qp else Except.error PyErr.exception

def getPlanFull (env : Env) (q : Query) : Except PyErr PyVal :=
  match planOnlyResult env q with
  | Except.error e => Except.error e
  | Except.ok p =>
    match cleanupRes env q with
    | Except.error e => Except.error e
    | Except.ok _ => Except.ok p

def getPlanTrace (env : Env) (q : Query) : List Event :=
  prepTrace q ++ [Event.exec (planStmt (preparedText q))] ++
    (match planOnlyResult env q with
     | Except.ok _ => cleanupTrace env q
     | Except.error _ => [])

theorem get_plan_run (env : Env) (q : Query) (s : ConnState) :
    _get_plan env q s = ⟨getPlanFull env q, s, getPlanTrace env q⟩ := by
  cases hf : fetchVal env (planStmt (preparedText q)) true with
  | error e =>
    simp [_get_plan, getPlanFull, getPlanTrace, planOnlyResult, prepare_run, cleanup_run,
      exec_fetch, mbind, mlift, mpure, mraise, hf]
  | ok qp =>
    by_cases htr : pyTruthy qp
    · cases hx : extractPlan qp with
      | error e =>
        simp [_get_plan, getPlanFull, getPlanTrace, planOnlyResult, prepare_run, cleanup_run,
          exec_fetch, mbind, mlift, mpure, mraise, hf, htr, hx]
      | ok p =>
        cases hc : cleanupRes env q with
        | error e =>
          simp [_get_plan, getPlanFull, getPlanTrace, planOnlyResult, prepare_run, cleanup_run,
            exec_fetch, mbind, mlift, mpure, mraise, hf, htr, hx, hc]
        | ok u =>
          cases u
          simp [_get_plan, getPlanFull, getPlanTrace, planOnlyResult, prepare_run, cleanup_run,
            exec_fetch, mbind, mlift, mpure, mraise, hf, htr, hx, hc]
    · simp [_get_plan, getPlanFull, getPlanTrace, planOnlyResult, prepare_run, cleanup_run,
        exec_fetch, mbind, mlift, mpure, mraise, hf, htr]

/- Pure mirrors of the statement-timeout step. -/

def setTimeoutStmt (t : Nat) : Str := str "set statement_timeout=" ++ natStr t

def setTimeoutRes (env : Env) : Option Nat → Except PyErr Unit
  | Option.none => Except.ok ()
  | some t => if t = 0 then Except.ok () else execVal env (setTimeoutStmt t)

def setTimeoutStateF (env : Env) (T : Option Nat) (s : ConnState) : ConnState :=
  match T with
  | Option.none => s
  | some t =>
    if t = 0 then s
    else
      match execVal env (setTimeoutStmt t) with
      | Except.ok _ => { s with timeout := t }
      | Except.error _ => s

def setTimeoutTr (T : Option Nat) : List Event :=
  match T with
  | Option.none => []
  | some t => if t = 0 then [] else [Event.exec (setTimeoutStmt t)]

theorem setTimeout_run (env : Env) (T : Option Nat) (s : ConnState) :
    setTimeoutStep env T s = ⟨setTimeoutRes env T, setTimeoutStateF env T s, setTimeoutTr T⟩ := by
  cases T with
  | none => rfl
  | some t =>
    by_cases ht : t = 0
    · simp [setTimeoutStep, setTimeoutRes, setTimeoutStateF, setTimeoutTr, ht, mpure]
    · cases hx : execVal env (setTimeoutStmt t) with
      | ok u =>
        cases u
        simp only [setTimeoutStmt] at hx
        simp [setTimeoutStep, setTimeoutRes, setTimeoutStateF, setTimeoutTr, setTimeoutStmt, ht,
          exec_only, mbind, modifyS, hx]
      | error e =>
        simp only [setTimeoutStmt] at hx
        simp [setTimeoutStep, setTimeoutRes, setTimeoutStateF, setTimeoutTr, setTimeoutStmt, ht,
          exec_only, mbind, modifyS, hx]

theorem setTimeoutStateF_of_err {env : Env} {T : Option Nat} {e : PyErr}
    (h : setTimeoutRes env T = Except.error e) (s : ConnState) :
    setTimeoutStateF env T s = s := by
  cases T with
  | none => cases h
  | some t =>
    by_cases ht : t = 0
    · simp [setTimeoutRes, ht] at h
    · simp only [setTimeoutRes, ht, if_false] at h
      simp [setTimeoutStateF, ht, h]

/- Pure mirrors of the try/except step of `exec_query` and of the whole
   method.  `exec_query` reads none of the instrumentation state and no
   clock, so its result and trace depend only on the environment and the
   arguments, and its final state only adjusts the timeout field. -/

def catchResEQ (env : Env) (q : Query) : Except PyErr (PyVal × PyVal) :=
  match analyzeResultQt env (preparedText q) with
  | Except.ok v => Except.ok v
  | Except.error _ =>
    match getPlanFull env q with
    | Except.error e => Except.error e
    | Except.ok p => Except.ok (PyVal.none, p)

def catchTrEQ (env : Env) (q : Query) : List Event :=
  Event.exec (analyzeStmt (preparedText q)) ::
    (match analyzeResultQt env (preparedText q) with
     | Except.ok _ => []
     | Except.error _ => Event.rollback :: getPlanTrace env q)

def resetStmt : Str := str "set statement_timeout = 0"

def execQueryMR (env : Env) (q : Query) (T : Option Nat) (ce : Bool) (s : ConnState) :
    MR (PyVal × PyVal) :=
  let t0 : List Event := if ce then [] else [Event.commit]
  let t1 := prepTrace q
  match setTimeoutRes env T with
  | Except.error e => ⟨Except.error e, s, t0 ++ t1 ++ setTimeoutTr T⟩
  | Except.ok _ =>
    match catchResEQ env q with
    | Except.error e =>
      ⟨Except.error e, setTimeoutStateF env T s, t0 ++ t1 ++ setTimeoutTr T ++ catchTrEQ env q⟩
    | Except.ok v =>
      match execVal env resetStmt with
      | Except.error e =>
        ⟨Except.error e, setTimeoutStateF env T s,
          t0 ++ t1 ++ setTimeoutTr T ++ catchTrEQ env q ++ [Event.exec resetStmt]⟩
      | Except.ok _ =>
        ⟨(match cleanupRes env q with
           | Except.error e => Except.error e
           | Except.ok _ => Except.ok v),
         { setTimeoutStateF env T s with timeout := 0 },
         t0 ++ t1 ++ setTimeoutTr T ++ catchTrEQ env q ++ [Event.exec resetStmt] ++
           cleanupTrace env q⟩

theorem exec_query_run (env : Env) (q : Query) (T : Option Nat) (ce : Bool) (s : ConnState) :
    exec_query env q T ce s = execQueryMR env q T ce s := by
  have h0 : (if ce then mpure () else commitM) s =
      ⟨Except.ok (), s, if ce then [] else [Event.commit]⟩ := by
    cases ce <;> rfl
  have hcatch : ∀ s1 : ConnState,
      mcatch (execQueryTry env (preparedText q))
        (fun _ =>
          mbind rollbackM fun _ =>
          mbind (_get_plan env q) fun p =>
          mpure (PyVal.none, p)) s1 = ⟨catchResEQ env q, s1, catchTrEQ env q⟩ := by
    intro s1
    cases ha : analyzeResultQt env (preparedText q) with
    | ok v =>
      rw [mcatch_ok (by rw [execQueryTry_run, ha])]
      simp [catchResEQ, catchTrEQ, ha]
    | error e =>
      rw [mcatch_err (by rw [execQueryTry_run, ha])]
      cases hg : getPlanFull env q with
      | error e2 =>
        simp [catchResEQ, catchTrEQ, ha, hg, mbind, mpure, rollbackM, get_plan_run, mrAppendTr]
      | ok p =>
        simp [catchResEQ, catchTrEQ, ha, hg, mbind, mpure, rollbackM, get_plan_run, mrAppendTr]
  cases hst : setTimeoutRes env T with
  | error e =>
    simp [exec_query, execQueryMR, mbind, h0, prepare_run, setTimeout_run, hst,
      setTimeoutStateF_of_err hst s]
  | ok u =>
    cases u
    cases hcr : catchResEQ env q with
    | error e =>
      simp [exec_query, execQueryMR, mbind, h0, prepare_run, setTimeout_run, hst, hcatch, hcr]
    | ok v =>
      cases hrs : execVal env resetStmt with
      | error e =>
        simp only [resetStmt] at hrs
        simp [exec_query, execQueryMR, mbind, h0, prepare_run, setTimeout_run, hst, hcatch, hcr,
          exec_only, resetStmt, hrs]
      | ok u2 =>
        cases u2
        simp only [resetStmt] at hrs
        cases hcl : cleanupRes env q with
        | error e =>
          simp [exec_query, execQueryMR, mbind, h0, prepare_run, setTimeout_run, hst, hcatch,
            hcr, exec_only, resetStmt, hrs, modifyS, cleanup_run, hcl, mpure]
        | ok u3 =>
          cases u3
          simp [exec_query, execQueryMR, mbind, h0, prepare_run, setTimeout_run, hst, hcatch,
            hcr, exec_only, resetStmt, hrs, modifyS, cleanup_run, hcl, mpure]

/- ## Claim theorems -/

/- The connector's initial instrumentation state
   (`DatabaseConnector.__init__`). -/

def initState (autocommit : Bool) : ConnState :=
  ⟨0, 0, autocommit, autocommit, 0, 0, 0, 0, 0, 0⟩

/-- Claim C10: the alias-injection scan is not total.  On
"select * from (select 1)" the balanced subquery's closing parenthesis is the
last character, so the next-word inspection indexes an empty token and raises
(IndexError, modelled as `Option.none`); on "select * from ( select 1" the
parentheses after the `from (` match are unbalanced and the while-loop indexes
past the end of the string.  In both cases `_add_alias_subquery`, and hence
`update_query_text`, raises instead of returning a rewritten text. -/
theorem add_alias_subquery_not_total :
    _add_alias_subquery (str "select * from (select 1)") = Option.none ∧
    update_query_text (str "select * from (select 1)") = Option.none ∧
    _add_alias_subquery (str "select * from ( select 1") = Option.none ∧
    update_query_text (str "select * from ( select 1") = Option.none := by
  exact ⟨rfl, rfl, rfl, rfl⟩

/-- Claim C5: `exec_fetch` catches exactly psycopg2.OperationalError — the
statement's failure is logged and the Python value None (an empty result) is
returned without raising — while the other driver error classes (malformed
statement → ProgrammingError, constraint violation → IntegrityError)
propagate to the caller. -/
theorem exec_fetch_error_handling :
    (∀ (env : Env) (stmt : Str) (one : Bool) (s : ConnState),
      env.fetch stmt = ExecOutcome.opErr →
        exec_fetch env stmt one s = ⟨Except.ok PyVal.none, s, [Event.exec stmt]⟩) ∧
    (∀ (env : Env) (stmt : Str) (one : Bool) (s : ConnState),
      env.fetch stmt = ExecOutcome.progErr →
        exec_fetch env stmt one s = ⟨Except.error PyErr.programming, s, [Event.exec stmt]⟩) ∧
    (∀ (env : Env) (stmt : Str) (one : Bool) (s : ConnState),
      env.fetch stmt = ExecOutcome.integrityErr →
        exec_fetch env stmt one s = ⟨Except.error PyErr.integrity, s, [Event.exec stmt]⟩) := by
  refine ⟨?_, ?_, ?_⟩ <;>
    (intro env stmt one s h; simp [exec_fetch, fetchVal, h])

def envAllOp : Env := ⟨fun _ => ExecOutcome.opErr, fun _ => 0⟩

def envAllProg : Env := ⟨fun _ => ExecOutcome.progErr, fun _ => 0⟩

def envAllInteg : Env := ⟨fun _ => ExecOutcome.integrityErr, fun _ => 0⟩

theorem exec_fetch_error_handling_witness :
    exec_fetch envAllOp (str "select 1") true (initState false) =
      ⟨Except.ok PyVal.none, initState false, [Event.exec (str "select 1")]⟩ ∧
    exec_fetch envAllProg (str "select 1") true (initState false) =
      ⟨Except.error PyErr.programming, initState false, [Event.exec (str "select 1")]⟩ ∧
    exec_fetch envAllInteg (str "select 1") true (initState false) =
      ⟨Except.error PyErr.integrity, initState false, [Event.exec (str "select 1")]⟩ :=
  ⟨exec_fetch_error_handling.1 envAllOp (str "select 1") true (initState false) rfl,
   exec_fetch_error_handling.2.1 envAllProg (str "select 1") true (initState false) rfl,
   exec_fetch_error_handling.2.2 envAllInteg (str "select 1") true (initState false) rfl⟩

/-- Claim C8: `drop_simulated_partition` on a table name for which the
hypothetical-partition catalog query returns no row (no live hypothetical
partition) fails the `assert result is not None` check and raises the
assertion-grade simulation-integrity error — it never returns as a silent
no-op. -/
theorem drop_simulated_partition_missing (env : Env) (tablename : Str) (p : Partition)
    (s : ConnState) (h : env.fetch (dropPartitionStmt tablename) = ExecOutcome.ok []) :
    (drop_simulated_partition env tablename p s).res = Except.error PyErr.assertionErr := by
  simp [drop_simulated_partition, timed, _drop_simulated_partition, mbind, readClock,
    exec_fetch, fetchVal, h, isNonePy, mraise, modifyS, mpure]

def envEmptyRows : Env := ⟨fun _ => ExecOutcome.ok [], fun _ => 0⟩

def partW : Partition :=
  ⟨str "lineitem",
   ⟨str "lineitem", str "l_shipdate", PyVal.none, PyVal.none, PyVal.none, PyVal.none, false⟩⟩

theorem drop_simulated_partition_missing_witness :
    (drop_simulated_partition envEmptyRows (str "lineitem") partW (initState false)).res =
      Except.error PyErr.assertionErr :=
  drop_simulated_partition_missing envEmptyRows (str "lineitem") partW (initState false) rfl

/- C3: the statistics environment of the claim — a column whose catalog row
   has the five most-common values [3,1,4,1,5] (as a value list) and NULL
   histogram bounds. -/

def colC3 : Column :=
  ⟨str "t", str "c", PyVal.none, PyVal.none, PyVal.none, PyVal.none, false⟩

def partC3 : Partition := ⟨str "t", colC3⟩

def envC3 : Env :=
  ⟨fun stmt =>
    if stmt = pgStatsStmt (str "c") then
      ExecOutcome.ok
        [PyVal.list
          [PyVal.list [PyVal.int 3, PyVal.int 1, PyVal.int 4, PyVal.int 1, PyVal.int 5],
           PyVal.none]]
    else ExecOutcome.ok [PyVal.list [PyVal.str (str "integer")]],
   fun _ => 0⟩

def colC3out : Column :=
  ⟨str "t", str "c", PyVal.str (str "integer"), PyVal.int 1, PyVal.int 3, PyVal.int 5, false⟩

/-- Claim C3 (counterexample): on the claim's own input — most-common values
[3,1,4,1,5], no histogram — `get_column_statistics` sets the median to the
entry at index `5 // 2 = 2` of the sorted list [1,1,3,4,5], which is 3, not 4
as the claim states. -/
theorem get_column_statistics_median_not_four :
    (get_column_statistics envC3 partC3 (initState false)).res = Except.ok colC3out ∧
    colC3out.median ≠ PyVal.int 4 := by
  constructor
  · rfl
  · intro h
    have h2 : (3 : Int) = 4 := by injection h
    exact absurd h2 (by decide)

/-- Claim C3 (amended): `get_column_statistics` on a column whose fetched
most-common-value list is [3,1,4,1,5] with NULL histogram bounds sets
minimum = 1, maximum = 5, and median = 3 — the middle entry (index 2) of the
sorted list [1,1,3,4,5]. -/
theorem get_column_statistics_mcv_example :
    (get_column_statistics envC3 partC3 (initState false)).res = Except.ok colC3out ∧
    colC3out.minimum = PyVal.int 1 ∧ colC3out.maximum = PyVal.int 5 ∧
    colC3out.median = PyVal.int 3 := by
  exact ⟨rfl, rfl, rfl, rfl⟩

/- ## C7: boundary cleaning for textual/date partitions -/

/- Named after the spec's wording: the boundary is stripped of quote and
   whitespace artifacts (`.replace('"','').strip()`) and re-quoted with the
   dollar-quote delimiter, which is safe against embedded single or double
   quotes. -/

def cleanBoundary (s : Str) : Str := stripL (replaceL (str "\"") [] s)

def pgQuote (s : Str) : Str := str "$$" ++ s ++ str "$$"

def quoteFree (s : Str) : Bool := s.all (fun c => c != '"')

def noEdgeWs (s : Str) : Bool :=
  (match s.head? with
   | some c => !pySpace c
   | Option.none => true) &&
  (match s.getLast? with
   | some c => !pySpace c
   | Option.none => true)

theorem replaceLF_single_filter (qc : Char) :
    ∀ (fuel : Nat) (s : Str), s.length ≤ fuel →
      replaceLF [qc] [] fuel s = s.filter (fun c => !(c == qc)) := by
  intro fuel
  induction fuel with
  | zero =>
    intro s h
    cases s with
    | nil => rfl
    | cons c t => simp at h
  | succ n ih =>
    intro s h
    cases s with
    | nil => rfl
    | cons c t =>
      simp only [replaceLF, List.filter_cons]
      by_cases hc : c = qc
      · subst hc
        rw [if_pos ⟨by simp, by simp [isPrefixL]⟩]
        simp only [List.length_singleton, Nat.sub_self, List.drop_zero, List.nil_append]
        rw [ih t (by simpa using Nat.le_of_succ_le_succ h)]
        simp
      · rw [if_neg (fun hAnd => hc (Eq.symm (by simpa [isPrefixL] using hAnd.2)))]
        rw [ih t (by simpa using Nat.le_of_succ_le_succ h)]
        simp [hc]

theorem replaceL_quote_filter (s : Str) :
    replaceL (str "\"") [] s = s.filter (fun c => !(c == '"')) :=
  replaceLF_single_filter '"' s.length s (Nat.le_refl _)

theorem mem_of_mem_dropWhileL {p : Char → Bool} :
    ∀ {l : Str} {c : Char}, c ∈ l.dropWhile p → c ∈ l := by
  intro l
  induction l with
  | nil => intro c h; simp [List.dropWhile] at h
  | cons a t ih =>
    intro c h
    by_cases hp : p a
    · simp only [List.dropWhile, hp] at h
      exact List.mem_cons_of_mem a (ih h)
    · simp only [Bool.not_eq_true] at hp
      simp only [List.dropWhile, hp] at h
      exact h

theorem dropWhile_head?_false {p : Char → Bool} :
    ∀ {l : Str} {c : Char}, (l.dropWhile p).head? = some c → p c = false := by
  intro l
  induction l with
  | nil => intro c h; simp [List.dropWhile] at h
  | cons a t ih =>
    intro c h
    by_cases hp : p a
    · simp only [List.dropWhile, hp] at h
      exact ih h
    · simp only [List.dropWhile, Bool.not_eq_true] at h hp
      rw [hp] at h
      simp only [List.head?_cons, Option.some.injEq] at h
      rw [← h]
      exact hp

theorem getLast?_dropWhile {p : Char → Bool} :
    ∀ {l : Str}, l.dropWhile p ≠ [] → (l.dropWhile p).getLast? = l.getLast? := by
  intro l
  induction l with
  | nil => intro h; simp [List.dropWhile] at h
  | cons a t ih =>
    intro h
    by_cases hp : p a
    · simp only [List.dropWhile, hp] at h ⊢
      have ht : t ≠ [] := by
        intro he
        rw [he] at h
        simp [List.dropWhile] at h
      rw [ih h]
      cases t with
      | nil => exact absurd rfl ht
      | cons b u => simp [List.getLast?_cons_cons]
    · simp only [List.dropWhile, Bool.not_eq_true] at hp ⊢
      rw [hp]

theorem stripL_head_no_ws {s : Str} {c : Char} (h : (stripL s).head? = some c) :
    pySpace c = false := by
  unfold stripL at h
  rw [List.head?_reverse] at h
  have hne : (lstripL s).reverse.dropWhile pySpace ≠ [] := by
    intro he
    rw [he] at h
    simp at h
  rw [getLast?_dropWhile hne, List.getLast?_reverse] at h
  exact dropWhile_head?_false h

theorem stripL_last_no_ws {s : Str} {c : Char} (h : (stripL s).getLast? = some c) :
    pySpace c = false := by
  unfold stripL at h
  rw [List.getLast?_reverse] at h
  exact dropWhile_head?_false h

theorem cleanBoundary_quoteFree (m : Str) : quoteFree (cleanBoundary m) = true := by
  have hfilter : ∀ c, c ∈ cleanBoundary m → c ≠ '"' := by
    intro c hc
    unfold cleanBoundary stripL lstripL at hc
    rw [replaceL_quote_filter] at hc
    have h1 : c ∈ (m.filter (fun c => !(c == '"'))) := by
      have h2 := List.mem_reverse.mp hc
      have h3 := mem_of_mem_dropWhileL h2
      have h4 := List.mem_reverse.mp h3
      exact mem_of_mem_dropWhileL h4
    have := (List.mem_filter.mp h1).2
    simpa using this
  unfold quoteFree
  rw [List.all_eq_true]
  intro c hc
  simpa using hfilter c hc

theorem cleanBoundary_noEdgeWs (m : Str) : noEdgeWs (cleanBoundary m) = true := by
  unfold noEdgeWs
  rw [Bool.and_eq_true]
  constructor
  · cases hh : (cleanBoundary m).head? with
    | none => rfl
    | some c =>
      have := stripL_head_no_ws (s := replaceL (str "\"") [] m) hh
      simp [this]
  · cases hh : (cleanBoundary m).getLast? with
    | none => rfl
    | some c =>
      have := stripL_last_no_ws (s := replaceL (str "\"") [] m) hh
      simp [this]

/-- Claim C7: for a partition on a text- or date-typed column,
`_simulate_partition` builds its three partitioning statements by removing
every double quote from the minimum, median and maximum boundary strings,
stripping surrounding whitespace, and re-quoting each with the dollar-quote
delimiter `$$...$$` (safe against embedded quotes: the cleaned value contains
no double quote and the dollar delimiter is unaffected by single quotes)
before substituting them into the statements; the cleaned values carry no
leading or trailing whitespace. -/
theorem simulate_partition_boundary_quoting (p : Partition) (m1 m2 m3 : Str)
    (htd : p.column.is_text_or_date = true)
    (hmin : p.column.minimum = PyVal.str m1)
    (hmed : p.column.median = PyVal.str m2)
    (hmax : p.column.maximum = PyVal.str m3) :
    simulatePartitionStatements p = Except.ok
      (str "select hypopg_partition_table( '" ++ p.table ++ str "', 'PARTITION BY RANGE (" ++
         p.column.name ++ str ")');",
       str "select hypopg_add_partition('hypo_part_range_" ++ p.table ++
         str "_1', 'PARTITION OF " ++ p.table ++ str " FOR VALUES FROM (" ++
         pgQuote (cleanBoundary m1) ++ str ") TO (" ++ pgQuote (cleanBoundary m2) ++
         str ")');",
       str "select hypopg_add_partition('hypo_part_range_" ++ p.table ++
         str "_2', 'PARTITION OF " ++ p.table ++ str " FOR VALUES FROM (" ++
         pgQuote (cleanBoundary m2) ++ str ") TO (" ++ pgQuote (cleanBoundary m3) ++
         str ")');") ∧
    quoteFree (cleanBoundary m1) = true ∧ quoteFree (cleanBoundary m2) = true ∧
    quoteFree (cleanBoundary m3) = true ∧ noEdgeWs (cleanBoundary m1) = true ∧
    noEdgeWs (cleanBoundary m2) = true ∧ noEdgeWs (cleanBoundary m3) = true := by
  refine ⟨?_, cleanBoundary_quoteFree m1, cleanBoundary_quoteFree m2,
    cleanBoundary_quoteFree m3, cleanBoundary_noEdgeWs m1, cleanBoundary_noEdgeWs m2,
    cleanBoundary_noEdgeWs m3⟩
  simp only [simulatePartitionStatements, boundStr, htd, hmin, hmed, hmax, if_true,
    cleanBoundary, pgQuote]

def partC7 : Partition :=
  ⟨str "orders",
   ⟨str "orders", str "o_orderdate", PyVal.str (str "date"),
    PyVal.str (str " \"1992-01-01\" "), PyVal.str (str "\"1995-06-15\""),
    PyVal.str (str "1998-12-31  "), true⟩⟩

theorem simulate_partition_boundary_quoting_witness :
    simulatePartitionStatements partC7 = Except.ok
      (str "select hypopg_partition_table( '" ++ partC7.table ++
         str "', 'PARTITION BY RANGE (" ++ partC7.column.name ++ str ")');",
       str "select hypopg_add_partition('hypo_part_range_" ++ partC7.table ++
         str "_1', 'PARTITION OF " ++ partC7.table ++ str " FOR VALUES FROM (" ++
         pgQuote (cleanBoundary (str " \"1992-01-01\" ")) ++ str ") TO (" ++
         pgQuote (cleanBoundary (str "\"1995-06-15\"")) ++ str ")');",
       str "select hypopg_add_partition('hypo_part_range_" ++ partC7.table ++
         str "_2', 'PARTITION OF " ++ partC7.table ++ str " FOR VALUES FROM (" ++
         pgQuote (cleanBoundary (str "\"1995-06-15\"")) ++ str ") TO (" ++
         pgQuote (cleanBoundary (str "1998-12-31  ")) ++ str ")');") ∧
    quoteFree (cleanBoundary (str " \"1992-01-01\" ")) = true ∧
    quoteFree (cleanBoundary (str "\"1995-06-15\"")) = true ∧
    quoteFree (cleanBoundary (str "1998-12-31  ")) = true ∧
    noEdgeWs (cleanBoundary (str " \"1992-01-01\" ")) = true ∧
    noEdgeWs (cleanBoundary (str "\"1995-06-15\"")) = true ∧
    noEdgeWs (cleanBoundary (str "1998-12-31  ")) = true :=
  simulate_partition_boundary_quoting partC7 (str " \"1992-01-01\" ")
    (str "\"1995-06-15\"") (str "1998-12-31  ") rfl rfl rfl rfl

/- ## C1 / C4: exec_query failure handling and cleanup -/

theorem planOnly_of_getPlanFull {env : Env} {q : Query} {p : PyVal}
    (h : getPlanFull env q = Except.ok p) : planOnlyResult env q = Except.ok p := by
  unfold getPlanFull at h
  cases hp : planOnlyResult env q with
  | error e => rw [hp] at h; cases h
  | ok p2 =>
    rw [hp] at h
    cases hc : cleanupRes env q with
    | error e => rw [hc] at h; cases h
    | ok u => rw [hc] at h; cases h; rfl

/-- Claim C1 (amended): for every query whose execution (the explain-analyze
fetch and plan extraction) raises an error, if `exec_query` returns normally
then it returns the pair (None, plan) with the plan obtained via the
plan-only estimation path, a rollback was issued, and the session's statement
timeout is reset to unlimited (0) before it returns; if the plan-only
fallback itself raises, `exec_query` instead propagates that error, skipping
the timeout reset. -/
theorem exec_query_failure_fallback (env : Env) (q : Query) (T : Option Nat) (ce : Bool)
    (s : ConnState) (e : PyErr) (v : PyVal × PyVal) (s' : ConnState) (tr : List Event)
    (hfail : analyzeResultQt env (preparedText q) = Except.error e)
    (hrun : exec_query env q T ce s = ⟨Except.ok v, s', tr⟩) :
    v.1 = PyVal.none ∧ planOnlyResult env q = Except.ok v.2 ∧
    Event.rollback ∈ tr ∧ s'.timeout = 0 := by
  rw [exec_query_run] at hrun
  unfold execQueryMR at hrun
  cases hst : setTimeoutRes env T with
  | error e2 => simp only [hst] at hrun; simp at hrun
  | ok u =>
    cases u
    simp only [hst] at hrun
    cases hcr : catchResEQ env q with
    | error e2 => simp only [hcr] at hrun; simp at hrun
    | ok v2 =>
      simp only [hcr] at hrun
      cases hrs : execVal env resetStmt with
      | error e2 => simp only [hrs] at hrun; simp at hrun
      | ok u2 =>
        cases u2
        simp only [hrs] at hrun
        cases hcl : cleanupRes env q with
        | error e2 => simp only [hcl] at hrun; simp at hrun
        | ok u3 =>
          cases u3
          simp only [hcl] at hrun
          have hv : v2 = v := Except.ok.inj (congrArg MR.res hrun)
          have hstate := congrArg MR.st hrun
          have htr := congrArg MR.tr hrun
          dsimp only at hstate htr
          unfold catchResEQ at hcr
          rw [hfail] at hcr
          cases hgp : getPlanFull env q with
          | error e3 => rw [hgp] at hcr; cases hcr
          | ok p =>
            rw [hgp] at hcr
            have hv2 : v2 = (PyVal.none, p) := by cases hcr; rfl
            rw [hv2] at hv
            cases hv
            refine ⟨rfl, planOnly_of_getPlanFull hgp, ?_, ?_⟩
            · rw [← htr]
              simp [catchTrEQ, hfail]
            · rw [← hstate]

/- Witness data for the exec_query claims: a one-statement query, a
   well-formed plan row, and environments in which the explain-analyze
   statement fails. -/

def planW : PyVal :=
  PyVal.dict [(str "Total Cost", PyVal.int 5), (str "Actual Total Time", PyVal.int 7)]

def planRowW : PyVal := PyVal.list [PyVal.list [PyVal.dict [(str "Plan", planW)]]]

def qW : Query := ⟨1, str "select 1"⟩

/- Explain-analyze fails (malformed under analyze), the plan-only path
   succeeds. -/
def envC1w : Env :=
  ⟨fun stmt =>
    if stmt = str "explain (analyze, buffers, format json) select 1" then ExecOutcome.progErr
    else ExecOutcome.ok [planRowW],
   fun _ => 0⟩

def trC1w : List Event :=
  [Event.commit, Event.exec (str "set statement_timeout=1"),
   Event.exec (str "explain (analyze, buffers, format json) select 1"), Event.rollback,
   Event.exec (str "explain (format json) select 1"),
   Event.exec (str "set statement_timeout = 0")]

theorem exec_query_failure_fallback_witness :
    (PyVal.none, planW).1 = PyVal.none ∧
    planOnlyResult envC1w qW = Except.ok (PyVal.none, planW).2 ∧
    Event.rollback ∈ trC1w ∧ (initState false).timeout = 0 :=
  exec_query_failure_fallback envC1w qW (some 1) false (initState false) PyErr.programming
    (PyVal.none, planW) (initState false) trC1w rfl rfl

/- Explain-analyze fails and the plan-only statement hits a (swallowed)
   operational error, so the fallback's truthiness check raises Exception. -/
def envC1 : Env :=
  ⟨fun stmt =>
    if stmt = str "explain (analyze, buffers, format json) select 1" then ExecOutcome.progErr
    else if stmt = str "explain (format json) select 1" then ExecOutcome.opErr
    else ExecOutcome.ok [],
   fun _ => 0⟩

/-- Claim C1 (counterexample): a query whose execution raises an error for
which `exec_query` does not return `(None, plan)` and does not reset the
statement timeout: when the plan-only fallback itself fails (here the
plan-only fetch is swallowed into None, so `_get_plan` raises Exception),
`exec_query` propagates the error and the session's statement timeout is left
at the per-query value 1 instead of unlimited. -/
theorem exec_query_failure_not_always_pair :
    (exec_query envC1 qW (some 1) false (initState false)).res =
      Except.error PyErr.exception ∧
    (exec_query envC1 qW (some 1) false (initState false)).st.timeout = 1 :=
  ⟨rfl, rfl⟩

/- ## C4: cleanup behaviour -/

/- The cleanup events demanded by the spec: each `drop view` sub-statement
   executed and followed by a commit. -/

def dvGo : List Str → List Event
  | [] => []
  | seg :: rest =>
    if containsSub seg (str "drop view") then
      Event.exec seg :: Event.commit :: dvGo rest
    else dvGo rest

def dropViewEvents (q : Query) : List Event := dvGo (splitChar ';' q.text)

theorem cleanupTraceGo_of_ok (env : Env) :
    ∀ segs : List Str, cleanupResGo env segs = Except.ok () →
      cleanupTraceGo env segs = dvGo segs := by
  intro segs
  induction segs with
  | nil => intro h; rfl
  | cons seg rest ih =>
    intro h
    simp only [cleanupResGo] at h
    simp only [cleanupTraceGo, dvGo]
    split
    · rename_i hdv
      rw [hdv] at h
      simp only [if_true] at h ⊢
      cases hx : execVal env seg with
      | error e => rw [hx] at h; cases h
      | ok u => rw [hx] at h; cases u; rw [ih h]
    · rename_i hdv
      rw [if_neg hdv] at h
      exact ih h

theorem exec_mem_dvGo {seg : Str} :
    ∀ segs : List Str, seg ∈ segs → containsSub seg (str "drop view") = true →
      Event.exec seg ∈ dvGo segs ∧ Event.commit ∈ dvGo segs := by
  intro segs
  induction segs with
  | nil => intro h; cases h
  | cons a rest ih =>
    intro hmem hdv
    simp only [dvGo]
    cases hmem with
    | head =>
      rw [hdv]
      simp
    | tail b hb =>
      have := ih hb hdv
      split
      · exact ⟨List.mem_cons_of_mem _ (List.mem_cons_of_mem _ this.1),
          List.mem_cons_of_mem _ (List.mem_cons_of_mem _ this.2)⟩
      · exact this

/-- Claim C4 (amended): whenever `exec_query` returns normally — on the
success path always, and on the failure path provided the plan-only fallback
succeeded — the cleanup step has run to completion: every `drop view`
sub-statement of the query's text was executed, each followed by a commit,
and these cleanup events form the tail of the call's event trace.  When the
failure path's fallback itself raises, `exec_query` propagates the error and
the cleanup step is skipped, so the cleanup is not unconditional. -/
theorem exec_query_cleanup_on_return (env : Env) (q : Query) (T : Option Nat) (ce : Bool)
    (s : ConnState) (v : PyVal × PyVal) (s' : ConnState) (tr : List Event)
    (hrun : exec_query env q T ce s = ⟨Except.ok v, s', tr⟩) :
    cleanupRes env q = Except.ok () ∧
    (∃ pre, tr = pre ++ dropViewEvents q) ∧
    (∀ seg ∈ splitChar ';' q.text, containsSub seg (str "drop view") = true →
      Event.exec seg ∈ tr ∧ Event.commit ∈ tr) := by
  rw [exec_query_run] at hrun
  unfold execQueryMR at hrun
  cases hst : setTimeoutRes env T with
  | error e2 => simp only [hst] at hrun; simp at hrun
  | ok u =>
    cases u
    simp only [hst] at hrun
    cases hcr : catchResEQ env q with
    | error e2 => simp only [hcr] at hrun; simp at hrun
    | ok v2 =>
      simp only [hcr] at hrun
      cases hrs : execVal env resetStmt with
      | error e2 => simp only [hrs] at hrun; simp at hrun
      | ok u2 =>
        cases u2
        simp only [hrs] at hrun
        cases hcl : cleanupRes env q with
        | error e2 => simp only [hcl] at hrun; simp at hrun
        | ok u3 =>
          cases u3
          simp only [hcl] at hrun
          have htr := congrArg MR.tr hrun
          dsimp only at htr
          have htrace : cleanupTrace env q = dropViewEvents q :=
            cleanupTraceGo_of_ok env (splitChar ';' q.text) hcl
          refine ⟨rfl, ?_, ?_⟩
          · refine ⟨(if ce = true then [] else [Event.commit]) ++ prepTrace q ++
              setTimeoutTr T ++ catchTrEQ env q ++ [Event.exec resetStmt], ?_⟩
            rw [← htr, htrace]
          · intro seg hseg hdv
            have hm := exec_mem_dvGo (splitChar ';' q.text) hseg hdv
            rw [← htr, htrace]
            unfold dropViewEvents
            constructor
            · simp only [List.mem_append]
              exact Or.inr hm.1
            · simp only [List.mem_append]
              exact Or.inr hm.2

def qC4 : Query := ⟨2, str "select * from v;drop view v"⟩

def envC4 : Env :=
  ⟨fun stmt =>
    if stmt = str "explain (analyze, buffers, format json) select * from v" then
      ExecOutcome.progErr
    else if stmt = str "explain (format json) select * from v" then ExecOutcome.opErr
    else ExecOutcome.ok [],
   fun _ => 0⟩

/-- Claim C4 (counterexample): an `exec_query` call on whose failure path the
cleanup step does not run: the explain-analyze statement fails, the plan-only
fallback also fails, and the `drop view v` sub-statement of the query text is
never executed (and never committed) before `exec_query` propagates the
error — so the cleanup is not unconditional. -/
theorem exec_query_cleanup_skipped :
    Event.exec (str "drop view v") ∉
      (exec_query envC4 qC4 Option.none false (initState false)).tr ∧
    (exec_query envC4 qC4 Option.none false (initState false)).res =
      Except.error PyErr.exception := by
  constructor
  · decide
  · rfl

def envAllRow : Env := ⟨fun _ => ExecOutcome.ok [planRowW], fun _ => 0⟩

theorem exec_query_cleanup_on_return_witness :
    cleanupRes envAllRow qC4 = Except.ok () ∧
    (∃ pre, (exec_query envAllRow qC4 Option.none false (initState false)).tr =
      pre ++ dropViewEvents qC4) ∧
    (∀ seg ∈ splitChar ';' qC4.text, containsSub seg (str "drop view") = true →
      Event.exec seg ∈ (exec_query envAllRow qC4 Option.none false (initState false)).tr ∧
      Event.commit ∈ (exec_query envAllRow qC4 Option.none false (initState false)).tr) :=
  exec_query_cleanup_on_return envAllRow qC4 Option.none false (initState false)
    (PyVal.int 7, planW)
    ((exec_query envAllRow qC4 Option.none false (initState false)).st)
    ((exec_query envAllRow qC4 Option.none false (initState false)).tr) rfl

/- ## C2: instrumentation of the simulate/drop entry points -/

def isOkE : Except PyErr α → Bool
  | Except.ok _ => true
  | Except.error _ => false

theorem timed_run_ok {α : Type} {inner : M α} {s s2 : ConnState} {a : α} {tr : List Event}
    (env : Env) (record : ℚ → ConnState → ConnState)
    (h : inner { s with tick := s.tick + 1 } = ⟨Except.ok a, s2, tr⟩) :
    timed env record inner s =
      ⟨Except.ok a, record (env.time s2.tick - env.time s.tick) { s2 with tick := s2.tick + 1 },
       tr⟩ := by
  simp [timed, mbind, readClock, modifyS, mpure, h]

theorem timed_run_err {α : Type} {inner : M α} {s s2 : ConnState} {e : PyErr} {tr : List Event}
    (env : Env) (record : ℚ → ConnState → ConnState)
    (h : inner { s with tick := s.tick + 1 } = ⟨Except.error e, s2, tr⟩) :
    timed env record inner s = ⟨Except.error e, s2, tr⟩ := by
  simp [timed, mbind, readClock, modifyS, mpure, h]

theorem simulate_index_run (env : Env) (idx : Index) (s : ConnState) :
    simulate_index env idx s =
      ⟨fetchVal env (simIdxStmt idx) true,
       (match fetchVal env (simIdxStmt idx) true with
        | Except.ok _ =>
          { s with simulated_indexes := s.simulated_indexes + 1, tick := s.tick + 2,
                   index_simulation_duration := s.index_simulation_duration +
                     (env.time (s.tick + 1) - env.time s.tick) }
        | Except.error _ =>
          { s with simulated_indexes := s.simulated_indexes + 1, tick := s.tick + 1 }),
       [Event.exec (simIdxStmt idx)]⟩ := by
  cases hf : fetchVal env (simIdxStmt idx) true with
  | ok r =>
    have hi : _simulate_index env idx
        { s with simulated_indexes := s.simulated_indexes + 1, tick := s.tick + 1 } =
        ⟨Except.ok r, { s with simulated_indexes := s.simulated_indexes + 1, tick := s.tick + 1 },
         [Event.exec (simIdxStmt idx)]⟩ := by
      simp [_simulate_index, exec_fetch, hf]
    simp only [simulate_index, mbind, modifyS]
    rw [timed_run_ok env addIndexDur hi]
    simp [addIndexDur]
  | error e =>
    have hi : _simulate_index env idx
        { s with simulated_indexes := s.simulated_indexes + 1, tick := s.tick + 1 } =
        ⟨Except.error e,
         { s with simulated_indexes := s.simulated_indexes + 1, tick := s.tick + 1 },
         [Event.exec (simIdxStmt idx)]⟩ := by
      simp [_simulate_index, exec_fetch, hf]
    simp only [simulate_index, mbind, modifyS]
    rw [timed_run_err env addIndexDur hi]
    simp

def dropIdxRes (env : Env) (oid : Nat) : Except PyErr Unit :=
  match fetchVal env (dropIdxStmt oid) true with
  | Except.error e => Except.error e
  | Except.ok r =>
    match pySub r (PyVal.int 0) with
    | Except.error e => Except.error e
    | Except.ok r0 => if isTruePy r0 then Except.ok () else Except.error PyErr.assertionErr

theorem drop_simulated_index_inner_run (env : Env) (oid : Nat) (s : ConnState) :
    _drop_simulated_index env oid s =
      ⟨dropIdxRes env oid, s, [Event.exec (dropIdxStmt oid)]⟩ := by
  cases hf : fetchVal env (dropIdxStmt oid) true with
  | error e =>
    simp [_drop_simulated_index, dropIdxRes, exec_fetch, mbind, mlift, mraise, mpure, hf]
  | ok r =>
    cases hp : pySub r (PyVal.int 0) with
    | error e =>
      simp [_drop_simulated_index, dropIdxRes, exec_fetch, mbind, mlift, mraise, mpure, hf, hp]
    | ok r0 =>
      by_cases ht : isTruePy r0
      · simp [_drop_simulated_index, dropIdxRes, exec_fetch, mbind, mlift, mraise, mpure, hf,
          hp, ht]
      · simp [_drop_simulated_index, dropIdxRes, exec_fetch, mbind, mlift, mraise, mpure, hf,
          hp, ht]

theorem drop_simulated_index_run (env : Env) (oid : Nat) (s : ConnState) :
    drop_simulated_index env oid s =
      ⟨dropIdxRes env oid,
       (match dropIdxRes env oid with
        | Except.ok _ =>
          { s with tick := s.tick + 2,
                   index_simulation_duration := s.index_simulation_duration +
                     (env.time (s.tick + 1) - env.time s.tick) }
        | Except.error _ => { s with tick := s.tick + 1 }),
       [Event.exec (dropIdxStmt oid)]⟩ := by
  cases hr : dropIdxRes env oid with
  | ok u =>
    cases u
    have hi := drop_simulated_index_inner_run env oid { s with tick := s.tick + 1 }
    rw [hr] at hi
    simp only [drop_simulated_index]
    rw [timed_run_ok env addIndexDur hi]
    simp [addIndexDur, hr]
  | error e =>
    have hi := drop_simulated_index_inner_run env oid { s with tick := s.tick + 1 }
    rw [hr] at hi
    simp only [drop_simulated_index]
    rw [timed_run_err env addIndexDur hi]

def simPartRes (env : Env) (p : Partition) : Except PyErr PyVal :=
  match simulatePartitionStatements p with
  | Except.error e => Except.error e
  | Except.ok sts =>
    match fetchVal env sts.1 true with
    | Except.error e => Except.error e
    | Except.ok r =>
      match fetchVal env sts.2.1 true with
      | Except.error e => Except.error e
      | Except.ok _ =>
        match fetchVal env sts.2.2 true with
        | Except.error e => Except.error e
        | Except.ok _ => Except.ok r

theorem simulate_partition_inner_run (env : Env) (p : Partition) (s : ConnState) :
    ∃ tr, _simulate_partition env p s = ⟨simPartRes env p, s, tr⟩ := by
  cases hs : simulatePartitionStatements p with
  | error e =>
    exact ⟨[], by simp [_simulate_partition, simPartRes, mbind, mlift, mpure, exec_fetch, hs]⟩
  | ok sts =>
    cases h1 : fetchVal env sts.1 true with
    | error e =>
      exact ⟨[Event.exec sts.1],
        by simp [_simulate_partition, simPartRes, mbind, mlift, mpure, exec_fetch, hs, h1]⟩
    | ok r =>
      cases h2 : fetchVal env sts.2.1 true with
      | error e =>
        exact ⟨[Event.exec sts.1, Event.exec sts.2.1],
          by simp [_simulate_partition, simPartRes, mbind, mlift, mpure, exec_fetch, hs, h1, h2]⟩
      | ok r2 =>
        cases h3 : fetchVal env sts.2.2 true with
        | error e =>
          exact ⟨[Event.exec sts.1, Event.exec sts.2.1, Event.exec sts.2.2],
            by simp [_simulate_partition, simPartRes, mbind, mlift, mpure, exec_fetch, hs, h1,
              h2, h3]⟩
        | ok r3 =>
          exact ⟨[Event.exec sts.1, Event.exec sts.2.1, Event.exec sts.2.2],
            by simp [_simulate_partition, simPartRes, mbind, mlift, mpure, exec_fetch, hs, h1,
              h2, h3]⟩

theorem simulate_partition_run (env : Env) (p : Partition) (s : ConnState) :
    ∃ tr, simulate_partition env p s =
      ⟨simPartRes env p,
       (match simPartRes env p with
        | Except.ok _ =>
          { s with simulated_partitions := s.simulated_partitions + 1, tick := s.tick + 2,
                   partition_simulation_duration := s.partition_simulation_duration +
                     (env.time (s.tick + 1) - env.time s.tick) }
        | Except.error _ =>
          { s with simulated_partitions := s.simulated_partitions + 1, tick := s.tick + 1 }),
       tr⟩ := by
  obtain ⟨tri, hi⟩ := simulate_partition_inner_run env p
    { s with simulated_partitions := s.simulated_partitions + 1, tick := s.tick + 1 }
  cases hr : simPartRes env p with
  | ok r =>
    rw [hr] at hi
    refine ⟨tri, ?_⟩
    simp only [simulate_partition, mbind, modifyS]
    rw [timed_run_ok env addPartDur hi]
    simp [addPartDur, hr]
  | error e =>
    rw [hr] at hi
    refine ⟨tri, ?_⟩
    simp only [simulate_partition, mbind, modifyS]
    rw [timed_run_err env addPartDur hi]
    simp [hr]

def dropPartRes (env : Env) (tablename : Str) : Except PyErr Unit :=
  match fetchVal env (dropPartitionStmt tablename) true with
  | Except.error e => Except.error e
  | Except.ok r => if isNonePy r then Except.error PyErr.assertionErr else Except.ok ()

theorem drop_simulated_partition_run (env : Env) (tablename : Str) (p : Partition)
    (s : ConnState) :
    drop_simulated_partition env tablename p s =
      ⟨dropPartRes env tablename,
       (match dropPartRes env tablename with
        | Except.ok _ =>
          { s with tick := s.tick + 2,
                   partition_simulation_duration := s.partition_simulation_duration +
                     (env.time (s.tick + 1) - env.time s.tick) }
        | Except.error _ => { s with tick := s.tick + 1 }),
       [Event.exec (dropPartitionStmt tablename)]⟩ := by
  have hi : _drop_simulated_partition env tablename p { s with tick := s.tick + 1 } =
      ⟨dropPartRes env tablename, { s with tick := s.tick + 1 },
       [Event.exec (dropPartitionStmt tablename)]⟩ := by
    cases hf : fetchVal env (dropPartitionStmt tablename) true with
    | error e =>
      simp [_drop_simulated_partition, dropPartRes, exec_fetch, mbind, mraise, mpure, hf]
    | ok r =>
      by_cases hn : isNonePy r
      · simp [_drop_simulated_partition, dropPartRes, exec_fetch, mbind, mraise, mpure, hf, hn]
      · simp [_drop_simulated_partition, dropPartRes, exec_fetch, mbind, mraise, mpure, hf, hn]
  cases hr : dropPartRes env tablename with
  | ok u =>
    cases u
    rw [hr] at hi
    simp only [drop_simulated_partition]
    rw [timed_run_ok env addPartDur hi]
    simp [addPartDur, hr]
  | error e =>
    rw [hr] at hi
    simp only [drop_simulated_partition]
    rw [timed_run_err env addPartDur hi]

/-- Claim C2 (amended): `simulate_index` and `simulate_partition` first
increment their instrumentation counter — the increment survives even when
the underlying call raises, showing it happens before the timed call — and
wrap the underlying call with duration measurement accumulated into the
matching running total on normal return; `drop_simulated_index` and
`drop_simulated_partition` only wrap the underlying call with duration
measurement into the matching total and increment no counter. -/
theorem instrumentation_entry_points :
    (∀ (env : Env) (idx : Index) (s : ConnState),
      (simulate_index env idx s).st.simulated_indexes = s.simulated_indexes + 1) ∧
    (∀ (env : Env) (idx : Index) (s : ConnState),
      isOkE (simulate_index env idx s).res = true →
        (simulate_index env idx s).st.index_simulation_duration =
          s.index_simulation_duration + (env.time (s.tick + 1) - env.time s.tick)) ∧
    (∀ (env : Env) (p : Partition) (s : ConnState),
      (simulate_partition env p s).st.simulated_partitions = s.simulated_partitions + 1) ∧
    (∀ (env : Env) (p : Partition) (s : ConnState),
      isOkE (simulate_partition env p s).res = true →
        (simulate_partition env p s).st.partition_simulation_duration =
          s.partition_simulation_duration + (env.time (s.tick + 1) - env.time s.tick)) ∧
    (∀ (env : Env) (oid : Nat) (s : ConnState),
      (drop_simulated_index env oid s).st.simulated_indexes = s.simulated_indexes ∧
      (drop_simulated_index env oid s).st.simulated_partitions = s.simulated_partitions ∧
      (drop_simulated_index env oid s).st.cost_estimations = s.cost_estimations) ∧
    (∀ (env : Env) (oid : Nat) (s : ConnState),
      isOkE (drop_simulated_index env oid s).res = true →
        (drop_simulated_index env oid s).st.index_simulation_duration =
          s.index_simulation_duration + (env.time (s.tick + 1) - env.time s.tick)) ∧
    (∀ (env : Env) (tn : Str) (p : Partition) (s : ConnState),
      (drop_simulated_partition env tn p s).st.simulated_indexes = s.simulated_indexes ∧
      (drop_simulated_partition env tn p s).st.simulated_partitions = s.simulated_partitions ∧
      (drop_simulated_partition env tn p s).st.cost_estimations = s.cost_estimations) ∧
    (∀ (env : Env) (tn : Str) (p : Partition) (s : ConnState),
      isOkE (drop_simulated_partition env tn p s).res = true →
        (drop_simulated_partition env tn p s).st.partition_simulation_duration =
          s.partition_simulation_duration + (env.time (s.tick + 1) - env.time s.tick)) := by
  refine ⟨?_, ?_, ?_, ?_, ?_, ?_, ?_, ?_⟩
  · intro env idx s
    rw [simulate_index_run]
    cases fetchVal env (simIdxStmt idx) true <;> rfl
  · intro env idx s h
    rw [simulate_index_run] at h ⊢
    cases hv : fetchVal env (simIdxStmt idx) true with
    | ok r => rfl
    | error e => rw [hv] at h; simp [isOkE] at h
  · intro env p s
    obtain ⟨tr, hrun⟩ := simulate_partition_run env p s
    rw [hrun]
    cases simPartRes env p <;> rfl
  · intro env p s h
    obtain ⟨tr, hrun⟩ := simulate_partition_run env p s
    rw [hrun] at h ⊢
    cases hv : simPartRes env p with
    | ok r => rfl
    | error e => rw [hv] at h; simp [isOkE] at h
  · intro env oid s
    rw [drop_simulated_index_run]
    cases dropIdxRes env oid <;> exact ⟨rfl, rfl, rfl⟩
  · intro env oid s h
    rw [drop_simulated_index_run] at h ⊢
    cases hv : dropIdxRes env oid with
    | ok u => rfl
    | error e => rw [hv] at h; simp [isOkE] at h
  · intro env tn p s
    rw [drop_simulated_partition_run]
    cases dropPartRes env tn <;> exact ⟨rfl, rfl, rfl⟩
  · intro env tn p s h
    rw [drop_simulated_partition_run] at h ⊢
    cases hv : dropPartRes env tn with
    | ok u => rfl
    | error e => rw [hv] at h; simp [isOkE] at h

def idxW : Index := ⟨str "nation", str "n_name", str "nation_n_name_idx", PyVal.none⟩

def envDropOk : Env := ⟨fun _ => ExecOutcome.ok [PyVal.list [PyVal.bool true]], fun _ => 0⟩

theorem instrumentation_entry_points_witness :
    (simulate_index envDropOk idxW (initState false)).st.simulated_indexes = 0 + 1 ∧
    (simulate_index envDropOk idxW (initState false)).st.index_simulation_duration =
      0 + (envDropOk.time (0 + 1) - envDropOk.time 0) ∧
    (drop_simulated_index envDropOk 42 (initState false)).st.simulated_indexes = 0 ∧
    (drop_simulated_index envDropOk 42 (initState false)).st.index_simulation_duration =
      0 + (envDropOk.time (0 + 1) - envDropOk.time 0) ∧
    (drop_simulated_partition envDropOk (str "nation") partW (initState false)).st.simulated_partitions = 0 :=
  ⟨instrumentation_entry_points.1 envDropOk idxW (initState false),
   instrumentation_entry_points.2.1 envDropOk idxW (initState false) rfl,
   (instrumentation_entry_points.2.2.2.2.1 envDropOk 42 (initState false)).1,
   instrumentation_entry_points.2.2.2.2.2.1 envDropOk 42 (initState false) rfl,
   (instrumentation_entry_points.2.2.2.2.2.2.1 envDropOk (str "nation") partW
     (initState false)).2.1⟩

/-- Claim C2 (counterexample): `drop_simulated_index` (and likewise
`drop_simulated_partition`) increments no instrumentation counter: after a
successful drop call starting from the freshly-constructed state, all three
counters are still 0, contradicting 'every simulate/drop entry point first
increments the corresponding instrumentation counter'. -/
theorem drop_entry_points_no_counter :
    (drop_simulated_index envDropOk 42 (initState false)).res = Except.ok () ∧
    (drop_simulated_index envDropOk 42 (initState false)).st.simulated_indexes = 0 ∧
    (drop_simulated_index envDropOk 42 (initState false)).st.simulated_partitions = 0 ∧
    (drop_simulated_index envDropOk 42 (initState false)).st.cost_estimations = 0 ∧
    (drop_simulated_partition envDropOk (str "nation") partW (initState false)).res =
      Except.ok () ∧
    (drop_simulated_partition envDropOk (str "nation") partW
      (initState false)).st.simulated_indexes = 0 ∧
    (drop_simulated_partition envDropOk (str "nation") partW
      (initState false)).st.simulated_partitions = 0 ∧
    (drop_simulated_partition envDropOk (str "nation") partW
      (initState false)).st.cost_estimations = 0 :=
  ⟨rfl, rfl, rfl, rfl, rfl, rfl, rfl, rfl⟩

/- ## C9: session-lifetime monotonicity of the instrumentation state -/

/- The instrumentation order: clock-call counter, the three call counters and
   the three duration accumulators never decrease (timeout and autocommit are
   free to change). -/

def stepLE (s s2 : ConnState) : Prop :=
  s.tick ≤ s2.tick ∧ s.simulated_indexes ≤ s2.simulated_indexes ∧
  s.simulated_partitions ≤ s2.simulated_partitions ∧
  s.cost_estimations ≤ s2.cost_estimations ∧
  s.cost_estimation_duration ≤ s2.cost_estimation_duration ∧
  s.index_simulation_duration ≤ s2.index_simulation_duration ∧
  s.partition_simulation_duration ≤ s2.partition_simulation_duration

theorem stepLE_refl (s : ConnState) : stepLE s s :=
  ⟨le_refl _, le_refl _, le_refl _, le_refl _, le_refl _, le_refl _, le_refl _⟩

theorem stepLE_trans {a b c : ConnState} (h1 : stepLE a b) (h2 : stepLE b c) : stepLE a c :=
  ⟨le_trans h1.1 h2.1, le_trans h1.2.1 h2.2.1, le_trans h1.2.2.1 h2.2.2.1,
   le_trans h1.2.2.2.1 h2.2.2.2.1, le_trans h1.2.2.2.2.1 h2.2.2.2.2.1,
   le_trans h1.2.2.2.2.2.1 h2.2.2.2.2.2.1, le_trans h1.2.2.2.2.2.2 h2.2.2.2.2.2.2⟩

def ClockOK (env : Env) : Prop := ∀ i j : Nat, i ≤ j → env.time i ≤ env.time j

def MonoM (m : M α) : Prop := ∀ s, stepLE s ((m s).st)

def PreSt (m : M α) : Prop := ∀ s, (m s).st = s

theorem monoM_of_preSt {m : M α} (h : PreSt m) : MonoM m := fun s => by
  rw [h s]; exact stepLE_refl s

theorem preSt_mpure (a : α) : PreSt (mpure a) := fun _ => rfl

theorem preSt_mlift (e : Except PyErr α) : PreSt (mlift e) := fun s => by
  cases e <;> rfl

theorem preSt_mraise (e : PyErr) : PreSt (mraise e : M α) := fun _ => rfl

theorem preSt_exec_only (env : Env) (stmt : Str) : PreSt (exec_only env stmt) := fun _ => rfl

theorem preSt_exec_fetch (env : Env) (stmt : Str) (one : Bool) :
    PreSt (exec_fetch env stmt one) := fun _ => rfl

theorem preSt_commitM : PreSt commitM := fun _ => rfl

theorem preSt_rollbackM : PreSt rollbackM := fun _ => rfl

theorem preSt_closeM : PreSt closeM := fun _ => rfl

theorem preSt_mbind {x : M α} {f : α → M β} (hx : PreSt x) (hf : ∀ a, PreSt (f a)) :
    PreSt (mbind x f) := by
  intro s
  simp only [mbind]
  cases hr : x s with
  | mk res st tr =>
    have hst : st = s := by have := hx s; rw [hr] at this; exact this
    cases res with
    | ok a =>
      dsimp only
      rw [hf a st, hst]
    | error e => exact hst

theorem preSt_mcatch {x : M α} {h : PyErr → M α} (hx : PreSt x) (hh : ∀ e, PreSt (h e)) :
    PreSt (mcatch x h) := by
  intro s
  simp only [mcatch]
  cases hr : x s with
  | mk res st tr =>
    have hst : st = s := by have := hx s; rw [hr] at this; exact this
    cases res with
    | error e =>
      dsimp only
      rw [hh e st, hst]
    | ok a => exact hst

theorem preSt_ite {c : Prop} [Decidable c] {x y : M α} (hx : PreSt x) (hy : PreSt y) :
    PreSt (if c then x else y) := by
  by_cases hc : c
  · simpa [hc] using hx
  · simpa [hc] using hy

theorem mono_mbind {x : M α} {f : α → M β} (hx : MonoM x) (hf : ∀ a, MonoM (f a)) :
    MonoM (mbind x f) := by
  intro s
  simp only [mbind]
  cases hr : x s with
  | mk res st tr =>
    have hst : stepLE s st := by have := hx s; rw [hr] at this; exact this
    cases res with
    | ok a =>
      dsimp only
      cases hr2 : f a st with
      | mk res2 st2 tr2 =>
        have h2 : stepLE st st2 := by have := hf a st; rw [hr2] at this; exact this
        dsimp only
        exact stepLE_trans hst h2
    | error e => exact hst

theorem mono_mcatch {x : M α} {h : PyErr → M α} (hx : MonoM x) (hh : ∀ e, MonoM (h e)) :
    MonoM (mcatch x h) := by
  intro s
  simp only [mcatch]
  cases hr : x s with
  | mk res st tr =>
    have hst : stepLE s st := by have := hx s; rw [hr] at this; exact this
    cases res with
    | error e =>
      dsimp only
      cases hr2 : h e st with
      | mk res2 st2 tr2 =>
        have h2 : stepLE st st2 := by have := hh e st; rw [hr2] at this; exact this
        dsimp only
        exact stepLE_trans hst h2
    | ok a => exact hst

theorem mono_ite {c : Prop} [Decidable c] {x y : M α} (hx : MonoM x) (hy : MonoM y) :
    MonoM (if c then x else y) := by
  by_cases hc : c
  · simpa [hc] using hx
  · simpa [hc] using hy

theorem mono_readClock (env : Env) : MonoM (readClock env) := by
  intro s
  refine ⟨Nat.le_succ _, le_refl _, le_refl _, le_refl _, le_refl _, le_refl _, le_refl _⟩

theorem mono_timed {inner : M α} (env : Env) (record : ℚ → ConnState → ConnState)
    (hclock : ClockOK env) (hrec : ∀ (d : ℚ) (s : ConnState), 0 ≤ d → stepLE s (record d s))
    (hinner : MonoM inner) : MonoM (timed env record inner) := by
  intro s
  simp only [timed, mbind, readClock]
  cases hr : inner { s with tick := s.tick + 1 } with
  | mk res st tr =>
    have h1 : stepLE { s with tick := s.tick + 1 } st := by
      have := hinner { s with tick := s.tick + 1 }
      rw [hr] at this
      exact this
    have h0 : stepLE s { s with tick := s.tick + 1 } :=
      ⟨Nat.le_succ _, le_refl _, le_refl _, le_refl _, le_refl _, le_refl _, le_refl _⟩
    cases res with
    | ok a =>
      have hd : (0 : ℚ) ≤ env.time st.tick - env.time s.tick := by
        have hle : s.tick ≤ st.tick := le_trans h0.1 h1.1
        have := hclock s.tick st.tick hle
        linarith
      have h2 : stepLE st { st with tick := st.tick + 1 } :=
        ⟨Nat.le_succ _, le_refl _, le_refl _, le_refl _, le_refl _, le_refl _, le_refl _⟩
      have h3 := hrec (env.time st.tick - env.time s.tick) { st with tick := st.tick + 1 } hd
      simp only [modifyS, mpure]
      exact stepLE_trans h0 (stepLE_trans h1 (stepLE_trans h2 h3))
    | error e => exact stepLE_trans h0 h1

theorem rec_addIndexDur : ∀ (d : ℚ) (s : ConnState), 0 ≤ d → stepLE s (addIndexDur d s) := by
  intro d s hd
  refine ⟨le_refl _, le_refl _, le_refl _, le_refl _, le_refl _, by simp [addIndexDur]; linarith,
    le_refl _⟩

theorem rec_addPartDur : ∀ (d : ℚ) (s : ConnState), 0 ≤ d → stepLE s (addPartDur d s) := by
  intro d s hd
  refine ⟨le_refl _, le_refl _, le_refl _, le_refl _, le_refl _, le_refl _,
    by simp [addPartDur]; linarith⟩

theorem rec_addCostDur : ∀ (d : ℚ) (s : ConnState), 0 ≤ d → stepLE s (addCostDur d s) := by
  intro d s hd
  refine ⟨le_refl _, le_refl _, le_refl _, le_refl _, by simp [addCostDur]; linarith, le_refl _,
    le_refl _⟩

/- State preservation of the un-instrumented methods. -/

theorem preSt_prepare (env : Env) (q : Query) : PreSt (_prepare_query env q) := fun s => by
  rw [prepare_run]

theorem preSt_cleanup (env : Env) (q : Query) : PreSt (_cleanup_query env q) := fun s => by
  rw [cleanup_run]

theorem preSt_get_plan_inner (env : Env) (q : Query) : PreSt (_get_plan env q) := fun s => by
  rw [get_plan_run]

theorem preSt_try (env : Env) (qt : Option Str) : PreSt (execQueryTry env qt) := fun s => by
  rw [execQueryTry_run]

theorem preSt_get_cost_inner (env : Env) (q : Query) : PreSt (_get_cost env q) :=
  preSt_mbind (preSt_get_plan_inner env q) (fun plan => preSt_mlift _)

theorem preSt_type (env : Env) (c : Column) : PreSt (_type env c) :=
  preSt_mbind (preSt_exec_fetch env _ true) fun result =>
    preSt_mbind (preSt_mlift _) fun t => preSt_mpure _

theorem preSt_gcs (env : Env) (p : Partition) : PreSt (get_column_statistics env p) := by
  unfold get_column_statistics
  refine preSt_mbind (preSt_type env p.column) (fun ct => ?_)
  refine preSt_mbind (preSt_exec_fetch env _ true) (fun result => ?_)
  refine preSt_mbind (preSt_mlift _) (fun mcv => ?_)
  refine preSt_mbind (preSt_mlift _) (fun hb => ?_)
  refine preSt_ite ?_ ?_
  · refine preSt_mbind (preSt_mlift _) (fun sv => ?_)
    refine preSt_mbind (preSt_mlift _) (fun mn => ?_)
    refine preSt_mbind (preSt_mlift _) (fun mx => ?_)
    exact preSt_mbind (preSt_mlift _) (fun md => preSt_mpure _)
  · refine preSt_mbind (preSt_mlift _) (fun hs => ?_)
    dsimp only
    refine preSt_mbind (preSt_mlift _) (fun mn => ?_)
    refine preSt_mbind (preSt_mlift _) (fun mx => ?_)
    exact preSt_mbind (preSt_mlift _) (fun md => preSt_mpure _)

theorem preSt_sim_index_inner (env : Env) (idx : Index) : PreSt (_simulate_index env idx) :=
  preSt_exec_fetch env _ true

theorem preSt_drop_sim_index_inner (env : Env) (oid : Nat) :
    PreSt (_drop_simulated_index env oid) :=
  preSt_mbind (preSt_exec_fetch env _ true) fun result =>
    preSt_mbind (preSt_mlift _) fun r0 =>
      preSt_ite (preSt_mpure _) (preSt_mraise _)

theorem preSt_sim_part_inner (env : Env) (p : Partition) : PreSt (_simulate_partition env p) :=
  preSt_mbind (preSt_mlift _) fun sts =>
    preSt_mbind (preSt_exec_fetch env _ true) fun result =>
      preSt_mbind (preSt_exec_fetch env _ true) fun _ =>
        preSt_mbind (preSt_exec_fetch env _ true) fun _ => preSt_mpure _

theorem preSt_drop_sim_part_inner (env : Env) (tn : Str) (p : Partition) :
    PreSt (_drop_simulated_partition env tn p) :=
  preSt_mbind (preSt_exec_fetch env _ true) fun result =>
    preSt_ite (preSt_mraise _) (preSt_mpure _)

theorem preSt_drop_indexes_go (env : Env) : ∀ rows : List PyVal,
    PreSt (drop_indexes_go env rows) := by
  intro rows
  induction rows with
  | nil => exact preSt_mpure _
  | cons row rest ih =>
    exact preSt_mbind (preSt_mlift _) fun nm =>
      preSt_mbind (preSt_exec_only env _) fun _ => ih

theorem preSt_drop_indexes (env : Env) : PreSt (drop_indexes env) :=
  preSt_mbind (preSt_exec_fetch env _ false) fun result =>
    preSt_mbind (preSt_mlift _) fun rows => preSt_drop_indexes_go env rows

theorem preSt_get_raw_plan (env : Env) (q : Query) : PreSt (get_raw_plan env q) :=
  preSt_mbind (preSt_prepare env q) fun qt =>
    preSt_mbind (preSt_exec_fetch env _ true) fun qp =>
      preSt_mbind (preSt_mlift _) fun plan =>
        preSt_mbind (preSt_cleanup env q) fun _ => preSt_mpure _

theorem preSt_create_index (env : Env) (idx : Index) : PreSt (create_index env idx) :=
  preSt_mbind (preSt_exec_only env _) fun _ =>
    preSt_mbind (preSt_exec_fetch env _ true) fun size =>
      preSt_mbind (preSt_mlift _) fun size0 =>
        preSt_mbind (preSt_mlift _) fun est => preSt_mpure _

/- Monotonicity of the remaining (state-changing) methods. -/

theorem mono_timeout_modify (t : Nat) :
    MonoM (modifyS fun s => { s with timeout := t }) := fun s =>
  ⟨le_refl _, le_refl _, le_refl _, le_refl _, le_refl _, le_refl _, le_refl _⟩

theorem mono_setTimeoutStep (env : Env) (T : Option Nat) : MonoM (setTimeoutStep env T) := by
  cases T with
  | none => exact monoM_of_preSt (preSt_mpure _)
  | some t =>
    refine mono_ite (monoM_of_preSt (preSt_mpure _)) ?_
    exact mono_mbind (monoM_of_preSt (preSt_exec_only env _)) fun _ => mono_timeout_modify t

theorem mono_create_statistics (env : Env) : MonoM (create_statistics env) := by
  refine mono_mbind (monoM_of_preSt preSt_commitM) fun _ => ?_
  refine mono_mbind ?_ fun _ => ?_
  · exact fun s => ⟨le_refl _, le_refl _, le_refl _, le_refl _, le_refl _, le_refl _, le_refl _⟩
  · refine mono_mbind (monoM_of_preSt (preSt_exec_only env _)) fun _ => ?_
    exact fun s => ⟨le_refl _, le_refl _, le_refl _, le_refl _, le_refl _, le_refl _, le_refl _⟩

theorem mono_exec_query (env : Env) (q : Query) (T : Option Nat) (ce : Bool) :
    MonoM (exec_query env q T ce) := by
  unfold exec_query
  refine mono_mbind (mono_ite (monoM_of_preSt (preSt_mpure _))
    (monoM_of_preSt preSt_commitM)) fun _ => ?_
  refine mono_mbind (monoM_of_preSt (preSt_prepare env q)) fun qt => ?_
  refine mono_mbind (mono_setTimeoutStep env T) fun _ => ?_
  refine mono_mbind (mono_mcatch (monoM_of_preSt (preSt_try env qt)) fun e => ?_) fun result => ?_
  · exact monoM_of_preSt (preSt_mbind preSt_rollbackM fun _ =>
      preSt_mbind (preSt_get_plan_inner env q) fun p => preSt_mpure _)
  · refine mono_mbind (monoM_of_preSt (preSt_exec_only env _)) fun _ => ?_
    refine mono_mbind (mono_timeout_modify 0) fun _ => ?_
    exact mono_mbind (monoM_of_preSt (preSt_cleanup env q)) fun _ =>
      monoM_of_preSt (preSt_mpure _)

theorem mono_inc_sim_idx :
    MonoM (modifyS fun s => { s with simulated_indexes := s.simulated_indexes + 1 }) := fun s =>
  ⟨le_refl _, Nat.le_succ _, le_refl _, le_refl _, le_refl _, le_refl _, le_refl _⟩

theorem mono_inc_sim_part :
    MonoM (modifyS fun s => { s with simulated_partitions := s.simulated_partitions + 1 }) :=
  fun s => ⟨le_refl _, le_refl _, Nat.le_succ _, le_refl _, le_refl _, le_refl _, le_refl _⟩

theorem mono_inc_cost :
    MonoM (modifyS fun s => { s with cost_estimations := s.cost_estimations + 1 }) := fun s =>
  ⟨le_refl _, le_refl _, le_refl _, Nat.le_succ _, le_refl _, le_refl _, le_refl _⟩

theorem mono_simulate_index (env : Env) (hclock : ClockOK env) (idx : Index) :
    MonoM (simulate_index env idx) :=
  mono_mbind mono_inc_sim_idx fun _ =>
    mono_timed env addIndexDur hclock rec_addIndexDur
      (monoM_of_preSt (preSt_sim_index_inner env idx))

theorem mono_drop_simulated_index (env : Env) (hclock : ClockOK env) (oid : Nat) :
    MonoM (drop_simulated_index env oid) :=
  mono_timed env addIndexDur hclock rec_addIndexDur
    (monoM_of_preSt (preSt_drop_sim_index_inner env oid))

theorem mono_simulate_partition (env : Env) (hclock : ClockOK env) (p : Partition) :
    MonoM (simulate_partition env p) :=
  mono_mbind mono_inc_sim_part fun _ =>
    mono_timed env addPartDur hclock rec_addPartDur
      (monoM_of_preSt (preSt_sim_part_inner env p))

theorem mono_drop_simulated_partition (env : Env) (hclock : ClockOK env) (tn : Str)
    (p : Partition) : MonoM (drop_simulated_partition env tn p) :=
  mono_timed env addPartDur hclock rec_addPartDur
    (monoM_of_preSt (preSt_drop_sim_part_inner env tn p))

theorem mono_get_cost (env : Env) (hclock : ClockOK env) (q : Query) :
    MonoM (get_cost env q) :=
  mono_mbind mono_inc_cost fun _ =>
    mono_timed env addCostDur hclock rec_addCostDur
      (monoM_of_preSt (preSt_get_cost_inner env q))

theorem mono_get_plan (env : Env) (hclock : ClockOK env) (q : Query) :
    MonoM (get_plan env q) :=
  mono_mbind mono_inc_cost fun _ =>
    mono_timed env addCostDur hclock rec_addCostDur
      (monoM_of_preSt (preSt_get_plan_inner env q))

/- The public operations of the connector classes. -/

inductive Op : Type where
  | execOnlyOp : Str → Op
  | execFetchOp : Str → Bool → Op
  | commitOp : Op
  | rollbackOp : Op
  | closeOp : Op
  | dropIndexOp : Index → Op
  | enableSimulationOp : Op
  | databaseNamesOp : Op
  | createDatabaseOp : Str → Op
  | dropDatabaseOp : Str → Op
  | indexesSizeOp : Op
  | createStatisticsOp : Op
  | setRandomSeedOp : Str → Op
  | supportsIndexSimulationOp : Op
  | createIndexOp : Index → Op
  | dropIndexesOp : Op
  | dropPartitionsOp : Op
  | getRawPlanOp : Query → Op
  | numberOfIndexesOp : Op
  | getColumnPercentilesOp : Column → Op
  | tableExistsOp : Str → Op
  | databaseExistsOp : Str → Op
  | getColumnStatisticsOp : Partition → Op
  | simulateIndexOp : Index → Op
  | dropSimulatedIndexOp : Nat → Op
  | simulatePartitionOp : Partition → Op
  | dropSimulatedPartitionOp : Str → Partition → Op
  | getCostOp : Query → Op
  | getPlanOp : Query → Op
  | execQueryOp : Query → Option Nat → Bool → Op
  | updateQueryTextOp : Str → Op

/- The session state after one public operation (`update_query_text` is a
   pure text rewriting function and touches no session state). -/

def runOp (env : Env) : Op → ConnState → ConnState
  | Op.execOnlyOp stmt, s => (exec_only env stmt s).st
  | Op.execFetchOp stmt one, s => (exec_fetch env stmt one s).st
  | Op.commitOp, s => (commitPub s).st
  | Op.rollbackOp, s => (rollbackPub s).st
  | Op.closeOp, s => (closePub s).st
  | Op.dropIndexOp idx, s => (drop_index env idx s).st
  | Op.enableSimulationOp, s => (enable_simulation env s).st
  | Op.databaseNamesOp, s => (database_names env s).st
  | Op.createDatabaseOp n, s => (create_database env n s).st
  | Op.dropDatabaseOp n, s => (drop_database env n s).st
  | Op.indexesSizeOp, s => (indexes_size env s).st
  | Op.createStatisticsOp, s => (create_statistics env s).st
  | Op.setRandomSeedOp v, s => (set_random_seed env v s).st
  | Op.supportsIndexSimulationOp, s => (supports_index_simulation s).st
  | Op.createIndexOp idx, s => (create_index env idx s).st
  | Op.dropIndexesOp, s => (drop_indexes env s).st
  | Op.dropPartitionsOp, s => (drop_partitions env s).st
  | Op.getRawPlanOp q, s => (get_raw_plan env q s).st
  | Op.numberOfIndexesOp, s => (number_of_indexes env s).st
  | Op.getColumnPercentilesOp c, s => (get_column_percentiles env c s).st
  | Op.tableExistsOp n, s => (table_exists env n s).st
  | Op.databaseExistsOp n, s => (database_exists env n s).st
  | Op.getColumnStatisticsOp p, s => (get_column_statistics env p s).st
  | Op.simulateIndexOp idx, s => (simulate_index env idx s).st
  | Op.dropSimulatedIndexOp oid, s => (drop_simulated_index env oid s).st
  | Op.simulatePartitionOp p, s => (simulate_partition env p s).st
  | Op.dropSimulatedPartitionOp tn p, s => (drop_simulated_partition env tn p s).st
  | Op.getCostOp q, s => (get_cost env q s).st
  | Op.getPlanOp q, s => (get_plan env q s).st
  | Op.execQueryOp q T ce, s => (exec_query env q T ce s).st
  | Op.updateQueryTextOp _, s => s

/-- Claim C9: provided the wall clock is monotone, the three instrumentation
counters (simulated_indexes, simulated_partitions, cost_estimations) and the
three cumulative duration accumulators of a connector instance never decrease
across any public operation of the connector; they start at zero in the
constructor state (`initState`) and no operation resets them. -/
theorem counters_monotone (env : Env) (hclock : ClockOK env) (op : Op) (s : ConnState) :
    stepLE s (runOp env op s) := by
  cases op with
  | execOnlyOp stmt => exact monoM_of_preSt (preSt_exec_only env stmt) s
  | execFetchOp stmt one => exact monoM_of_preSt (preSt_exec_fetch env stmt one) s
  | commitOp => exact monoM_of_preSt preSt_commitM s
  | rollbackOp => exact monoM_of_preSt preSt_rollbackM s
  | closeOp => exact monoM_of_preSt preSt_closeM s
  | dropIndexOp idx => exact monoM_of_preSt (preSt_exec_only env _) s
  | enableSimulationOp =>
    exact monoM_of_preSt (preSt_mbind (preSt_exec_only env _) fun _ => preSt_commitM) s
  | databaseNamesOp =>
    exact monoM_of_preSt (preSt_mbind (preSt_exec_fetch env _ false) fun r =>
      preSt_mbind (preSt_mlift _) fun rows => preSt_mlift _) s
  | createDatabaseOp n => exact monoM_of_preSt (preSt_exec_only env _) s
  | dropDatabaseOp n => exact monoM_of_preSt (preSt_exec_only env _) s
  | indexesSizeOp =>
    exact monoM_of_preSt (preSt_mbind (preSt_exec_fetch env _ true) fun r =>
      preSt_mlift _) s
  | createStatisticsOp => exact mono_create_statistics env s
  | setRandomSeedOp v => exact monoM_of_preSt (preSt_exec_only env _) s
  | supportsIndexSimulationOp => exact monoM_of_preSt (preSt_mpure _) s
  | createIndexOp idx => exact monoM_of_preSt (preSt_create_index env idx) s
  | dropIndexesOp => exact monoM_of_preSt (preSt_drop_indexes env) s
  | dropPartitionsOp =>
    exact monoM_of_preSt (preSt_mbind (preSt_exec_fetch env _ false) fun _ =>
      preSt_mpure _) s
  | getRawPlanOp q => exact monoM_of_preSt (preSt_get_raw_plan env q) s
  | numberOfIndexesOp =>
    exact monoM_of_preSt (preSt_mbind (preSt_exec_fetch env _ true) fun r =>
      preSt_mlift _) s
  | getColumnPercentilesOp c => exact monoM_of_preSt (preSt_exec_fetch env _ false) s
  | tableExistsOp n =>
    exact monoM_of_preSt (preSt_mbind (preSt_exec_fetch env _ true) fun r =>
      preSt_mlift _) s
  | databaseExistsOp n =>
    exact monoM_of_preSt (preSt_mbind (preSt_exec_fetch env _ true) fun r =>
      preSt_mlift _) s
  | getColumnStatisticsOp p => exact monoM_of_preSt (preSt_gcs env p) s
  | simulateIndexOp idx => exact mono_simulate_index env hclock idx s
  | dropSimulatedIndexOp oid => exact mono_drop_simulated_index env hclock oid s
  | simulatePartitionOp p => exact mono_simulate_partition env hclock p s
  | dropSimulatedPartitionOp tn p => exact mono_drop_simulated_partition env hclock tn p s
  | getCostOp q => exact mono_get_cost env hclock q s
  | getPlanOp q => exact mono_get_plan env hclock q s
  | execQueryOp q T ce => exact mono_exec_query env q T ce s
  | updateQueryTextOp t => exact stepLE_refl s

theorem counters_monotone_witness :
    stepLE (initState false) (runOp envDropOk (Op.simulateIndexOp idxW) (initState false)) :=
  counters_monotone envDropOk (fun i j _ => le_refl 0) (Op.simulateIndexOp idxW)
    (initState false)

/- ## C6: idempotence of `_add_alias_subquery`

   The proof needs recursion equations for the regex scan, so we first give a
   well-founded mirror `finditerW` of the fuelled `finditerGo` and prove the
   two equal when the fuel dominates the text length. -/

def finditerW : Str → Nat → List Nat
  | [], _ => []
  | c :: t, ofs =>
    match matchLen (c :: t) with
    | some k => (ofs + k) :: finditerW (List.drop (k - 1) t) (ofs + k)
    | Option.none => finditerW t (ofs + 1)
  termination_by l _ => l.length
  decreasing_by
  · simp only [List.length_drop, List.length_cons]; omega
  · simp only [List.length_cons]; omega

theorem finditerW_nil (ofs : Nat) : finditerW [] ofs = [] := by
  rw [finditerW]

theorem finditerW_cons_some {c : Char} {t : Str} {k : Nat} (ofs : Nat)
    (h : matchLen (c :: t) = some k) :
    finditerW (c :: t) ofs = (ofs + k) :: finditerW (List.drop k (c :: t)) (ofs + k) := by
  have hk := matchLen_pos h
  rw [finditerW, h]
  cases k with
  | zero => omega
  | succ k => simp only [List.drop_succ_cons, Nat.add_sub_cancel]

theorem finditerW_cons_none {c : Char} {t : Str} (ofs : Nat)
    (h : matchLen (c :: t) = Option.none) :
    finditerW (c :: t) ofs = finditerW t (ofs + 1) := by
  rw [finditerW, h]

theorem finditerGo_eq : ∀ (fuel : Nat) (l : Str) (ofs : Nat), l.length < fuel →
    finditerGo fuel l ofs = finditerW l ofs := by
  intro fuel
  induction fuel with
  | zero => intro l ofs h; omega
  | succ fuel ih =>
    intro l ofs h
    cases l with
    | nil => rw [finditerW_nil]; rfl
    | cons c t =>
      cases hm : matchLen (c :: t) with
      | none =>
        rw [finditerW_cons_none ofs hm]
        show finditerGo (fuel + 1) (c :: t) ofs = _
        rw [finditerGo, hm]
        exact ih t (ofs + 1) (by simp only [List.length_cons] at h; omega)
      | some k =>
        have hk := matchLen_pos hm
        rw [finditerW_cons_some ofs hm]
        show finditerGo (fuel + 1) (c :: t) ofs = _
        rw [finditerGo, hm]
        refine congrArg _ (ih _ _ ?_)
        simp only [List.length_drop, List.length_cons] at h ⊢
        omega

theorem finditer_eq_W (l : Str) : finditer l = finditerW l 0 :=
  finditerGo_eq (l.length + 1) l 0 (Nat.lt_succ_self _)

/- Partial balanced scan: run the while-loop over a finite block only, ending
   either inside the block (`Sum.inl` = characters consumed) or at its end
   with the counter still live (`Sum.inr` = surviving counter). -/

def scanBalP : Str → Nat → Sum Nat Nat
  | _, 0 => Sum.inl 0
  | [], k + 1 => Sum.inr (k + 1)
  | c :: t, k + 1 =>
    match scanBalP t (if c = '(' then k + 2 else if c = ')' then k else k + 1) with
    | Sum.inl n => Sum.inl (n + 1)
    | Sum.inr k2 => Sum.inr k2

theorem scanBal_zero (l : Str) : scanBal l 0 = some 0 := by
  cases l <;> rfl

theorem scanBalP_inl_append : ∀ (x : Str) (k n : Nat), scanBalP x k = Sum.inl n →
    ∀ y, scanBal (x ++ y) k = some n := by
  intro x
  induction x with
  | nil =>
    intro k n h y
    cases k with
    | zero => cases h; rw [List.nil_append]; exact scanBal_zero y
    | succ k => cases h
  | cons c t ih =>
    intro k n h y
    cases k with
    | zero => cases h; rfl
    | succ k =>
      show (scanBal (t ++ y) _).map (· + 1) = some n
      revert h
      show (match scanBalP t (if c = '(' then k + 2 else if c = ')' then k else k + 1) with
        | Sum.inl n => Sum.inl (n + 1)
        | Sum.inr k2 => Sum.inr k2) = Sum.inl n → _
      cases hp : scanBalP t (if c = '(' then k + 2 else if c = ')' then k else k + 1) with
      | inl m =>
        intro h
        cases h
        rw [ih _ _ hp]
        rfl
      | inr k2 => intro h; cases h

theorem scanBalP_inr_append : ∀ (x : Str) (k k2 : Nat), scanBalP x k = Sum.inr k2 →
    ∀ y, scanBal (x ++ y) k = (scanBal y k2).map (· + x.length) := by
  intro x
  induction x with
  | nil =>
    intro k k2 h y
    cases k with
    | zero => cases h
    | succ k =>
      cases h
      show scanBal y (k + 1) = _
      cases hy : scanBal y (k + 1) with
      | none => rfl
      | some n => simp
  | cons c t ih =>
    intro k k2 h y
    cases k with
    | zero => cases h
    | succ k =>
      show (scanBal (t ++ y) _).map (· + 1) = _
      revert h
      show (match scanBalP t (if c = '(' then k + 2 else if c = ')' then k else k + 1) with
        | Sum.inl n => Sum.inl (n + 1)
        | Sum.inr k2 => Sum.inr k2) = Sum.inr k2 → _
      cases hp : scanBalP t (if c = '(' then k + 2 else if c = ')' then k else k + 1) with
      | inl m => intro h; cases h
      | inr k3 =>
        intro h
        injection h with h2
        rw [← h2, ih _ _ hp]
        cases hz : scanBal y k3 with
        | none => simp [hz]
        | some m => simp [hz, Nat.add_assoc]

theorem scanBalP_noParen : ∀ (b : Str), (∀ c ∈ b, ¬c = '(' ∧ ¬c = ')') →
    ∀ k, scanBalP b (k + 1) = Sum.inr (k + 1) := by
  intro b
  induction b with
  | nil => intro _ k; rfl
  | cons c t ih =>
    intro h k
    have hc := h c (List.mem_cons_self c t)
    show (match scanBalP t (if c = '(' then k + 2 else if c = ')' then k else k + 1) with
      | Sum.inl n => Sum.inl (n + 1)
      | Sum.inr k2 => Sum.inr k2) = Sum.inr (k + 1)
    rw [if_neg hc.1, if_neg hc.2, ih (fun c hm => h c (List.mem_cons_of_mem _ hm)) k]

theorem scanBalP_inl_le : ∀ (x : Str) (k n : Nat), scanBalP x k = Sum.inl n →
    n ≤ x.length := by
  intro x
  induction x with
  | nil =>
    intro k n h
    cases k with
    | zero => cases h; exact Nat.le_refl 0
    | succ k => cases h
  | cons c t ih =>
    intro k n h
    cases k with
    | zero => cases h; exact Nat.zero_le _
    | succ k =>
      revert h
      show (match scanBalP t (if c = '(' then k + 2 else if c = ')' then k else k + 1) with
        | Sum.inl n => Sum.inl (n + 1)
        | Sum.inr k2 => Sum.inr k2) = Sum.inl n → _
      cases hp : scanBalP t (if c = '(' then k + 2 else if c = ')' then k else k + 1) with
      | inl m =>
        intro h
        cases h
        have := ih _ _ hp
        simp only [List.length_cons]
        omega
      | inr k2 => intro h; cases h

theorem scanBalP_inr_pos : ∀ (x : Str) (k k2 : Nat), scanBalP x k = Sum.inr k2 →
    1 ≤ k2 := by
  intro x
  induction x with
  | nil =>
    intro k k2 h
    cases k with
    | zero => cases h
    | succ k => cases h; omega
  | cons c t ih =>
    intro k k2 h
    cases k with
    | zero => cases h
    | succ k =>
      revert h
      show (match scanBalP t (if c = '(' then k + 2 else if c = ')' then k else k + 1) with
        | Sum.inl n => Sum.inl (n + 1)
        | Sum.inr k2 => Sum.inr k2) = Sum.inr k2 → _
      cases hp : scanBalP t (if c = '(' then k + 2 else if c = ')' then k else k + 1) with
      | inl m => intro h; cases h
      | inr k3 => intro h; injection h with h2; rw [← h2]; exact ih _ _ hp

theorem scanBalP_lparen_end : ∀ (xs : Str) (k k2 : Nat),
    scanBalP (xs ++ ['(']) k = Sum.inr k2 → 2 ≤ k2 := by
  intro xs
  induction xs with
  | nil =>
    intro k k2 h
    cases k with
    | zero => cases h
    | succ k =>
      revert h
      show (match scanBalP [] (k + 2) with
        | Sum.inl n => Sum.inl (n + 1)
        | Sum.inr k2 => Sum.inr k2) = Sum.inr k2 → _
      show (match (Sum.inr (k + 2) : Sum Nat Nat) with
        | Sum.inl n => Sum.inl (n + 1)
        | Sum.inr k2 => Sum.inr k2) = Sum.inr k2 → _
      intro h
      injection h with h2
      omega
  | cons c t ih =>
    intro k k2 h
    cases k with
    | zero => cases h
    | succ k =>
      revert h
      show (match scanBalP (t ++ ['(']) (if c = '(' then k + 2 else if c = ')' then k else k + 1) with
        | Sum.inl n => Sum.inl (n + 1)
        | Sum.inr k2 => Sum.inr k2) = Sum.inr k2 → _
      cases hp : scanBalP (t ++ ['(']) (if c = '(' then k + 2 else if c = ')' then k else k + 1) with
      | inl m => intro h; cases h
      | inr k3 => intro h; injection h with h2; rw [← h2]; exact ih _ _ hp

theorem scanBal_pos : ∀ (l : Str) (k n : Nat), scanBal l (k + 1) = some n → 1 ≤ n := by
  intro l k n h
  cases l with
  | nil => cases h
  | cons c t =>
    revert h
    show (scanBal t _).map (· + 1) = some n → _
    cases hx : scanBal t (if c = '(' then k + 2 else if c = ')' then k else k + 1) with
    | none => intro h; cases h
    | some m => intro h; simp at h; omega

/- Phase decomposition of the while-loop: a surviving counter `k + d` first
   spends the `k` phase (consuming exactly as many characters as the scan
   started at `k` alone), then continues as a fresh scan at `d`. -/

theorem scanBal_phase : ∀ (l : Str) (k n : Nat), scanBal l k = some n →
    ∀ d, scanBal l (k + d) = (scanBal (l.drop n) d).map (· + n) := by
  intro l
  induction l with
  | nil =>
    intro k n h d
    cases k with
    | succ k => cases h
    | zero =>
      cases h
      rw [Nat.zero_add, List.drop_nil]
      cases hd : scanBal [] d with
      | none => simp [hd]
      | some m => simp [hd]
  | cons c t ih =>
    intro k n h d
    cases k with
    | zero =>
      cases h
      rw [Nat.zero_add, List.drop_zero]
      cases hd : scanBal (c :: t) d with
      | none => simp [hd]
      | some m => simp [hd]
    | succ k =>
      revert h
      show (scanBal t _).map (· + 1) = some n → _
      cases hn : scanBal t (if c = '(' then k + 2 else if c = ')' then k else k + 1) with
      | none => intro h; cases h
      | some m =>
        intro h
        simp only [Option.map_some'] at h
        cases h
        have hrw : k + 1 + d = (k + d) + 1 := by omega
        rw [hrw]
        show (scanBal t (if c = '(' then k + d + 2 else if c = ')' then k + d else k + d + 1)).map
            (· + 1) = _
        have harg : (if c = '(' then k + d + 2 else if c = ')' then k + d else k + d + 1)
            = (if c = '(' then k + 2 else if c = ')' then k else k + 1) + d := by
          by_cases h1 : c = '('
          · rw [if_pos h1, if_pos h1]; omega
          · by_cases h2 : c = ')'
            · rw [if_neg h1, if_neg h1, if_pos h2, if_pos h2]
            · rw [if_neg h1, if_neg h1, if_neg h2, if_neg h2]; omega
        rw [harg, ih _ _ hn d, List.drop_succ_cons]
        cases hx : scanBal (t.drop m) d with
        | none => simp [hx]
        | some v => simp [hx, Nat.add_assoc]

/- The character that ends a successful while-loop scan is a ')'. -/

theorem scanBal_last_rparen : ∀ (l : Str) (k n : Nat),
    scanBal l (k + 1) = some n → l.get? (n - 1) = some ')' := by
  intro l
  induction l with
  | nil => intro k n h; cases h
  | cons c t ih =>
    intro k n h
    revert h
    show (scanBal t (if c = '(' then k + 2 else if c = ')' then k else k + 1)).map
        (· + 1) = some n → _
    by_cases h1 : c = '('
    · rw [if_pos h1]
      cases hn : scanBal t (k + 2) with
      | none => intro h; cases h
      | some m =>
        intro h
        simp only [Option.map_some'] at h
        cases h
        have hm : 1 ≤ m := scanBal_pos t (k + 1) m hn
        have := ih (k + 1) m hn
        rcases Nat.exists_eq_add_of_le hm with ⟨m', rfl⟩
        simp only [Nat.add_sub_cancel_left] at this ⊢
        rw [Nat.add_comm 1 m', Nat.add_sub_cancel]
        show (c :: t).get? (m' + 1) = some ')'
        simpa using this
    · by_cases h2 : c = ')'
      · rw [if_neg h1, if_pos h2]
        cases k with
        | zero =>
          rw [scanBal_zero]
          intro h
          simp only [Option.map_some'] at h
          cases h
          simp [h2]
        | succ k =>
          cases hn : scanBal t (k + 1) with
          | none => intro h; cases h
          | some m =>
            intro h
            simp only [Option.map_some'] at h
            cases h
            have hm : 1 ≤ m := scanBal_pos t k m hn
            have := ih k m hn
            rcases Nat.exists_eq_add_of_le hm with ⟨m', rfl⟩
            simp only [Nat.add_sub_cancel_left] at this ⊢
            rw [Nat.add_comm 1 m', Nat.add_sub_cancel]
            show (c :: t).get? (m' + 1) = some ')'
            simpa using this
      · rw [if_neg h1, if_neg h2]
        cases hn : scanBal t (k + 1) with
        | none => intro h; cases h
        | some m =>
          intro h
          simp only [Option.map_some'] at h
          cases h
          have hm : 1 ≤ m := scanBal_pos t k m hn
          have := ih k m hn
          rcases Nat.exists_eq_add_of_le hm with ⟨m', rfl⟩
          simp only [Nat.add_sub_cancel_left] at this ⊢
          rw [Nat.add_comm 1 m', Nat.add_sub_cancel]
          show (c :: t).get? (m' + 1) = some ')'
          simpa using this

theorem get?_drop_eq : ∀ (l : Str) (i j : Nat), (l.drop i).get? j = l.get? (i + j) := by
  intro l
  induction l with
  | nil => intro i j; cases i <;> rfl
  | cons c t ih =>
    intro i j
    cases i with
    | zero => rw [List.drop_zero, Nat.zero_add]
    | succ i =>
      show (t.drop i).get? j = (c :: t).get? (i + 1 + j)
      rw [ih i j]
      have : i + 1 + j = (i + j) + 1 := by omega
      rw [this]
      rfl

theorem exists_append_last : ∀ (l : Str) (c : Char),
    l.get? (l.length - 1) = some c → ∃ xs, l = xs ++ [c] := by
  intro l
  induction l with
  | nil => intro c h; cases h
  | cons a t ih =>
    intro c h
    cases t with
    | nil =>
      refine ⟨[], ?_⟩
      injection h with h2
      rw [h2, List.nil_append]
    | cons b t2 =>
      have h' : (b :: t2).get? ((b :: t2).length - 1) = some c := by
        simpa using h
      rcases ih c h' with ⟨xs, hxs⟩
      exact ⟨a :: xs, by rw [List.cons_append, ← hxs]⟩

/- Distinctness of scan ends: two while-loop scans started at distinct match
   ends (the second of which sits right after its '(') finish at distinct
   positions, because the earlier scan passes the later '(' with a counter of
   at least two and therefore strictly overshoots the later scan's end. -/

theorem scanEnd_distinct {X : Str} {e1 e2 n1 n2 : Nat} (he : e1 < e2)
    (hpar : X.get? (e2 - 1) = some '(')
    (h1 : scanBal (X.drop e1) 1 = some n1) (h2 : scanBal (X.drop e2) 1 = some n2) :
    e1 + n1 ≠ e2 + n2 := by
  have he2len : e2 ≤ X.length := by
    rcases List.get?_eq_some.mp hpar with ⟨hlt, _⟩
    omega
  have hn2 : 1 ≤ n2 := scanBal_pos _ 0 _ h2
  have hsplit : X.drop e1 = (X.drop e1).take (e2 - e1) ++ X.drop e2 := by
    conv_lhs => rw [← List.take_append_drop (e2 - e1) (X.drop e1)]
    rw [List.drop_drop]
    have : e1 + (e2 - e1) = e2 := by omega
    rw [this]
  set seg := (X.drop e1).take (e2 - e1) with hseg
  have hseglen : seg.length = e2 - e1 := by
    rw [hseg, List.length_take, List.length_drop]
    omega
  have hseglast : seg.get? (seg.length - 1) = some '(' := by
    rw [hseglen, hseg, List.get?_take (by omega : e2 - e1 - 1 < e2 - e1), get?_drop_eq]
    have : e1 + (e2 - e1 - 1) = e2 - 1 := by omega
    rw [this, hpar]
  rw [hsplit] at h1
  cases hp : scanBalP seg 1 with
  | inl n =>
    have hrun := scanBalP_inl_append seg 1 n hp (X.drop e2)
    rw [hrun] at h1
    injection h1 with h1
    have hle := scanBalP_inl_le seg 1 n hp
    rw [hseglen] at hle
    omega
  | inr k2 =>
    have hk2 : 2 ≤ k2 := by
      rcases exists_append_last seg '(' hseglast with ⟨xs, hxs⟩
      exact scanBalP_lparen_end xs 1 k2 (hxs ▸ hp)
    have hrun := scanBalP_inr_append seg 1 k2 hp (X.drop e2)
    rw [hrun] at h1
    cases hb : scanBal (X.drop e2) k2 with
    | none => rw [hb] at h1; cases h1
    | some v =>
      rw [hb] at h1
      simp only [Option.map_some', Option.some.injEq] at h1
      have hph := scanBal_phase (X.drop e2) 1 n2 h2 (k2 - 1)
      have hk2e : 1 + (k2 - 1) = k2 := by omega
      rw [hk2e] at hph
      rw [hph] at hb
      cases hc : scanBal ((X.drop e2).drop n2) (k2 - 1) with
      | none => rw [hc] at hb; cases hb
      | some w =>
        rw [hc] at hb
        simp only [Option.map_some', Option.some.injEq] at hb
        have hw : 1 ≤ w := by
          have hke : k2 - 1 = (k2 - 2) + 1 := by omega
          rw [hke] at hc
          exact scanBal_pos _ _ _ hc
        rw [hseglen] at h1
        omega

/- The character ending a regex match is the '(' itself. -/

theorem afterWs_lparen : ∀ (m : Str) (j r : Nat), afterWs m j = some r →
    m.get? (r - j - 1) = some '(' := by
  intro m
  induction m with
  | nil => intro j r h; cases h
  | cons c t ih =>
    intro j r h
    revert h
    show (if c = ' ' || c = '\n' then afterWs t (j + 1)
      else if c = '(' then some (j + 1) else Option.none) = some r → _
    by_cases hws : c = ' ' || c = '\n'
    · rw [if_pos hws]
      intro h
      have hgt := afterWs_gt h
      have := ih (j + 1) r h
      have harith : r - j - 1 = (r - (j + 1) - 1) + 1 := by omega
      rw [harith]
      simpa using this
    · rw [if_neg hws]
      by_cases hpar : c = '('
      · rw [if_pos hpar]
        intro h
        injection h with h2
        have : r - j - 1 = 0 := by omega
        rw [this, hpar]
        rfl
      · rw [if_neg hpar]
        intro h
        cases h

theorem matchLen_lparen {l : Str} {k : Nat} (h : matchLen l = some k) :
    l.get? (k - 1) = some '(' := by
  unfold matchLen at h
  split at h
  · have hgt := afterWs_gt h
    have := afterWs_lparen _ _ _ h
    rw [get?_drop_eq] at this
    have harith : 4 + (k - 4 - 1) = k - 1 := by omega
    rw [harith] at this
    exact this
  · split at h
    · have hgt := afterWs_gt h
      have := afterWs_lparen _ _ _ h
      rw [get?_drop_eq] at this
      have harith : 1 + (k - 1 - 1) = k - 1 := by omega
      rw [harith] at this
      exact this
    · cases h

/- Structure of the scan output: every reported end lies strictly beyond the
   scanning offset, ends a match of the pattern, and the ends are strictly
   increasing. -/

theorem finditerGo_gt : ∀ (fuel : Nat) (l : Str) (ofs e : Nat),
    e ∈ finditerGo fuel l ofs → ofs < e := by
  intro fuel
  induction fuel with
  | zero =>
    intro l ofs e h
    cases l with
    | nil => cases h
    | cons c t => cases h
  | succ fuel ih =>
    intro l ofs e h
    cases l with
    | nil => cases h
    | cons c t =>
      revert h
      show e ∈ (match matchLen (c :: t) with
        | some k => (ofs + k) :: finditerGo fuel (List.drop k (c :: t)) (ofs + k)
        | Option.none => finditerGo fuel t (ofs + 1)) → _
      cases hm : matchLen (c :: t) with
      | some k =>
        intro h
        have hk := matchLen_pos hm
        rcases List.mem_cons.mp h with h | h
        · omega
        · have := ih _ _ _ h
          omega
      | none =>
        intro h
        have := ih _ _ _ h
        omega

theorem finditerGo_matchEnd : ∀ (fuel : Nat) (X : Str) (i e : Nat),
    e ∈ finditerGo fuel (X.drop i) i →
    ∃ m, i ≤ m ∧ matchLen (X.drop m) = some (e - m) ∧ m < e := by
  intro fuel
  induction fuel with
  | zero =>
    intro X i e h
    cases hX : X.drop i with
    | nil => rw [hX] at h; cases h
    | cons c t => rw [hX] at h; cases h
  | succ fuel ih =>
    intro X i e h
    cases hX : X.drop i with
    | nil => rw [hX] at h; cases h
    | cons c t =>
      rw [hX] at h
      revert h
      show e ∈ (match matchLen (c :: t) with
        | some k => (i + k) :: finditerGo fuel (List.drop k (c :: t)) (i + k)
        | Option.none => finditerGo fuel t (i + 1)) → _
      cases hm : matchLen (c :: t) with
      | some k =>
        intro h
        have hk := matchLen_pos hm
        rcases List.mem_cons.mp h with h | h
        · refine ⟨i, Nat.le_refl i, ?_, by omega⟩
          rw [hX, h, hm]
          congr 1
          omega
        · have hdrop : List.drop k (c :: t) = X.drop (i + k) := by
            rw [← hX, List.drop_drop]
          rw [hdrop] at h
          rcases ih X (i + k) e h with ⟨m, hm1, hm2, hm3⟩
          exact ⟨m, by omega, hm2, hm3⟩
      | none =>
        intro h
        have hdrop : t = X.drop (i + 1) := by
          have : List.drop 1 (c :: t) = X.drop (i + 1) := by
            rw [← hX, List.drop_drop]
          simpa using this
        rw [hdrop] at h
        rcases ih X (i + 1) e h with ⟨m, hm1, hm2, hm3⟩
        exact ⟨m, by omega, hm2, hm3⟩

theorem finditerGo_pairwise : ∀ (fuel : Nat) (l : Str) (ofs : Nat),
    List.Pairwise (· < ·) (finditerGo fuel l ofs) := by
  intro fuel
  induction fuel with
  | zero =>
    intro l ofs
    cases l with
    | nil => exact List.Pairwise.nil
    | cons c t => exact List.Pairwise.nil
  | succ fuel ih =>
    intro l ofs
    cases l with
    | nil => exact List.Pairwise.nil
    | cons c t =>
      show List.Pairwise (· < ·) (match matchLen (c :: t) with
        | some k => (ofs + k) :: finditerGo fuel (List.drop k (c :: t)) (ofs + k)
        | Option.none => finditerGo fuel t (ofs + 1))
      cases hm : matchLen (c :: t) with
      | some k =>
        refine List.Pairwise.cons ?_ (ih _ _)
        intro e he
        exact finditerGo_gt fuel _ _ e he
      | none => exact ih _ _

/- Splice transparency of the pattern matcher: when a block `x` ends with a
   ')' the regex match at the start of `x ++ y` neither sees past `x` nor
   depends on `y`, because no pattern character matches the final ')'. -/

theorem isPrefixL_append_agree : ∀ (p x y z : Str), x ≠ [] →
    x.get? (x.length - 1) = some ')' → (∀ c ∈ p, ¬c = ')') →
    isPrefixL p (x ++ y) = isPrefixL p (x ++ z) := by
  intro p
  induction p with
  | nil => intro x y z _ _ _; rfl
  | cons a p' ih =>
    intro x y z hne hlast hp
    cases x with
    | nil => exact absurd rfl hne
    | cons c x' =>
      show (a == c && isPrefixL p' (x' ++ y)) = (a == c && isPrefixL p' (x' ++ z))
      cases x' with
      | nil =>
        have hc : c = ')' := by
          injection hlast
        have : (a == c) = false := by
          rw [hc]
          exact beq_eq_false_iff_ne.mpr (hp a (List.mem_cons_self a p'))
        rw [this]
        rfl
      | cons b x2 =>
        have hlast' : (b :: x2).get? ((b :: x2).length - 1) = some ')' := by
          simpa using hlast
        rw [ih (b :: x2) y z (by simp) hlast' (fun c hm => hp c (List.mem_cons_of_mem _ hm))]

theorem isPrefixL_append_len : ∀ (p x y : Str), isPrefixL p (x ++ y) = true →
    x.get? (x.length - 1) = some ')' → x ≠ [] → (∀ c ∈ p, ¬c = ')') →
    p.length < x.length := by
  intro p
  induction p with
  | nil =>
    intro x y _ _ hne _
    cases x with
    | nil => exact absurd rfl hne
    | cons c x' => simp
  | cons a p' ih =>
    intro x y h hlast hne hp
    cases x with
    | nil => exact absurd rfl hne
    | cons c x' =>
      have h' : (a == c && isPrefixL p' (x' ++ y)) = true := h
      rcases Bool.and_eq_true_iff.mp h' with ⟨hac, hrest⟩
      have hca : c = a := (beq_iff_eq.mp hac).symm
      cases x' with
      | nil =>
        injection hlast with h2
        exact absurd (hca.symm.trans h2) (hp a (List.mem_cons_self a p'))
      | cons b x2 =>
        have hlast' : (b :: x2).get? ((b :: x2).length - 1) = some ')' := by
          simpa using hlast
        have := ih (b :: x2) y hrest hlast' (by simp)
          (fun c hm => hp c (List.mem_cons_of_mem _ hm))
        simp only [List.length_cons] at this ⊢
        omega

theorem afterWs_append_agree : ∀ (w : Str), w ≠ [] →
    w.get? (w.length - 1) = some ')' → ∀ (j : Nat) (y z : Str),
    afterWs (w ++ y) j = afterWs (w ++ z) j := by
  intro w
  induction w with
  | nil => intro hne; exact absurd rfl hne
  | cons c w' ih =>
    intro _ hlast j y z
    show (if c = ' ' || c = '\n' then afterWs (w' ++ y) (j + 1)
      else if c = '(' then some (j + 1) else Option.none) =
      (if c = ' ' || c = '\n' then afterWs (w' ++ z) (j + 1)
      else if c = '(' then some (j + 1) else Option.none)
    cases w' with
    | nil =>
      have hc : c = ')' := by injection hlast
      rw [hc]
      rfl
    | cons b w2 =>
      have hlast' : (b :: w2).get? ((b :: w2).length - 1) = some ')' := by
        simpa using hlast
      by_cases hws : c = ' ' || c = '\n'
      · rw [if_pos hws, if_pos hws, ih (by simp) hlast' (j + 1) y z]
      · rw [if_neg hws, if_neg hws]

theorem afterWs_append_le : ∀ (w : Str), w ≠ [] →
    w.get? (w.length - 1) = some ')' → ∀ (j : Nat) (y : Str) (r : Nat),
    afterWs (w ++ y) j = some r → r ≤ j + w.length := by
  intro w
  induction w with
  | nil => intro hne; exact absurd rfl hne
  | cons c w' ih =>
    intro _ hlast j y r
    show (if c = ' ' || c = '\n' then afterWs (w' ++ y) (j + 1)
      else if c = '(' then some (j + 1) else Option.none) = some r → _
    cases w' with
    | nil =>
      have hc : c = ')' := by injection hlast
      rw [hc]
      intro h
      cases h
    | cons b w2 =>
      have hlast' : (b :: w2).get? ((b :: w2).length - 1) = some ')' := by
        simpa using hlast
      by_cases hws : c = ' ' || c = '\n'
      · rw [if_pos hws]
        intro h
        have := ih (by simp) hlast' (j + 1) y r h
        simp only [List.length_cons] at this ⊢
        omega
      · rw [if_neg hws]
        by_cases hpar : c = '('
        · rw [if_pos hpar]
          intro h
          injection h with h2
          simp only [List.length_cons]
          omega
        · rw [if_neg hpar]
          intro h
          cases h

theorem drop_ne_nil_of_lt {x : Str} {n : Nat} (h : n < x.length) : x.drop n ≠ [] := by
  intro hcon
  have := List.length_drop n x
  rw [hcon] at this
  simp at this
  omega

theorem drop_last_rparen {x : Str} {n : Nat} (hn : n < x.length)
    (hlast : x.get? (x.length - 1) = some ')') :
    (x.drop n).get? ((x.drop n).length - 1) = some ')' := by
  rw [List.length_drop, get?_drop_eq]
  have : n + (x.length - n - 1) = x.length - 1 := by omega
  rw [this]
  exact hlast

theorem matchLen_append_agree (x y z : Str) (hne : x ≠ [])
    (hlast : x.get? (x.length - 1) = some ')') :
    matchLen (x ++ y) = matchLen (x ++ z) := by
  unfold matchLen
  have hfrom := isPrefixL_append_agree (str "from") x y z hne hlast (by decide)
  have hcomma := isPrefixL_append_agree (str ",") x y z hne hlast (by decide)
  by_cases hf : isPrefixL (str "from") (x ++ y) = true
  · rw [if_pos hf, if_pos (hfrom ▸ hf)]
    have hlen := isPrefixL_append_len (str "from") x y hf hlast hne (by decide)
    have hlen4 : 4 < x.length := hlen
    have hdy : (x ++ y).drop 4 = x.drop 4 ++ y :=
      List.drop_append_of_le_length (by omega)
    have hdz : (x ++ z).drop 4 = x.drop 4 ++ z :=
      List.drop_append_of_le_length (by omega)
    rw [hdy, hdz]
    exact afterWs_append_agree (x.drop 4) (drop_ne_nil_of_lt (by omega))
      (drop_last_rparen (by omega) hlast) 4 y z
  · have hfz : ¬isPrefixL (str "from") (x ++ z) = true := by rw [← hfrom]; exact hf
    rw [if_neg hf, if_neg hfz]
    by_cases hc : isPrefixL (str ",") (x ++ y) = true
    · rw [if_pos hc, if_pos (hcomma ▸ hc)]
      have hlen := isPrefixL_append_len (str ",") x y hc hlast hne (by decide)
      have hlen1 : 1 < x.length := hlen
      have hdy : (x ++ y).drop 1 = x.drop 1 ++ y :=
        List.drop_append_of_le_length (by omega)
      have hdz : (x ++ z).drop 1 = x.drop 1 ++ z :=
        List.drop_append_of_le_length (by omega)
      rw [hdy, hdz]
      exact afterWs_append_agree (x.drop 1) (drop_ne_nil_of_lt (by omega))
        (drop_last_rparen (by omega) hlast) 1 y z
    · have hcz : ¬isPrefixL (str ",") (x ++ z) = true := by rw [← hcomma]; exact hc
      rw [if_neg hc, if_neg hcz]

theorem matchLen_append_le (x y : Str) (k : Nat) (hne : x ≠ [])
    (hlast : x.get? (x.length - 1) = some ')')
    (h : matchLen (x ++ y) = some k) : k ≤ x.length := by
  unfold matchLen at h
  split at h
  · rename_i hf
    have hlen := isPrefixL_append_len (str "from") x y hf hlast hne (by decide)
    have hlen4 : 4 < x.length := hlen
    rw [List.drop_append_of_le_length (by omega : 4 ≤ x.length)] at h
    have := afterWs_append_le (x.drop 4) (drop_ne_nil_of_lt (by omega))
      (drop_last_rparen (by omega) hlast) 4 y k h
    rw [List.length_drop] at this
    omega
  · split at h
    · rename_i hc
      have hlen := isPrefixL_append_len (str ",") x y hc hlast hne (by decide)
      have hlen1 : 1 < x.length := hlen
      rw [List.drop_append_of_le_length (by omega : 1 ≤ x.length)] at h
      have := afterWs_append_le (x.drop 1) (drop_ne_nil_of_lt (by omega))
        (drop_last_rparen (by omega) hlast) 1 y k h
      rw [List.length_drop] at this
      omega
    · cases h

/- Position shift induced by splicing " as alias123 " (13 characters) into a
   text at position `p`. -/

def shiftIns (p e : Nat) : Nat := if e ≤ p then e else e + 13

theorem insertAlias_drop_le {X : Str} {p i : Nat} (hip : i ≤ p) (hpX : p ≤ X.length) :
    (insertAlias X p).drop i =
      (X.drop i).take (p - i) ++ (str " as alias123 " ++ X.drop p) := by
  unfold insertAlias
  rw [List.append_assoc]
  rw [List.drop_append_of_le_length (by rw [List.length_take]; omega)]
  rw [List.drop_take]

theorem insertAlias_drop_ge {X : Str} {p i : Nat} (hip : p ≤ i) (hpX : p ≤ X.length) :
    (insertAlias X p).drop (i + 13) = X.drop i := by
  unfold insertAlias
  rw [List.append_assoc]
  have h1 : i + 13 = (X.take p).length + (13 + (i - p)) := by
    rw [List.length_take]
    omega
  rw [h1, List.drop_append]
  have h2 : 13 + (i - p) = (str " as alias123 ").length + (i - p) := by rfl
  rw [h2, List.drop_append, List.drop_drop]
  have h3 : p + (i - p) = i := by omega
  rw [h3]

theorem finditerW_ne_some {l : Str} (hne : l ≠ []) {k : Nat} (h : matchLen l = some k)
    (ofs : Nat) :
    finditerW l ofs = (ofs + k) :: finditerW (l.drop k) (ofs + k) := by
  cases l with
  | nil => exact absurd rfl hne
  | cons c t => exact finditerW_cons_some ofs h

theorem finditerW_ne_none {l : Str} (hne : l ≠ []) (h : matchLen l = Option.none)
    (ofs : Nat) :
    finditerW l ofs = finditerW (l.drop 1) (ofs + 1) := by
  cases l with
  | nil => exact absurd rfl hne
  | cons c t => exact finditerW_cons_none ofs h

theorem finditerW_gt {l : Str} {ofs e : Nat} (h : e ∈ finditerW l ofs) : ofs < e := by
  rw [← finditerGo_eq (l.length + 1) l ofs (Nat.lt_succ_self _)] at h
  exact finditerGo_gt _ _ _ _ h

theorem matchLen_sp (l : Str) : matchLen (' ' :: l) = Option.none := rfl

theorem matchLen_a (l : Str) : matchLen ('a' :: l) = Option.none := rfl

theorem matchLen_s (l : Str) : matchLen ('s' :: l) = Option.none := rfl

theorem matchLen_l (l : Str) : matchLen ('l' :: l) = Option.none := rfl

theorem matchLen_i (l : Str) : matchLen ('i' :: l) = Option.none := rfl

theorem matchLen_d1 (l : Str) : matchLen ('1' :: l) = Option.none := rfl

theorem matchLen_d2 (l : Str) : matchLen ('2' :: l) = Option.none := rfl

theorem matchLen_d3 (l : Str) : matchLen ('3' :: l) = Option.none := rfl

theorem finditerW_block (b : Str) (ofs : Nat) :
    finditerW (str " as alias123 " ++ b) ofs = finditerW b (ofs + 13) := by
  show finditerW (' ' :: 'a' :: 's' :: ' ' :: 'a' :: 'l' :: 'i' :: 'a' :: 's' ::
    '1' :: '2' :: '3' :: ' ' :: b) ofs = finditerW b (ofs + 13)
  rw [finditerW_cons_none (ofs) (matchLen_sp _),
    finditerW_cons_none (ofs + 1) (matchLen_a _),
    finditerW_cons_none (ofs + 1 + 1) (matchLen_s _),
    finditerW_cons_none (ofs + 1 + 1 + 1) (matchLen_sp _),
    finditerW_cons_none (ofs + 1 + 1 + 1 + 1) (matchLen_a _),
    finditerW_cons_none (ofs + 1 + 1 + 1 + 1 + 1) (matchLen_l _),
    finditerW_cons_none (ofs + 1 + 1 + 1 + 1 + 1 + 1) (matchLen_i _),
    finditerW_cons_none (ofs + 1 + 1 + 1 + 1 + 1 + 1 + 1) (matchLen_a _),
    finditerW_cons_none (ofs + 1 + 1 + 1 + 1 + 1 + 1 + 1 + 1) (matchLen_s _),
    finditerW_cons_none (ofs + 1 + 1 + 1 + 1 + 1 + 1 + 1 + 1 + 1) (matchLen_d1 _),
    finditerW_cons_none (ofs + 1 + 1 + 1 + 1 + 1 + 1 + 1 + 1 + 1 + 1) (matchLen_d2 _),
    finditerW_cons_none (ofs + 1 + 1 + 1 + 1 + 1 + 1 + 1 + 1 + 1 + 1 + 1) (matchLen_d3 _),
    finditerW_cons_none (ofs + 1 + 1 + 1 + 1 + 1 + 1 + 1 + 1 + 1 + 1 + 1 + 1) (matchLen_sp _)]

theorem finditerW_ofs_shift : ∀ (N : Nat) (l : Str), l.length ≤ N →
    ∀ (ofs c : Nat), finditerW l (ofs + c) = (finditerW l ofs).map (· + c) := by
  intro N
  induction N with
  | zero =>
    intro l hl ofs c
    have : l = [] := List.length_eq_zero.mp (by omega)
    rw [this, finditerW_nil, finditerW_nil]
    rfl
  | succ N ih =>
    intro l hl ofs c
    cases hl0 : l with
    | nil => rw [finditerW_nil, finditerW_nil]; rfl
    | cons a t =>
      rw [← hl0]
      have hne : l ≠ [] := by rw [hl0]; simp
      cases hm : matchLen l with
      | some k =>
        have hk := matchLen_pos hm
        rw [finditerW_ne_some hne hm (ofs + c), finditerW_ne_some hne hm ofs]
        have h1 : ofs + c + k = (ofs + k) + c := by omega
        rw [h1, ih (l.drop k) (by rw [List.length_drop]; rw [hl0] at hl ⊢; simp at hl ⊢; omega)
          (ofs + k) c]
        rfl
      | none =>
        rw [finditerW_ne_none hne hm (ofs + c), finditerW_ne_none hne hm ofs]
        have h1 : ofs + c + 1 = (ofs + 1) + c := by omega
        rw [h1, ih (l.drop 1) (by rw [List.length_drop]; rw [hl0] at hl ⊢; simp at hl ⊢; omega)
          (ofs + 1) c]

/- Splicing " as alias123 " right after a ')' at position `p` shifts the regex
   match ends by 13 beyond `p` and leaves the earlier ones unchanged: no match
   can straddle the splice point (the ')' blocks every pattern character) and
   the block itself contains no match start. -/

theorem finditerW_insert : ∀ (N : Nat) (X : Str) (p : Nat), p ≤ X.length →
    X.get? (p - 1) = some ')' → ∀ i, i ≤ p → X.length - i ≤ N →
    finditerW ((insertAlias X p).drop i) i =
      (finditerW (X.drop i) i).map (shiftIns p) := by
  intro N
  induction N with
  | zero =>
    intro X p hpX hlast i hip hN
    have hieq : i = p := by omega
    subst hieq
    have hXd : X.drop i = [] := List.drop_eq_nil_of_le (by omega)
    rw [insertAlias_drop_le (Nat.le_refl i) hpX, hXd]
    rw [List.take_nil, List.nil_append]
    rw [finditerW_block [] i, finditerW_nil, finditerW_nil]
    rfl
  | succ N ih =>
    intro X p hpX hlast i hip hN
    by_cases hipq : i = p
    · subst hipq
      rw [insertAlias_drop_le (Nat.le_refl i) hpX]
      rw [Nat.sub_self, List.take_zero, List.nil_append]
      rw [finditerW_block (X.drop i) i]
      rw [finditerW_ofs_shift X.length (X.drop i) (by rw [List.length_drop]; omega) i 13]
      apply List.map_congr_left
      intro e he
      have hgt : i < e := finditerW_gt he
      unfold shiftIns
      rw [if_neg (by omega)]
    · have hlt : i < p := by omega
      have hpne : X.drop i ≠ [] := drop_ne_nil_of_lt (by omega)
      have hmidne : (X.drop i).take (p - i) ≠ [] := by
        intro hcon
        have := congrArg List.length hcon
        rw [List.length_take, List.length_drop] at this
        simp at this
        omega
      have hmidlast : ((X.drop i).take (p - i)).get?
          (((X.drop i).take (p - i)).length - 1) = some ')' := by
        rw [List.length_take, List.length_drop]
        have hmin : min (p - i) (X.length - i) = p - i := by omega
        rw [hmin, List.get?_take (by omega : p - i - 1 < p - i), get?_drop_eq]
        have harith : i + (p - i - 1) = p - 1 := by omega
        rw [harith]
        exact hlast
      have hXi : X.drop i = (X.drop i).take (p - i) ++ X.drop p := by
        conv_lhs => rw [← List.take_append_drop (p - i) (X.drop i)]
        rw [List.drop_drop]
        have harith : i + (p - i) = p := by omega
        rw [harith]
      have hXi' : (insertAlias X p).drop i =
          (X.drop i).take (p - i) ++ (str " as alias123 " ++ X.drop p) :=
        insertAlias_drop_le (by omega) hpX
      have hmagree : matchLen ((insertAlias X p).drop i) = matchLen (X.drop i) := by
        rw [hXi']
        conv_rhs => rw [hXi]
        exact matchLen_append_agree _ _ _ hmidne hmidlast
      have hne' : (insertAlias X p).drop i ≠ [] := by
        rw [hXi']
        intro hcon
        exact hmidne (List.append_eq_nil.mp hcon).1
      cases hm : matchLen (X.drop i) with
      | none =>
        rw [finditerW_ne_none hne' (hmagree.trans hm) i,
            finditerW_ne_none hpne hm i]
        rw [List.drop_drop, List.drop_drop]
        exact ih X p hpX hlast (i + 1) (by omega) (by omega)
      | some k =>
        have hk := matchLen_pos hm
        have hbound : k ≤ p - i := by
          have hmb : matchLen ((X.drop i).take (p - i) ++ X.drop p) = some k := by
            rw [← hXi]
            exact hm
          have := matchLen_append_le _ _ k hmidne hmidlast hmb
          rw [List.length_take, List.length_drop] at this
          omega
        rw [finditerW_ne_some hne' (hmagree.trans hm) i,
            finditerW_ne_some hpne hm i]
        rw [List.drop_drop, List.drop_drop]
        rw [List.map_cons]
        have hsh : shiftIns p (i + k) = i + k := by
          unfold shiftIns
          rw [if_pos (by omega)]
        rw [hsh]
        congr 1
        exact ih X p hpX hlast (i + k) (by omega) (by omega)

theorem aliasBlock_noParen : ∀ c ∈ str " as alias123 ", ¬c = '(' ∧ ¬c = ')' := by
  decide

/- The while-loop scan across the splice point: a scan from a match end at or
   before `p` either finishes by `p` (and is unchanged by the splice) or
   passes `p` with a live counter, silently crosses the paren-free block, and
   finishes 13 characters later. -/

theorem scanBal_insert {X : Str} {p e len : Nat} (hpX : p ≤ X.length) (hep : e ≤ p)
    (h : scanBal (X.drop e) 1 = some len) :
    (e + len ≤ p ∧ scanBal ((insertAlias X p).drop e) 1 = some len) ∨
    (p < e + len ∧ scanBal ((insertAlias X p).drop e) 1 = some (len + 13)) := by
  have hmidlen : ((X.drop e).take (p - e)).length = p - e := by
    rw [List.length_take, List.length_drop]
    omega
  have hXi : X.drop e = (X.drop e).take (p - e) ++ X.drop p := by
    conv_lhs => rw [← List.take_append_drop (p - e) (X.drop e)]
    rw [List.drop_drop]
    have harith : e + (p - e) = p := by omega
    rw [harith]
  have hXi' : (insertAlias X p).drop e =
      (X.drop e).take (p - e) ++ (str " as alias123 " ++ X.drop p) :=
    insertAlias_drop_le hep hpX
  rw [hXi] at h
  cases hp : scanBalP ((X.drop e).take (p - e)) 1 with
  | inl n =>
    rw [scanBalP_inl_append _ _ _ hp] at h
    injection h with h2
    have hle := scanBalP_inl_le _ _ _ hp
    rw [hmidlen] at hle
    left
    constructor
    · omega
    · rw [hXi']
      rw [scanBalP_inl_append _ _ _ hp]
      rw [h2]
  | inr k2 =>
    have hk2 : 1 ≤ k2 := scanBalP_inr_pos _ _ _ hp
    rw [scanBalP_inr_append _ _ _ hp] at h
    cases hv : scanBal (X.drop p) k2 with
    | none => rw [hv] at h; cases h
    | some v =>
      rw [hv] at h
      simp only [Option.map_some', Option.some.injEq] at h
      have hvpos : 1 ≤ v := by
        rcases Nat.exists_eq_add_of_le hk2 with ⟨k2', rfl⟩
        rw [Nat.add_comm 1 k2'] at hv
        exact scanBal_pos _ _ _ hv
      right
      constructor
      · rw [hmidlen] at h
        omega
      · rw [hXi']
        rw [scanBalP_inr_append _ _ _ hp]
        have hblock : scanBal (str " as alias123 " ++ X.drop p) k2 =
            (scanBal (X.drop p) k2).map (· + 13) := by
          rcases Nat.exists_eq_add_of_le hk2 with ⟨k2', rfl⟩
          rw [scanBalP_inr_append (str " as alias123 ") (1 + k2') (1 + k2')
            (by rw [Nat.add_comm 1 k2']; exact scanBalP_noParen _ aliasBlock_noParen k2')
            (X.drop p)]
          rfl
        rw [hblock, hv]
        simp only [Option.map_some', Option.map_some']
        rw [hmidlen] at h
        congr 1
        omega

/- The two-stage token cut `split(" ")[0].split("\n")[0]` of `next_word`,
   applied after the `lstrip`. -/

def twWord (l : Str) : Str :=
  (l.takeWhile (fun c => c != ' ')).takeWhile (fun c => c != '\n')

def nwOf (l : Str) : Str := twWord (l.dropWhile pySpace)

theorem nextWord_eq_nwOf (qtext : Str) (pos : Nat) :
    nextWord qtext pos = nwOf (qtext.drop pos) := rfl

theorem twWord_space (l : Str) : twWord (' ' :: l) = [] := rfl

theorem twWord_newline (l : Str) : twWord ('\n' :: l) = [] := rfl

theorem twWord_cons {c : Char} (l : Str) (h1 : ¬c = ' ') (h2 : ¬c = '\n') :
    twWord (c :: l) = c :: twWord l := by
  unfold twWord
  rw [List.takeWhile_cons, if_pos (by simp [h1]), List.takeWhile_cons, if_pos (by simp [h2])]

theorem twWord_insert : ∀ (mid : Str), mid ≠ [] →
    mid.get? (mid.length - 1) = some ')' → ∀ rest,
    twWord (mid ++ (str " as alias123 " ++ rest)) = twWord (mid ++ rest) ∨
    (twWord (mid ++ (str " as alias123 " ++ rest)) ≠ [] ∧
     (twWord (mid ++ (str " as alias123 " ++ rest))).get?
       ((twWord (mid ++ (str " as alias123 " ++ rest))).length - 1) = some ')' ∧
     ∃ ext, twWord (mid ++ rest) = twWord (mid ++ (str " as alias123 " ++ rest)) ++ ext) := by
  intro mid
  induction mid with
  | nil => intro hne; exact absurd rfl hne
  | cons c mid' ih =>
    intro _ hlast rest
    by_cases hmidnil : mid' = []
    · subst hmidnil
      have hc : c = ')' := by injection hlast
      subst hc
      simp only [List.cons_append, List.nil_append]
      right
      refine ⟨?_, ?_, twWord rest, ?_⟩
      · rw [show twWord (')' :: (str " as alias123 " ++ rest)) = [')'] from rfl]
        simp
      · rw [show twWord (')' :: (str " as alias123 " ++ rest)) = [')'] from rfl]
        rfl
      · rw [twWord_cons rest (by decide) (by decide)]
        rw [show twWord (')' :: (str " as alias123 " ++ rest)) = [')'] from rfl]
        rfl
    · have hlast' : mid'.get? (mid'.length - 1) = some ')' := by
        cases mid' with
        | nil => exact absurd rfl hmidnil
        | cons b mid2 => simpa using hlast
      by_cases hsp : c = ' '
      · subst hsp
        left
        rw [List.cons_append, List.cons_append, twWord_space, twWord_space]
      · by_cases hnl : c = '\n'
        · subst hnl
          left
          rw [List.cons_append, List.cons_append, twWord_newline, twWord_newline]
        · rw [List.cons_append, List.cons_append,
            twWord_cons _ hsp hnl, twWord_cons _ hsp hnl]
          rcases ih hmidnil hlast' rest with h | ⟨hne2, hlast2, ext, hext⟩
          · left
            rw [h]
          · right
            refine ⟨by simp, ?_, ext, by rw [hext, List.cons_append]⟩
            cases htv : twWord (mid' ++ (str " as alias123 " ++ rest)) with
            | nil => exact absurd htv hne2
            | cons d tv2 =>
              rw [htv] at hlast2
              simp only [List.length_cons] at hlast2 ⊢
              have harith : tv2.length + 1 + 1 - 1 = tv2.length + 1 := by omega
              rw [harith]
              rw [show ((c :: d :: tv2).get? (tv2.length + 1)) =
                ((d :: tv2).get? tv2.length) from rfl]
              simpa using hlast2

theorem nwOf_cons_ws {c : Char} (l : Str) (h : pySpace c = true) :
    nwOf (c :: l) = nwOf l := by
  unfold nwOf
  rw [List.dropWhile_cons, if_pos h]

theorem nwOf_cons_not_ws {c : Char} (l : Str) (h : ¬pySpace c = true) :
    nwOf (c :: l) = twWord (c :: l) := by
  unfold nwOf
  rw [List.dropWhile_cons, if_neg h]

/- Full `next_word` correspondence across the splice: the spliced word is the
   original word, or a prefix of it that was cut at the block's leading space
   and therefore ends with the ')' that closed the subquery. -/

theorem nwOf_insert : ∀ (mid : Str), mid ≠ [] →
    mid.get? (mid.length - 1) = some ')' → ∀ rest,
    nwOf (mid ++ (str " as alias123 " ++ rest)) = nwOf (mid ++ rest) ∨
    (nwOf (mid ++ (str " as alias123 " ++ rest)) ≠ [] ∧
     (nwOf (mid ++ (str " as alias123 " ++ rest))).get?
       ((nwOf (mid ++ (str " as alias123 " ++ rest))).length - 1) = some ')' ∧
     ∃ ext, nwOf (mid ++ rest) = nwOf (mid ++ (str " as alias123 " ++ rest)) ++ ext) := by
  intro mid
  induction mid with
  | nil => intro hne; exact absurd rfl hne
  | cons c mid' ih =>
    intro _ hlast rest
    by_cases hws : pySpace c = true
    · by_cases hmidnil : mid' = []
      · subst hmidnil
        have hc : c = ')' := by injection hlast
        subst hc
        exact absurd hws (by decide)
      · have hlast' : mid'.get? (mid'.length - 1) = some ')' := by
          cases mid' with
          | nil => exact absurd rfl hmidnil
          | cons b mid2 => simpa using hlast
        rw [List.cons_append, List.cons_append, nwOf_cons_ws _ hws, nwOf_cons_ws _ hws]
        exact ih hmidnil hlast' rest
    · have h := twWord_insert (c :: mid') (by simp) hlast rest
      simp only [List.cons_append] at h ⊢
      rw [nwOf_cons_not_ws _ hws, nwOf_cons_not_ws _ hws]
      exact h

theorem isKeyword_no_rparen {w : Str} (h : ')' ∈ w) : isKeyword w = false := by
  cases hk : isKeyword w with
  | false => rfl
  | true =>
    exfalso
    unfold isKeyword at hk
    rcases Bool.or_eq_true_iff.mp hk with h4 | h4
    · rcases Bool.or_eq_true_iff.mp h4 with h5 | h5
      · rcases Bool.or_eq_true_iff.mp h5 with h6 | h6
        · rw [beq_iff_eq.mp h6] at h
          revert h
          decide
        · rw [beq_iff_eq.mp h6] at h
          revert h
          decide
      · rw [beq_iff_eq.mp h5] at h
        revert h
        decide
    · rw [beq_iff_eq.mp h4] at h
      revert h
      decide

theorem wordFlag_of_insert {v v2 : Str}
    (hdisj : v2 = v ∨ (v2 ≠ [] ∧ v2.get? (v2.length - 1) = some ')' ∧
      ∃ ext, v = v2 ++ ext)) :
    wordFlag v2 = wordFlag v := by
  rcases hdisj with rfl | ⟨hne, hlast, ext, hext⟩
  · rfl
  · cases v2 with
    | nil => exact absurd rfl hne
    | cons c tv =>
      subst hext
      have hk2 : isKeyword (c :: tv) = false :=
        isKeyword_no_rparen (List.get?_mem hlast)
      have hget : ((c :: tv) ++ ext).get? ((c :: tv).length - 1) = some ')' := by
        rw [List.get?_append (by simp only [List.length_cons]; omega)]
        exact hlast
      have hkv : isKeyword ((c :: tv) ++ ext) = false :=
        isKeyword_no_rparen (List.get?_mem hget)
      rw [List.cons_append]
      show some (c == ')' || c == ',' || isKeyword (c :: tv)) =
        some (c == ')' || c == ',' || isKeyword (c :: (tv ++ ext)))
      rw [hk2]
      rw [show (c :: (tv ++ ext)) = ((c :: tv) ++ ext) from rfl, hkv]

theorem toNat_ofNat_valid (m : Nat) (hm : m.isValidChar) : (Char.ofNat m).toNat = m := by
  unfold Char.ofNat
  rw [dif_pos hm]
  rfl

/- Lowercasing maps only latin capitals; a ')' in the lowered text is a ')'
   in the original. -/

theorem toLower_eq_rparen {c : Char} (h : Char.toLower c = ')') : c = ')' := by
  have hdef : Char.toLower c =
      if c.toNat ≥ 65 ∧ c.toNat ≤ 90 then Char.ofNat (c.toNat + 32) else c := rfl
  rw [hdef] at h
  by_cases hcond : c.toNat ≥ 65 ∧ c.toNat ≤ 90
  · rw [if_pos hcond] at h
    exfalso
    have hval : (c.toNat + 32).isValidChar := Or.inl (by omega)
    have htn := toNat_ofNat_valid (c.toNat + 32) hval
    rw [h] at htn
    have h41 : (')' : Char).toNat = 41 := by decide
    omega
  · rw [if_neg hcond] at h
    exact h

theorem map_toLower_insertAlias (t : Str) (p : Nat) :
    (insertAlias t p).map Char.toLower = insertAlias (t.map Char.toLower) p := by
  unfold insertAlias
  rw [List.map_append, List.map_append, List.map_take, List.map_drop]
  rw [show (str " as alias123 ").map Char.toLower = str " as alias123 " from by decide]

/- The `next_word` test at the three kinds of positions of the spliced text:
   strictly before the splice the flag is unchanged, at the splice the word is
   "as" (flag false), and beyond the splice the word is untouched. -/

theorem nextWord_insert_lt {t : Str} {p pos : Nat} (hpt : p ≤ t.length)
    (hpos : pos < p) (hlastT : t.get? (p - 1) = some ')') :
    wordFlag (nextWord (insertAlias t p) pos) = wordFlag (nextWord t pos) := by
  rw [nextWord_eq_nwOf, nextWord_eq_nwOf]
  have hmidne : (t.drop pos).take (p - pos) ≠ [] := by
    intro hcon
    have := congrArg List.length hcon
    rw [List.length_take, List.length_drop] at this
    simp at this
    omega
  have hmidlast : ((t.drop pos).take (p - pos)).get?
      (((t.drop pos).take (p - pos)).length - 1) = some ')' := by
    rw [List.length_take, List.length_drop]
    have hmin : min (p - pos) (t.length - pos) = p - pos := by omega
    rw [hmin, List.get?_take (by omega : p - pos - 1 < p - pos), get?_drop_eq]
    have harith : pos + (p - pos - 1) = p - 1 := by omega
    rw [harith]
    exact hlastT
  have hXi : t.drop pos = (t.drop pos).take (p - pos) ++ t.drop p := by
    conv_lhs => rw [← List.take_append_drop (p - pos) (t.drop pos)]
    rw [List.drop_drop]
    have harith : pos + (p - pos) = p := by omega
    rw [harith]
  have hXi' : (insertAlias t p).drop pos =
      (t.drop pos).take (p - pos) ++ (str " as alias123 " ++ t.drop p) :=
    insertAlias_drop_le (by omega) hpt
  rw [hXi']
  conv_rhs => rw [hXi]
  exact wordFlag_of_insert (nwOf_insert _ hmidne hmidlast (t.drop p))

theorem nextWord_insert_eq {t : Str} {p : Nat} (hpt : p ≤ t.length) :
    wordFlag (nextWord (insertAlias t p) p) = some false := by
  rw [nextWord_eq_nwOf]
  rw [insertAlias_drop_le (Nat.le_refl p) hpt, Nat.sub_self, List.take_zero, List.nil_append]
  rfl

theorem nextWord_insert_gt {t : Str} {p pos : Nat} (hpt : p ≤ t.length) (hpos : p ≤ pos) :
    nextWord (insertAlias t p) (pos + 13) = nextWord t pos := by
  rw [nextWord_eq_nwOf, nextWord_eq_nwOf, insertAlias_drop_ge hpos hpt]

/- Every recorded position is a scan end of one of the processed match ends. -/

theorem aliasPositionsGo_mem : ∀ (text qtext : Str) (es qs : List Nat),
    aliasPositionsGo text qtext es = some qs → ∀ q ∈ qs,
    ∃ e, e ∈ es ∧ ∃ len, scanBal (text.drop e) 1 = some len ∧ q = e + len := by
  intro text qtext es
  induction es with
  | nil =>
    intro qs h q hq
    injection h with h2
    rw [← h2] at hq
    cases hq
  | cons e rest ih =>
    intro qs h q hq
    revert h
    show (match scanBal (text.drop e) 1 with
      | Option.none => Option.none
      | some len =>
        match wordFlag (nextWord qtext (e + len)) with
        | Option.none => Option.none
        | some b =>
          match aliasPositionsGo text qtext rest with
          | Option.none => Option.none
          | some ps => some (if b then (e + len) :: ps else ps)) = some qs → _
    cases hscan : scanBal (text.drop e) 1 with
    | none => intro h; cases h
    | some len =>
      dsimp only
      cases hwf : wordFlag (nextWord qtext (e + len)) with
      | none => intro h; cases h
      | some b =>
        dsimp only
        cases hrec : aliasPositionsGo text qtext rest with
        | none => intro h; cases h
        | some qs2 =>
          dsimp only
          intro h
          injection h with h2
          rw [← h2] at hq
          cases b with
          | true =>
            rcases List.mem_cons.mp hq with hq | hq
            · exact ⟨e, List.mem_cons_self e rest, len, hscan, hq⟩
            · rcases ih qs2 hrec q hq with ⟨e2, he2, len2, hs2, hq2⟩
              exact ⟨e2, List.mem_cons_of_mem _ he2, len2, hs2, hq2⟩
          | false =>
            rcases ih qs2 hrec q hq with ⟨e2, he2, len2, hs2, hq2⟩
            exact ⟨e2, List.mem_cons_of_mem _ he2, len2, hs2, hq2⟩

theorem aliasPositionsGo_cons (text qtext : Str) (e : Nat) (rest : List Nat) :
    aliasPositionsGo text qtext (e :: rest) =
      match scanBal (text.drop e) 1 with
      | Option.none => Option.none
      | some len =>
        match wordFlag (nextWord qtext (e + len)) with
        | Option.none => Option.none
        | some b =>
          match aliasPositionsGo text qtext rest with
          | Option.none => Option.none
          | some ps => some (if b then (e + len) :: ps else ps) := rfl

/- The per-entry correspondence, folded over the whole scan: after splicing at
   a recorded position `p` that is an upper bound of the recorded positions,
   the loop records exactly the original positions with `p` removed. -/

theorem aliasPositionsGo_insert (t : Str) (p : Nat) (hpt : p ≤ t.length)
    (hlastX : (t.map Char.toLower).get? (p - 1) = some ')') :
    ∀ es qs,
    (∀ e ∈ es, 1 ≤ e ∧ (t.map Char.toLower).get? (e - 1) = some '(') →
    List.Pairwise (· < ·) es →
    aliasPositionsGo (t.map Char.toLower) t es = some qs →
    (∀ q ∈ qs, q ≤ p) →
    aliasPositionsGo ((insertAlias t p).map Char.toLower) (insertAlias t p)
      (es.map (shiftIns p)) = some (qs.erase p) := by
  have hXlen : (t.map Char.toLower).length = t.length := List.length_map t Char.toLower
  have hlastT : t.get? (p - 1) = some ')' := by
    rw [List.get?_map] at hlastX
    cases hg : t.get? (p - 1) with
    | none => rw [hg] at hlastX; cases hlastX
    | some c =>
      rw [hg] at hlastX
      simp only [Option.map_some', Option.some.injEq] at hlastX
      rw [toLower_eq_rparen hlastX]
  have hlastX' : (t.map Char.toLower).get? (p - 1) = some ')' := by
    rw [List.get?_map, hlastT]
    rfl
  intro es
  induction es with
  | nil =>
    intro qs _ _ h _
    injection h with h2
    rw [← h2]
    rfl
  | cons e es' ih =>
    intro qs hfa hpair h hle
    have hfe := hfa e (List.mem_cons_self e es')
    have hep : ¬e = p := by
      intro hcon
      rw [hcon] at hfe
      rw [hfe.2] at hlastX'
      injection hlastX' with h2
      exact absurd h2 (by decide)
    rw [map_toLower_insertAlias, List.map_cons]
    rw [aliasPositionsGo_cons] at h
    cases hscan : scanBal ((t.map Char.toLower).drop e) 1 with
    | none =>
      rw [hscan] at h
      simp at h
    | some len =>
      rw [hscan] at h
      dsimp only at h
      cases hwf : wordFlag (nextWord t (e + len)) with
      | none =>
        rw [hwf] at h
        simp at h
      | some b =>
        rw [hwf] at h
        dsimp only at h
        cases hrec : aliasPositionsGo (t.map Char.toLower) t es' with
        | none =>
          rw [hrec] at h
          simp at h
        | some qs' =>
          rw [hrec] at h
          dsimp only at h
          injection h with h2
          have hfa' : ∀ e2 ∈ es', 1 ≤ e2 ∧ (t.map Char.toLower).get? (e2 - 1) = some '(' :=
            fun e2 hm => hfa e2 (List.mem_cons_of_mem _ hm)
          have hpair' : List.Pairwise (· < ·) es' := hpair.of_cons
          have hqs'le : ∀ q ∈ qs', q ≤ p := by
            intro q hq
            apply hle
            rw [← h2]
            cases b
            · exact hq
            · exact List.mem_cons_of_mem _ hq
          have hrecI := ih qs' hfa' hpair' hrec hqs'le
          rw [map_toLower_insertAlias] at hrecI
          by_cases helt : e < p
          · have hse : shiftIns p e = e := by
              unfold shiftIns
              rw [if_pos (by omega)]
            rcases scanBal_insert (by omega : p ≤ (t.map Char.toLower).length)
                (by omega : e ≤ p) hscan with ⟨hposle, hscan'⟩ | ⟨hposgt, hscan'⟩
            · by_cases hpose : e + len = p
              · have hpnotqs' : p ∉ qs' := by
                  intro hmem
                  rcases aliasPositionsGo_mem _ _ _ _ hrec p hmem with
                    ⟨e2, he2, len2, hs2, hq2⟩
                  have he2gt : e < e2 := (List.pairwise_cons.mp hpair).1 e2 he2
                  have he2par := (hfa' e2 he2).2
                  exact scanEnd_distinct he2gt he2par hscan hs2 (by omega)
                have hwf' : wordFlag (nextWord (insertAlias t p) (e + len)) = some false := by
                  rw [hpose]
                  exact nextWord_insert_eq hpt
                rw [hse, aliasPositionsGo_cons, hscan']
                dsimp only
                rw [hwf']
                dsimp only
                rw [hrecI]
                dsimp only
                rw [List.erase_of_not_mem hpnotqs']
                cases b
                · rw [show qs = qs' from by rw [← h2]; rfl, List.erase_of_not_mem hpnotqs']
                  rfl
                · rw [show qs = (e + len) :: qs' from by rw [← h2]; rfl, hpose,
                    List.erase_cons_head]
                  rfl
              · have hposlt : e + len < p := by omega
                have hwf' : wordFlag (nextWord (insertAlias t p) (e + len)) = some b := by
                  rw [nextWord_insert_lt hpt hposlt hlastT, hwf]
                rw [hse, aliasPositionsGo_cons, hscan']
                dsimp only
                rw [hwf']
                dsimp only
                rw [hrecI]
                dsimp only
                cases b
                · rw [show qs = qs' from by rw [← h2]; rfl]
                  rfl
                · rw [show qs = (e + len) :: qs' from by rw [← h2]; rfl,
                    List.erase_cons_tail (by simpa using hpose)]
                  rfl
            · have hbf : b = false := by
                cases b
                · rfl
                · exfalso
                  have hmem : (e + len) ∈ qs := by
                    rw [← h2]
                    exact List.mem_cons_self _ _
                  have := hle _ hmem
                  omega
              subst hbf
              have hwf' : wordFlag (nextWord (insertAlias t p) (e + (len + 13)))
                  = some false := by
                have harith : e + (len + 13) = (e + len) + 13 := by omega
                rw [harith, nextWord_insert_gt hpt (by omega), hwf]
              rw [hse, aliasPositionsGo_cons, hscan']
              dsimp only
              rw [hwf']
              dsimp only
              rw [hrecI]
              dsimp only
              rw [show qs = qs' from by rw [← h2]; rfl]
              rfl
          · have hegt : p < e := by omega
            have hse : shiftIns p e = e + 13 := by
              unfold shiftIns
              rw [if_neg (by omega)]
            have hscan' : scanBal ((insertAlias (t.map Char.toLower) p).drop (e + 13)) 1
                = some len := by
              rw [insertAlias_drop_ge (by omega) (by omega)]
              exact hscan
            have hbf : b = false := by
              cases b
              · rfl
              · exfalso
                have hmem : (e + len) ∈ qs := by
                  rw [← h2]
                  exact List.mem_cons_self _ _
                have hl := hle _ hmem
                have hlp := scanBal_pos _ _ _ hscan
                omega
            subst hbf
            have hwf' : wordFlag (nextWord (insertAlias t p) (e + 13 + len))
                = some false := by
              have harith : e + 13 + len = (e + len) + 13 := by omega
              rw [harith, nextWord_insert_gt hpt (by omega), hwf]
            rw [hse, aliasPositionsGo_cons, hscan']
            dsimp only
            rw [hwf']
            dsimp only
            rw [hrecI]
            dsimp only
            rw [show qs = qs' from by rw [← h2]; rfl]
            rfl

/- `sorted(positions, reverse=True)`: structure of the insertion sort — it is
   a permutation, descending, and peels off a maximum first. -/

theorem insDescNat_perm (x : Nat) : ∀ l : List Nat, List.Perm (insDescNat x l) (x :: l) := by
  intro l
  induction l with
  | nil => exact List.Perm.refl _
  | cons y ys ih =>
    show List.Perm (if x > y then x :: y :: ys else y :: insDescNat x ys) _
    by_cases hxy : x > y
    · rw [if_pos hxy]
    · rw [if_neg hxy]
      exact List.Perm.trans (List.Perm.cons y ih) (List.Perm.swap x y ys)

theorem sortDescNat_perm : ∀ l : List Nat, List.Perm (sortDescNat l) l := by
  intro l
  induction l with
  | nil => exact List.Perm.refl _
  | cons x xs ih =>
    exact List.Perm.trans (insDescNat_perm x (sortDescNat xs)) (List.Perm.cons x ih)

theorem insDescNat_sorted (x : Nat) : ∀ l : List Nat,
    List.Pairwise (fun a b => b ≤ a) l →
    List.Pairwise (fun a b => b ≤ a) (insDescNat x l) := by
  intro l
  induction l with
  | nil => intro _; exact List.pairwise_singleton _ x
  | cons y ys ih =>
    intro hp
    rcases List.pairwise_cons.mp hp with ⟨hy, hys⟩
    show List.Pairwise _ (if x > y then x :: y :: ys else y :: insDescNat x ys)
    by_cases hxy : x > y
    · rw [if_pos hxy]
      refine List.pairwise_cons.mpr ⟨?_, hp⟩
      intro z hz
      rcases List.mem_cons.mp hz with rfl | hz
      · omega
      · have := hy z hz
        omega
    · rw [if_neg hxy]
      refine List.pairwise_cons.mpr ⟨?_, ih hys⟩
      intro z hz
      have hz2 : z ∈ x :: ys := (insDescNat_perm x ys).mem_iff.mp hz
      rcases List.mem_cons.mp hz2 with rfl | hz2
      · omega
      · exact hy z hz2

theorem sortDescNat_sorted : ∀ l : List Nat,
    List.Pairwise (fun a b => b ≤ a) (sortDescNat l) := by
  intro l
  induction l with
  | nil => exact List.Pairwise.nil
  | cons x xs ih => exact insDescNat_sorted x (sortDescNat xs) ih

theorem sortDescNat_max_cons (ps : List Nat) (hne : ps ≠ []) :
    ∃ p, p ∈ ps ∧ (∀ q ∈ ps, q ≤ p) ∧
      sortDescNat ps = p :: sortDescNat (ps.erase p) := by
  haveI : IsAntisymm Nat (fun a b => b ≤ a) := ⟨fun a b h1 h2 => Nat.le_antisymm h2 h1⟩
  cases hs : sortDescNat ps with
  | nil =>
    exfalso
    have := (sortDescNat_perm ps).symm
    rw [hs] at this
    cases ps with
    | nil => exact hne rfl
    | cons a l => exact (List.not_mem_nil a) (this.mem_iff.mp (List.mem_cons_self a l))
  | cons p rest =>
    have hperm : List.Perm (p :: rest) ps := by
      rw [← hs]
      exact sortDescNat_perm ps
    have hsorted : List.Pairwise (fun a b => b ≤ a) (p :: rest) := by
      rw [← hs]
      exact sortDescNat_sorted ps
    refine ⟨p, hperm.mem_iff.mp (List.mem_cons_self p rest), ?_, ?_⟩
    · intro q hq
      rcases List.mem_cons.mp (hperm.symm.mem_iff.mp hq) with rfl | hq2
      · exact Nat.le_refl q
      · exact (List.pairwise_cons.mp hsorted).1 q hq2
    · refine congrArg (List.cons p) ?_
      have hpe : List.Perm rest (ps.erase p) := by
        refine List.Perm.trans ?_ (hperm.erase p)
        rw [List.erase_cons_head]
      have hs2 : List.Pairwise (fun a b => b ≤ a) rest := (List.pairwise_cons.mp hsorted).2
      have hs3 : List.Pairwise (fun a b => b ≤ a) (sortDescNat (ps.erase p)) :=
        sortDescNat_sorted _
      exact List.eq_of_perm_of_sorted
        (List.Perm.trans hpe (sortDescNat_perm (ps.erase p)).symm) hs2 hs3

/- Single-splice step: inserting " as alias123 " at a recorded position that
   bounds all recorded positions leaves exactly the other recorded positions. -/

theorem aliasPositions_insert {t : Str} {p : Nat} {ps : List Nat}
    (hm : aliasPositions t = some ps) (hp : p ∈ ps) (hmax : ∀ q ∈ ps, q ≤ p) :
    aliasPositions (insertAlias t p) = some (ps.erase p) := by
  unfold aliasPositions at hm ⊢
  have hXlen : (t.map Char.toLower).length = t.length := List.length_map t Char.toLower
  have hfa : ∀ e ∈ finditer (t.map Char.toLower),
      1 ≤ e ∧ (t.map Char.toLower).get? (e - 1) = some '(' := by
    intro e he
    have he2 : e ∈ finditerGo ((t.map Char.toLower).length + 1)
        ((t.map Char.toLower).drop 0) 0 := by
      rw [List.drop_zero]
      exact he
    rcases finditerGo_matchEnd _ _ _ _ he2 with ⟨m, hm0, hmatch, hmlt⟩
    have hpar := matchLen_lparen hmatch
    rw [get?_drop_eq] at hpar
    have hk := matchLen_pos hmatch
    have harith : m + (e - m - 1) = e - 1 := by omega
    rw [harith] at hpar
    exact ⟨by omega, hpar⟩
  have hpair : List.Pairwise (· < ·) (finditer (t.map Char.toLower)) :=
    finditerGo_pairwise ((t.map Char.toLower).length + 1) (t.map Char.toLower) 0
  rcases aliasPositionsGo_mem _ _ _ _ hm p hp with ⟨e, he, len, hscan, hpe⟩
  have hlen1 : 1 ≤ len := scanBal_pos _ _ _ hscan
  have hlastX : (t.map Char.toLower).get? (p - 1) = some ')' := by
    have hlr := scanBal_last_rparen _ _ _ hscan
    rw [get?_drop_eq] at hlr
    have harith : e + (len - 1) = p - 1 := by omega
    rw [harith] at hlr
    exact hlr
  have hplen : p ≤ t.length := by
    rcases List.get?_eq_some.mp hlastX with ⟨hlt, _⟩
    rw [hXlen] at hlt
    omega
  have hGo := aliasPositionsGo_insert t p hplen hlastX (finditer (t.map Char.toLower)) ps
    hfa hpair hm hmax
  have hfin : finditer ((insertAlias t p).map Char.toLower) =
      (finditer (t.map Char.toLower)).map (shiftIns p) := by
    rw [map_toLower_insertAlias]
    rw [finditer_eq_W, finditer_eq_W]
    have hW := finditerW_insert ((t.map Char.toLower).length) (t.map Char.toLower) p
      (by omega) hlastX 0 (Nat.zero_le p) (by omega)
    rw [List.drop_zero] at hW
    exact hW
  rw [hfin]
  exact hGo

theorem aliasPositions_foldl : ∀ (n : Nat) (ps : List Nat) (t : Str),
    ps.length = n → aliasPositions t = some ps →
    aliasPositions ((sortDescNat ps).foldl insertAlias t) = some [] := by
  intro n
  induction n with
  | zero =>
    intro ps t hlen hm
    have hnil : ps = [] := List.length_eq_zero.mp hlen
    subst hnil
    exact hm
  | succ n ih =>
    intro ps t hlen hm
    have hne : ps ≠ [] := by
      intro hcon
      rw [hcon] at hlen
      cases hlen
    rcases sortDescNat_max_cons ps hne with ⟨p, hpmem, hpmax, hsort⟩
    rw [hsort, List.foldl_cons]
    refine ih (ps.erase p) (insertAlias t p) ?_ ?_
    · rw [List.length_erase_of_mem hpmem, hlen]
      rfl
    · exact aliasPositions_insert hm hpmem hpmax

/-- C6: alias injection is idempotent — for every query text on which
`_add_alias_subquery` succeeds (the Python function either returns a text or
raises IndexError), applying the function to its own output returns that
output unchanged, so running it twice produces the same aliased text as
running it once.  The proof shows that each " as alias123 " splice happens
right after the ')' closing a recorded subquery, where it neither creates nor
destroys any regex match, shifts the later scan ends by the splice length,
turns its own position's next word into "as" (recorded no more), and leaves
every other next-word flag unchanged; peeling the recorded positions from the
largest down empties the recorded set. -/
theorem add_alias_subquery_idempotent (t u : Str)
    (h : _add_alias_subquery t = some u) : _add_alias_subquery u = some u := by
  unfold _add_alias_subquery at h ⊢
  cases hap : aliasPositions t with
  | none => rw [hap] at h; cases h
  | some ps =>
    rw [hap] at h
    injection h with h2
    have hres := aliasPositions_foldl ps.length ps t rfl hap
    rw [h2] at hres
    rw [hres]
    rw [← h2]
    rfl

theorem add_alias_subquery_idempotent_witness :
    _add_alias_subquery (str "select * from (select 1) where x") =
      some (str "select * from (select 1) as alias123  where x") ∧
    _add_alias_subquery (str "select * from (select 1) as alias123  where x") =
      some (str "select * from (select 1) as alias123  where x") :=
  ⟨rfl, add_alias_subquery_idempotent
    (str "select * from (select 1) where x")
    (str "select * from (select 1) as alias123  where x") rfl⟩
